import Mathlib

/-!
# Verification of the `octrees` Python library

A shallow embedding of the octree library (point octrees and blob octrees
over 3D space) together with proofs about the claims of its specification.

Conventions of the embedding:

* Coordinates are rationals (`ℚ`); the Python code uses floats, and every
  geometric comparison in the code (`<`, `<=`, midpoint arithmetic) is
  translated verbatim over `ℚ`.
* The Python code computes Euclidean distances with `sqrt`.  Since `sqrt`
  is strictly monotone on nonnegative reals and every score the library
  compares is a `sqrt` of a rational sum of squares, the embedding keeps
  the *squared* distances (computable over `ℚ`); statements about distance
  ordering are equivalent, and statements about the distances themselves
  apply `Real.sqrt` to the squared values.
* Exceptions are modelled by explicit result types (`Res`, `Option`),
  and the unbounded recursion of `insert` (splitting a singleton until
  the two points separate) is modelled with explicit fuel: running out of
  fuel yields `Res.noFuel`, which never occurs in the actual Python runs
  that terminate.
-/

set_option maxHeartbeats 1600000

abbrev Coord := ℚ

/-- A point `(x, y, z)`. -/
abbrev Point := Coord × Coord × Coord

/-- An interval `(min, max)`. -/
abbrev Ival := Coord × Coord

/-- A box `((minx, maxx), (miny, maxy), (minz, maxz))`. -/
abbrev Box := Ival × Ival × Ival

/-- `geometry.centroid`: the centroid of box `b`. -/
def centroid (b : Box) : Point :=
  ((b.1.1 + b.1.2) / 2, (b.2.1.1 + b.2.1.2) / 2, (b.2.2.1 + b.2.2.2) / 2)

/-- `geometry.point_in_box`: is `p` in `b`?  Half-open on the upper side. -/
def point_in_box (p : Point) (b : Box) : Bool :=
  decide (b.1.1 ≤ p.1) && decide (p.1 < b.1.2) &&
  (decide (b.2.1.1 ≤ p.2.1) && decide (p.2.1 < b.2.1.2)) &&
  (decide (b.2.2.1 ≤ p.2.2) && decide (p.2.2 < b.2.2.2))

/-- `geometry.box_contains`: is all of `b1` in `b2`? -/
def box_contains (b1 b2 : Box) : Bool :=
  decide (b2.1.1 ≤ b1.1.1) && decide (b1.1.2 ≤ b2.1.2) &&
  (decide (b2.2.1.1 ≤ b1.2.1.1) && decide (b1.2.1.2 ≤ b2.2.1.2)) &&
  (decide (b2.2.2.1 ≤ b1.2.2.1) && decide (b1.2.2.2 ≤ b2.2.2.2))

/-- `geometry.boxes_disjoint`: are `b1` and `b2` disjoint? -/
def boxes_disjoint (b1 b2 : Box) : Bool :=
  decide (b2.1.2 ≤ b1.1.1) || decide (b1.1.2 ≤ b2.1.1) ||
  decide (b2.2.1.2 ≤ b1.2.1.1) || decide (b1.2.1.2 ≤ b2.2.1.1) ||
  decide (b2.2.2.2 ≤ b1.2.2.1) || decide (b1.2.2.2 ≤ b2.2.2.1)

/-- `geometry.union_box`: the smallest box containing `b1` and `b2`. -/
def union_box (b1 b2 : Box) : Box :=
  ((min b1.1.1 b2.1.1, max b1.1.2 b2.1.2),
   (min b1.2.1.1 b2.2.1.1, max b1.2.1.2 b2.2.1.2),
   (min b1.2.2.1 b2.2.2.1, max b1.2.2.2 b2.2.2.2))

/-- The `n`-th of the eight sub-octants of `b`, in the order produced by
`geometry.subboxes` (x-bit worth 4, y-bit worth 2, z-bit worth 1). -/
def subbox (b : Box) (n : ℕ) : Box :=
  let m := centroid b
  let xlo : Ival := (b.1.1, m.1)
  let xhi : Ival := (m.1, b.1.2)
  let ylo : Ival := (b.2.1.1, m.2.1)
  let yhi : Ival := (m.2.1, b.2.1.2)
  let zlo : Ival := (b.2.2.1, m.2.2)
  let zhi : Ival := (m.2.2, b.2.2.2)
  match n with
  | 0 => (xlo, ylo, zlo)
  | 1 => (xlo, ylo, zhi)
  | 2 => (xlo, yhi, zlo)
  | 3 => (xlo, yhi, zhi)
  | 4 => (xhi, ylo, zlo)
  | 5 => (xhi, ylo, zhi)
  | 6 => (xhi, yhi, zlo)
  | 7 => (xhi, yhi, zhi)
  | _ => b

/-- `geometry.subboxes`: the eight boxes contained within a box, in order. -/
def subboxes (b : Box) : List Box :=
  [subbox b 0, subbox b 1, subbox b 2, subbox b 3,
   subbox b 4, subbox b 5, subbox b 6, subbox b 7]

/-- `geometry.narrow`: narrow down a box to the subbox containing `coords`,
returning the octant index and the subbox. -/
def narrow (b : Box) (p : Point) : ℕ × Box :=
  let m := centroid b
  let nx : ℕ := if p.1 < m.1 then 0 else 4
  let ix : Ival := if p.1 < m.1 then (b.1.1, m.1) else (m.1, b.1.2)
  let ny : ℕ := if p.2.1 < m.2.1 then 0 else 2
  let iy : Ival := if p.2.1 < m.2.1 then (b.2.1.1, m.2.1) else (m.2.1, b.2.1.2)
  let nz : ℕ := if p.2.2 < m.2.2 then 0 else 1
  let iz : Ival := if p.2.2 < m.2.2 then (b.2.2.1, m.2.2) else (m.2.2, b.2.2.2)
  (nx + ny + nz, (ix, iy, iz))

/-- `geometry.euclidean_point_point`, squared: the code returns
`sqrt` of this quantity. -/
def euclidean_point_point_sq (p q : Point) : ℚ :=
  (p.1 - q.1) ^ 2 + (p.2.1 - q.2.1) ^ 2 + (p.2.2 - q.2.2) ^ 2

/-- `geometry.nearest_point_in_box`: the nearest point of box `b` to `p`. -/
def nearest_point_in_box (p : Point) (b : Box) : Point :=
  (if p.1 < b.1.1 then b.1.1 else if p.1 < b.1.2 then p.1 else b.1.2,
   if p.2.1 < b.2.1.1 then b.2.1.1 else if p.2.1 < b.2.1.2 then p.2.1 else b.2.1.2,
   if p.2.2 < b.2.2.1 then b.2.2.1 else if p.2.2 < b.2.2.2 then p.2.2 else b.2.2.2)

/-- `geometry.furthest_point_in_box`: the furthest point of box `b` from `p`. -/
def furthest_point_in_box (p : Point) (b : Box) : Point :=
  (if 2 * p.1 > b.1.1 + b.1.2 then b.1.1 else b.1.2,
   if 2 * p.2.1 > b.2.1.1 + b.2.1.2 then b.2.1.1 else b.2.1.2,
   if 2 * p.2.2 > b.2.2.1 + b.2.2.2 then b.2.2.1 else b.2.2.2)

/-- `geometry.euclidean_point_box`, squared. -/
def euclidean_point_box_sq (p : Point) (b : Box) : ℚ :=
  euclidean_point_point_sq p (nearest_point_in_box p b)

/-- `geometry.euclidean_point_box_max`, squared. -/
def euclidean_point_box_max_sq (p : Point) (b : Box) : ℚ :=
  euclidean_point_point_sq p (furthest_point_in_box p b)

/-- A box is well-formed when `min ≤ max` on each axis. -/
def wfBox (b : Box) : Bool :=
  decide (b.1.1 ≤ b.1.2) && decide (b.2.1.1 ≤ b.2.1.2) && decide (b.2.2.1 ≤ b.2.2.2)

/-- The core tree variant of `octree_inner.py`: `Empty`, `Singleton`, or a
`Node` of exactly eight subtrees. -/
inductive OTree (α : Type) : Type where
  | empty : OTree α
  | singleton (coords : Point) (data : α) : OTree α
  | node (c0 c1 c2 c3 c4 c5 c6 c7 : OTree α) : OTree α
deriving DecidableEq

namespace OTree

variable {α : Type}

def isEmpty : OTree α → Bool
  | empty => true
  | _ => false

def isSingleton : OTree α → Bool
  | singleton _ _ => true
  | _ => false

def isNode : OTree α → Bool
  | node _ _ _ _ _ _ _ _ => true
  | _ => false

/-- The `n`-th child of a node (`empty` outside a node or out of range). -/
def chl : OTree α → ℕ → OTree α
  | node c0 c1 c2 c3 c4 c5 c6 c7, n =>
    match n with
    | 0 => c0
    | 1 => c1
    | 2 => c2
    | 3 => c3
    | 4 => c4
    | 5 => c5
    | 6 => c6
    | 7 => c7
    | _ => empty
  | _, _ => empty

/-- Build a node from a function giving its eight children. -/
def mkNode (f : ℕ → OTree α) : OTree α :=
  node (f 0) (f 1) (f 2) (f 3) (f 4) (f 5) (f 6) (f 7)

/-- The children of a node as a list (empty list otherwise). -/
def childList : OTree α → List (OTree α)
  | node c0 c1 c2 c3 c4 c5 c6 c7 => [c0, c1, c2, c3, c4, c5, c6, c7]
  | _ => []

/-- `OTree.smartnode`: assemble eight octants into a node, collapsing a
node that would hold at most one singleton and no sub-node. -/
def smartnode (c0 c1 c2 c3 c4 c5 c6 c7 : OTree α) : OTree α :=
  let l := [c0, c1, c2, c3, c4, c5, c6, c7]
  if l.any isNode then node c0 c1 c2 c3 c4 c5 c6 c7
  else
    match l.filter isSingleton with
    | [] => empty
    | [s] => s
    | _ => node c0 c1 c2 c3 c4 c5 c6 c7

/-- `smartnode` applied to the children given by a function. -/
def smartnodeF (f : ℕ → OTree α) : OTree α :=
  smartnode (f 0) (f 1) (f 2) (f 3) (f 4) (f 5) (f 6) (f 7)

/-- Iteration (`__iter__`): the stored `(coords, data)` pairs in traversal
order. -/
def entries : OTree α → List (Point × α)
  | empty => []
  | singleton p d => [(p, d)]
  | node c0 c1 c2 c3 c4 c5 c6 c7 =>
    entries c0 ++ entries c1 ++ entries c2 ++ entries c3 ++
    entries c4 ++ entries c5 ++ entries c6 ++ entries c7

/-- The stored coordinates. -/
def keys (t : OTree α) : List Point :=
  (entries t).map Prod.fst

end OTree

/-- Result of a fallible tree operation: success, a raised `KeyError`, or
fuel exhaustion (an artifact of the embedding, not of the Python code). -/
inductive Res (α : Type) : Type where
  | ok (t : OTree α) : Res α
  | keyError : Res α
  | noFuel : Res α
deriving DecidableEq

namespace Res

variable {α : Type}

def bind : Res α → (OTree α → Res α) → Res α
  | ok t, f => f t
  | keyError, _ => keyError
  | noFuel, _ => noFuel

end Res

namespace OTree

variable {α : Type}

/-- `insert`: add a point, raising `KeyError` if the coordinates are
already present.  An `Empty` becomes a singleton; a `Singleton` splits by
re-inserting both points into a fresh all-empty node; a `Node` recurses
into the octant chosen by `narrow` and rebuilds the node (without
`smartnode`).  Fuel bounds the recursion depth of the splitting. -/
def insert [DecidableEq α] (fuel : ℕ) (b : Box) (t : OTree α) (p : Point) (d : α) : Res α :=
  match fuel with
  | 0 => .noFuel
  | fuel + 1 =>
    match t with
    | empty => .ok (singleton p d)
    | singleton q dq =>
      if q = p then .keyError
      else
        (insert fuel b (node empty empty empty empty empty empty empty empty) q dq).bind
          fun t1 => insert fuel b t1 p d
    | node c0 c1 c2 c3 c4 c5 c6 c7 =>
      let t' := node c0 c1 c2 c3 c4 c5 c6 c7
      let nn := narrow b p
      (insert fuel nn.2 (chl t' nn.1) p d).bind fun u =>
        .ok (mkNode (Function.update (chl t') nn.1 u))

/-- `update`: add a point, replacing (or keeping, when `replace` is false)
an existing entry at the same coordinates. -/
def update [DecidableEq α] (fuel : ℕ) (b : Box) (t : OTree α) (p : Point) (d : α)
    (replace : Bool) : Res α :=
  match fuel with
  | 0 => .noFuel
  | fuel + 1 =>
    match t with
    | empty => .ok (singleton p d)
    | singleton q dq =>
      if q = p then (if replace then .ok (singleton p d) else .ok (singleton q dq))
      else
        (insert fuel b (node empty empty empty empty empty empty empty empty) q dq).bind
          fun t1 => insert fuel b t1 p d
    | node c0 c1 c2 c3 c4 c5 c6 c7 =>
      let t' := node c0 c1 c2 c3 c4 c5 c6 c7
      let nn := narrow b p
      (update fuel nn.2 (chl t' nn.1) p d replace).bind fun u =>
        .ok (mkNode (Function.update (chl t') nn.1 u))

/-- `remove`: remove the point at `p`, returning `none` for the raised
`KeyError` when it is absent.  A node recurses into the `narrow` octant and
reassembles through `smartnode`. -/
def remove (b : Box) (t : OTree α) (p : Point) : Option (OTree α) :=
  match t with
  | empty => none
  | singleton q _ => if q = p then some empty else none
  | node c0 c1 c2 c3 c4 c5 c6 c7 =>
    let nn := narrow b p
    match nn.1 with
    | 0 => (remove nn.2 c0 p).map fun u => smartnode u c1 c2 c3 c4 c5 c6 c7
    | 1 => (remove nn.2 c1 p).map fun u => smartnode c0 u c2 c3 c4 c5 c6 c7
    | 2 => (remove nn.2 c2 p).map fun u => smartnode c0 c1 u c3 c4 c5 c6 c7
    | 3 => (remove nn.2 c3 p).map fun u => smartnode c0 c1 c2 u c4 c5 c6 c7
    | 4 => (remove nn.2 c4 p).map fun u => smartnode c0 c1 c2 c3 u c5 c6 c7
    | 5 => (remove nn.2 c5 p).map fun u => smartnode c0 c1 c2 c3 c4 u c6 c7
    | 6 => (remove nn.2 c6 p).map fun u => smartnode c0 c1 c2 c3 c4 c5 u c7
    | 7 => (remove nn.2 c7 p).map fun u => smartnode c0 c1 c2 c3 c4 c5 c6 u
    | _ => none

/-- `union`: point-wise union of two trees over the same bounds; dispatch
mirrors the Python method dispatch on the first receiver, with the
`swapped` flag deciding who wins coordinate collisions. -/
def union [DecidableEq α] (fuel : ℕ) (b : Box) (t1 t2 : OTree α) (swapped : Bool) : Res α :=
  match fuel with
  | 0 => .noFuel
  | fuel + 1 =>
    match t1, t2 with
    | empty, _ => .ok t2
    | singleton p d, _ => update fuel b t2 p d swapped
    | node a0 a1 a2 a3 a4 a5 a6 a7, empty => .ok (node a0 a1 a2 a3 a4 a5 a6 a7)
    | node a0 a1 a2 a3 a4 a5 a6 a7, singleton q e =>
      update fuel b (node a0 a1 a2 a3 a4 a5 a6 a7) q e (!swapped)
    | node a0 a1 a2 a3 a4 a5 a6 a7, node b0 b1 b2 b3 b4 b5 b6 b7 =>
      if swapped then
        union fuel b (node b0 b1 b2 b3 b4 b5 b6 b7) (node a0 a1 a2 a3 a4 a5 a6 a7) false
      else
        (union fuel (subbox b 0) a0 b0 false).bind fun u0 =>
        (union fuel (subbox b 1) a1 b1 false).bind fun u1 =>
        (union fuel (subbox b 2) a2 b2 false).bind fun u2 =>
        (union fuel (subbox b 3) a3 b3 false).bind fun u3 =>
        (union fuel (subbox b 4) a4 b4 false).bind fun u4 =>
        (union fuel (subbox b 5) a5 b5 false).bind fun u5 =>
        (union fuel (subbox b 6) a6 b6 false).bind fun u6 =>
        (union fuel (subbox b 7) a7 b7 false).bind fun u7 =>
        .ok (node u0 u1 u2 u3 u4 u5 u6 u7)

/-- `rebound`: produce a tree valid for `newb`, dropping points outside.
The node case follows the code: when `box_contains oldb newb` holds (all of
the old bounds inside the new), recurse into each sub-octant of `newb`
against the whole tree; when disjoint, return `empty`; otherwise rebound
each child against `newb` and fold the eight results with `union`. -/
def rebound [DecidableEq α] (fuel : ℕ) (oldb newb : Box) (t : OTree α) : Res α :=
  match fuel with
  | 0 => .noFuel
  | fuel + 1 =>
    match t with
    | empty => .ok empty
    | singleton p d => .ok (if point_in_box p newb then singleton p d else empty)
    | node c0 c1 c2 c3 c4 c5 c6 c7 =>
      let t' := node c0 c1 c2 c3 c4 c5 c6 c7
      if box_contains oldb newb then
        (rebound fuel oldb (subbox newb 0) t').bind fun r0 =>
        (rebound fuel oldb (subbox newb 1) t').bind fun r1 =>
        (rebound fuel oldb (subbox newb 2) t').bind fun r2 =>
        (rebound fuel oldb (subbox newb 3) t').bind fun r3 =>
        (rebound fuel oldb (subbox newb 4) t').bind fun r4 =>
        (rebound fuel oldb (subbox newb 5) t').bind fun r5 =>
        (rebound fuel oldb (subbox newb 6) t').bind fun r6 =>
        (rebound fuel oldb (subbox newb 7) t').bind fun r7 =>
        .ok (node r0 r1 r2 r3 r4 r5 r6 r7)
      else if boxes_disjoint oldb newb then .ok empty
      else
        (rebound fuel (subbox oldb 0) newb c0).bind fun s0 =>
        (rebound fuel (subbox oldb 1) newb c1).bind fun s1 =>
        (rebound fuel (subbox oldb 2) newb c2).bind fun s2 =>
        (rebound fuel (subbox oldb 3) newb c3).bind fun s3 =>
        (rebound fuel (subbox oldb 4) newb c4).bind fun s4 =>
        (rebound fuel (subbox oldb 5) newb c5).bind fun s5 =>
        (rebound fuel (subbox oldb 6) newb c6).bind fun s6 =>
        (rebound fuel (subbox oldb 7) newb c7).bind fun s7 =>
        (union fuel newb s0 s1 false).bind fun v1 =>
        (union fuel newb v1 s2 false).bind fun v2 =>
        (union fuel newb v2 s3 false).bind fun v3 =>
        (union fuel newb v3 s4 false).bind fun v4 =>
        (union fuel newb v4 s5 false).bind fun v5 =>
        (union fuel newb v5 s6 false).bind fun v6 =>
        (union fuel newb v6 s7 false).bind fun v7 =>
        .ok v7

/-- The structural validity invariant of a tree relative to its bounds:
singletons lie inside their box, and every node is non-degenerate (at
least two non-empty children or at least one node child) with each child
valid for its octant box. -/
def validB (b : Box) : OTree α → Bool
  | empty => true
  | singleton p _ => point_in_box p b
  | node c0 c1 c2 c3 c4 c5 c6 c7 =>
    (decide (2 ≤ ([c0, c1, c2, c3, c4, c5, c6, c7].countP fun t => !t.isEmpty)) ||
      [c0, c1, c2, c3, c4, c5, c6, c7].any isNode) &&
    validB (subbox b 0) c0 && validB (subbox b 1) c1 &&
    validB (subbox b 2) c2 && validB (subbox b 3) c3 &&
    validB (subbox b 4) c4 && validB (subbox b 5) c5 &&
    validB (subbox b 6) c6 && validB (subbox b 7) c7

/-- A single node's non-degeneracy, as a predicate on its child list. -/
def nondegL (l : List (OTree α)) : Bool :=
  decide (2 ≤ (l.countP fun t => !t.isEmpty)) || l.any isNode

/-- Every node of the tree is non-degenerate (invariant 2 of the spec,
without reference to bounds). -/
def nondegAll : OTree α → Bool
  | empty => true
  | singleton _ _ => true
  | node c0 c1 c2 c3 c4 c5 c6 c7 =>
    nondegL [c0, c1, c2, c3, c4, c5, c6, c7] &&
    nondegAll c0 && nondegAll c1 && nondegAll c2 && nondegAll c3 &&
    nondegAll c4 && nondegAll c5 && nondegAll c6 && nondegAll c7

end OTree

/-- A box is proper when `min < max` on each axis (positive width). -/
def properBox (b : Box) : Bool :=
  decide (b.1.1 < b.1.2) && decide (b.2.1.1 < b.2.1.2) && decide (b.2.2.1 < b.2.2.2)

/-- Closed membership: `p` lies in the closure of `b`.  Auxiliary notion
used to reason about `nearest_point_in_box` and `furthest_point_in_box`. -/
def point_in_closed (p : Point) (b : Box) : Bool :=
  decide (b.1.1 ≤ p.1) && decide (p.1 ≤ b.1.2) &&
  (decide (b.2.1.1 ≤ p.2.1) && decide (p.2.1 ≤ b.2.1.2)) &&
  (decide (b.2.2.1 ≤ p.2.2) && decide (p.2.2 ≤ b.2.2.2))

theorem point_in_box_closed {p : Point} {b : Box} (h : point_in_box p b = true) :
    point_in_closed p b = true := by
  simp only [point_in_box, point_in_closed, Bool.and_eq_true, decide_eq_true_eq] at *
  exact ⟨⟨⟨h.1.1.1, le_of_lt h.1.1.2⟩, h.1.2.1, le_of_lt h.1.2.2⟩, h.2.1, le_of_lt h.2.2⟩

theorem narrow_fst_lt (b : Box) (p : Point) : (narrow b p).1 < 8 := by
  unfold narrow
  dsimp only
  split_ifs <;> simp

theorem narrow_snd_eq (b : Box) (p : Point) : (narrow b p).2 = subbox b (narrow b p).1 := by
  unfold narrow subbox centroid
  dsimp only
  split_ifs <;> rfl

theorem point_in_narrow {b : Box} {p : Point} (h : point_in_box p b = true) :
    point_in_box p (narrow b p).2 = true := by
  simp only [point_in_box, Bool.and_eq_true, decide_eq_true_eq] at h
  obtain ⟨⟨⟨hx1, hx2⟩, hy1, hy2⟩, hz1, hz2⟩ := h
  unfold narrow centroid
  dsimp only
  simp only [point_in_box, Bool.and_eq_true, decide_eq_true_eq]
  split_ifs <;> refine ⟨⟨⟨?_, ?_⟩, ?_, ?_⟩, ?_, ?_⟩ <;> linarith

theorem narrow_eq_of_subbox {b : Box} {p : Point} {n : ℕ} (hn : n < 8)
    (h : point_in_box p (subbox b n) = true) : (narrow b p).1 = n := by
  interval_cases n <;>
  · simp only [subbox, point_in_box, Bool.and_eq_true, decide_eq_true_eq] at h
    obtain ⟨⟨⟨hx1, hx2⟩, hy1, hy2⟩, hz1, hz2⟩ := h
    unfold narrow
    dsimp only
    split_ifs <;> first | rfl | (exfalso; unfold centroid at *; dsimp only at *; linarith)

theorem point_in_box_of_subbox {b : Box} {p : Point} {n : ℕ} (hn : n < 8)
    (hwf : wfBox b = true) (h : point_in_box p (subbox b n) = true) :
    point_in_box p b = true := by
  simp only [wfBox, Bool.and_eq_true, decide_eq_true_eq] at hwf
  obtain ⟨⟨wx, wy⟩, wz⟩ := hwf
  interval_cases n <;>
  · simp only [subbox, point_in_box, Bool.and_eq_true, decide_eq_true_eq] at h ⊢
    obtain ⟨⟨⟨hx1, hx2⟩, hy1, hy2⟩, hz1, hz2⟩ := h
    unfold centroid at *
    dsimp only at *
    refine ⟨⟨⟨?_, ?_⟩, ?_, ?_⟩, ?_, ?_⟩ <;> linarith

theorem wfBox_subbox {b : Box} {n : ℕ} (hn : n < 8) (hwf : wfBox b = true) :
    wfBox (subbox b n) = true := by
  simp only [wfBox, Bool.and_eq_true, decide_eq_true_eq] at hwf ⊢
  obtain ⟨⟨wx, wy⟩, wz⟩ := hwf
  interval_cases n <;>
  · unfold subbox centroid
    dsimp only
    refine ⟨⟨?_, ?_⟩, ?_⟩ <;> linarith

theorem subbox_contained {b : Box} {n : ℕ} (hn : n < 8) (hwf : wfBox b = true) :
    box_contains (subbox b n) b = true := by
  simp only [wfBox, Bool.and_eq_true, decide_eq_true_eq] at hwf
  obtain ⟨⟨wx, wy⟩, wz⟩ := hwf
  interval_cases n <;>
  · simp only [subbox, box_contains, Bool.and_eq_true, decide_eq_true_eq]
    unfold centroid
    dsimp only
    refine ⟨⟨⟨?_, ?_⟩, ?_, ?_⟩, ?_, ?_⟩ <;> linarith

theorem boxes_disjoint_no_common {b1 b2 : Box} {p : Point}
    (hd : boxes_disjoint b1 b2 = true) (h1 : point_in_box p b1 = true)
    (h2 : point_in_box p b2 = true) : False := by
  simp only [boxes_disjoint, Bool.or_eq_true, decide_eq_true_eq] at hd
  simp only [point_in_box, Bool.and_eq_true, decide_eq_true_eq] at h1 h2
  obtain ⟨⟨⟨a1, a2⟩, a3, a4⟩, a5, a6⟩ := h1
  obtain ⟨⟨⟨b1, b2⟩, b3, b4⟩, b5, b6⟩ := h2
  rcases hd with ((((h | h) | h) | h) | h) | h <;> linarith

theorem point_in_box_mono {b1 b2 : Box} {p : Point}
    (hc : box_contains b1 b2 = true) (h : point_in_box p b1 = true) :
    point_in_box p b2 = true := by
  simp only [box_contains, Bool.and_eq_true, decide_eq_true_eq] at hc
  simp only [point_in_box, Bool.and_eq_true, decide_eq_true_eq] at h ⊢
  obtain ⟨⟨⟨a1, a2⟩, a3, a4⟩, a5, a6⟩ := hc
  obtain ⟨⟨⟨c1, c2⟩, c3, c4⟩, c5, c6⟩ := h
  refine ⟨⟨⟨?_, ?_⟩, ?_, ?_⟩, ?_, ?_⟩ <;> linarith

theorem boxes_disjoint_mono {e E b : Box} (hc : box_contains e E = true)
    (hd : boxes_disjoint E b = true) : boxes_disjoint e b = true := by
  simp only [box_contains, Bool.and_eq_true, decide_eq_true_eq] at hc
  simp only [boxes_disjoint, Bool.or_eq_true, decide_eq_true_eq] at hd ⊢
  obtain ⟨⟨⟨a1, a2⟩, a3, a4⟩, a5, a6⟩ := hc
  rcases hd with ((((h | h) | h) | h) | h) | h
  · exact Or.inl (Or.inl (Or.inl (Or.inl (Or.inl (by linarith)))))
  · exact Or.inl (Or.inl (Or.inl (Or.inl (Or.inr (by linarith)))))
  · exact Or.inl (Or.inl (Or.inl (Or.inr (by linarith))))
  · exact Or.inl (Or.inl (Or.inr (by linarith)))
  · exact Or.inl (Or.inr (by linarith))
  · exact Or.inr (by linarith)

theorem not_disjoint_of_contains_proper {e b : Box} (hp : properBox e = true)
    (hc : box_contains e b = true) : boxes_disjoint e b = false := by
  simp only [properBox, Bool.and_eq_true, decide_eq_true_eq] at hp
  simp only [box_contains, Bool.and_eq_true, decide_eq_true_eq] at hc
  obtain ⟨⟨p1, p2⟩, p3⟩ := hp
  obtain ⟨⟨⟨a1, a2⟩, a3, a4⟩, a5, a6⟩ := hc
  simp only [boxes_disjoint, Bool.or_eq_false_iff, decide_eq_false_iff_not, not_le]
  refine ⟨⟨⟨⟨⟨?_, ?_⟩, ?_⟩, ?_⟩, ?_⟩, ?_⟩ <;> linarith

theorem box_contains_union_left (b1 b2 : Box) : box_contains b1 (union_box b1 b2) = true := by
  simp only [union_box, box_contains, Bool.and_eq_true, decide_eq_true_eq]
  refine ⟨⟨⟨?_, ?_⟩, ?_, ?_⟩, ?_, ?_⟩ <;>
    simp [min_le_left, le_max_left]

theorem box_contains_union_right (b1 b2 : Box) : box_contains b2 (union_box b1 b2) = true := by
  simp only [union_box, box_contains, Bool.and_eq_true, decide_eq_true_eq]
  refine ⟨⟨⟨?_, ?_⟩, ?_, ?_⟩, ?_, ?_⟩ <;>
    simp [min_le_right, le_max_right]

theorem box_contains_trans {a b c : Box} (h1 : box_contains a b = true)
    (h2 : box_contains b c = true) : box_contains a c = true := by
  simp only [box_contains, Bool.and_eq_true, decide_eq_true_eq] at *
  obtain ⟨⟨⟨a1, a2⟩, a3, a4⟩, a5, a6⟩ := h1
  obtain ⟨⟨⟨c1, c2⟩, c3, c4⟩, c5, c6⟩ := h2
  refine ⟨⟨⟨?_, ?_⟩, ?_, ?_⟩, ?_, ?_⟩ <;> linarith

theorem box_contains_refl (b : Box) : box_contains b b = true := by
  simp [box_contains]

theorem axis_clamp_sq_le {lo hi x q : ℚ} (h1 : lo ≤ q) (h2 : q ≤ hi) :
    (x - (if x < lo then lo else if x < hi then x else hi)) ^ 2 ≤ (x - q) ^ 2 := by
  split_ifs with ha hb
  · nlinarith [mul_nonneg (sub_nonneg.mpr h1) (by linarith : (0:ℚ) ≤ q + lo - 2 * x)]
  · nlinarith [sq_nonneg (x - q)]
  · nlinarith [mul_nonneg (sub_nonneg.mpr h2) (by linarith : (0:ℚ) ≤ 2 * x - q - hi)]

theorem axis_far_sq_ge {lo hi x q : ℚ} (h1 : lo ≤ q) (h2 : q ≤ hi) :
    (x - q) ^ 2 ≤ (x - (if 2 * x > lo + hi then lo else hi)) ^ 2 := by
  split_ifs with ha
  · nlinarith [mul_nonneg (sub_nonneg.mpr h1) (by linarith : (0:ℚ) ≤ 2 * x - q - lo)]
  · nlinarith [mul_nonneg (sub_nonneg.mpr h2) (by linarith : (0:ℚ) ≤ hi + q - 2 * x)]

/-- The nearest point of a box is a lower bound for the distance to any
point in the closure of the box. -/
theorem euclidean_point_box_sq_le {p q : Point} {b : Box}
    (h : point_in_closed q b = true) :
    euclidean_point_box_sq p b ≤ euclidean_point_point_sq p q := by
  simp only [point_in_closed, Bool.and_eq_true, decide_eq_true_eq] at h
  obtain ⟨⟨⟨hx1, hx2⟩, hy1, hy2⟩, hz1, hz2⟩ := h
  unfold euclidean_point_box_sq euclidean_point_point_sq nearest_point_in_box
  dsimp only
  have gx := axis_clamp_sq_le (x := p.1) hx1 hx2
  have gy := axis_clamp_sq_le (x := p.2.1) hy1 hy2
  have gz := axis_clamp_sq_le (x := p.2.2) hz1 hz2
  exact add_le_add (add_le_add gx gy) gz

/-- The furthest point of a box is an upper bound for the distance to any
point in the closure of the box. -/
theorem euclidean_point_box_max_sq_ge {p q : Point} {b : Box} (hwf : wfBox b = true)
    (h : point_in_closed q b = true) :
    euclidean_point_point_sq p q ≤ euclidean_point_box_max_sq p b := by
  simp only [wfBox, Bool.and_eq_true, decide_eq_true_eq] at hwf
  obtain ⟨⟨wx, wy⟩, wz⟩ := hwf
  simp only [point_in_closed, Bool.and_eq_true, decide_eq_true_eq] at h
  obtain ⟨⟨⟨hx1, hx2⟩, hy1, hy2⟩, hz1, hz2⟩ := h
  unfold euclidean_point_box_max_sq euclidean_point_point_sq furthest_point_in_box
  dsimp only
  have gx := axis_far_sq_ge (x := p.1) hx1 hx2
  have gy := axis_far_sq_ge (x := p.2.1) hy1 hy2
  have gz := axis_far_sq_ge (x := p.2.2) hz1 hz2
  exact add_le_add (add_le_add gx gy) gz

theorem point_in_closed_mono {b1 b2 : Box} {p : Point}
    (hc : box_contains b1 b2 = true) (h : point_in_closed p b1 = true) :
    point_in_closed p b2 = true := by
  simp only [box_contains, Bool.and_eq_true, decide_eq_true_eq] at hc
  simp only [point_in_closed, Bool.and_eq_true, decide_eq_true_eq] at h ⊢
  obtain ⟨⟨⟨a1, a2⟩, a3, a4⟩, a5, a6⟩ := hc
  obtain ⟨⟨⟨c1, c2⟩, c3, c4⟩, c5, c6⟩ := h
  refine ⟨⟨⟨?_, ?_⟩, ?_, ?_⟩, ?_, ?_⟩ <;> linarith

theorem nearest_in_closed {p : Point} {b : Box} (hwf : wfBox b = true) :
    point_in_closed (nearest_point_in_box p b) b = true := by
  simp only [wfBox, Bool.and_eq_true, decide_eq_true_eq] at hwf
  obtain ⟨⟨wx, wy⟩, wz⟩ := hwf
  unfold nearest_point_in_box
  simp only [point_in_closed, Bool.and_eq_true, decide_eq_true_eq]
  refine ⟨⟨⟨?_, ?_⟩, ?_, ?_⟩, ?_, ?_⟩ <;> dsimp only <;> split_ifs <;> linarith

/-- The box lower-bound score grows when the box shrinks: the distance to
a contained box is at least the distance to the containing box. -/
theorem euclidean_point_box_sq_mono {p : Point} {b1 b2 : Box}
    (hwf1 : wfBox b1 = true) (hc : box_contains b1 b2 = true) :
    euclidean_point_box_sq p b2 ≤ euclidean_point_box_sq p b1 :=
  euclidean_point_box_sq_le (point_in_closed_mono hc (nearest_in_closed hwf1))

theorem wfBox_of_mem {p : Point} {b : Box} (h : point_in_box p b = true) :
    wfBox b = true := by
  simp only [point_in_box, Bool.and_eq_true, decide_eq_true_eq] at h
  obtain ⟨⟨⟨hx1, hx2⟩, hy1, hy2⟩, hz1, hz2⟩ := h
  simp only [wfBox, Bool.and_eq_true, decide_eq_true_eq]
  refine ⟨⟨?_, ?_⟩, ?_⟩ <;> linarith

/-- C10: for every point `p`, box `b` and point `q` with `point_in_box q b`,
the built-in box distances bracket the point distance:
`euclidean_point_box(p,b) ≤ euclidean_point_point(p,q) ≤
euclidean_point_box_max(p,b)`.  The code computes each distance as the
square root of the corresponding rational sum of squares, so the statement
applies `Real.sqrt` to the embedded squared distances. -/
theorem c10_box_distance_bounds {p q : Point} {b : Box}
    (hq : point_in_box q b = true) :
    Real.sqrt ((euclidean_point_box_sq p b : ℚ) : ℝ) ≤
      Real.sqrt ((euclidean_point_point_sq p q : ℚ) : ℝ) ∧
    Real.sqrt ((euclidean_point_point_sq p q : ℚ) : ℝ) ≤
      Real.sqrt ((euclidean_point_box_max_sq p b : ℚ) : ℝ) := by
  have hwf := wfBox_of_mem hq
  have hcl := point_in_box_closed hq
  constructor
  · exact Real.sqrt_le_sqrt (by exact_mod_cast euclidean_point_box_sq_le hcl)
  · exact Real.sqrt_le_sqrt (by exact_mod_cast euclidean_point_box_max_sq_ge hwf hcl)

/-- Witness for C10 at a concrete query point, box and box point. -/
theorem c10_box_distance_bounds_witness :
    point_in_box ((1:ℚ), (1:ℚ), (1:ℚ)) (((0:ℚ), 2), ((0:ℚ), 2), ((0:ℚ), 2)) = true ∧
    (Real.sqrt ((euclidean_point_box_sq ((5:ℚ), 5, 5) (((0:ℚ), 2), ((0:ℚ), 2), ((0:ℚ), 2)) : ℚ) : ℝ) ≤
      Real.sqrt ((euclidean_point_point_sq ((5:ℚ), 5, 5) ((1:ℚ), 1, 1) : ℚ) : ℝ) ∧
    Real.sqrt ((euclidean_point_point_sq ((5:ℚ), 5, 5) ((1:ℚ), 1, 1) : ℚ) : ℝ) ≤
      Real.sqrt ((euclidean_point_box_max_sq ((5:ℚ), 5, 5) (((0:ℚ), 2), ((0:ℚ), 2), ((0:ℚ), 2)) : ℚ) : ℝ)) :=
  ⟨by decide, c10_box_distance_bounds (by decide)⟩

namespace Res

theorem bind_eq_ok {α : Type} {r : Res α} {f : OTree α → Res α} {u : OTree α} :
    r.bind f = .ok u ↔ ∃ t, r = .ok t ∧ f t = .ok u := by
  cases r <;> simp [Res.bind]

end Res

namespace OTree

variable {α : Type}

theorem eq_empty_of_flags {t : OTree α} (h1 : t.isNode = false)
    (h2 : t.isSingleton = false) : t = empty := by
  cases t <;> simp_all [isNode, isSingleton]

theorem entries_node_flat (c0 c1 c2 c3 c4 c5 c6 c7 : OTree α) :
    entries (node c0 c1 c2 c3 c4 c5 c6 c7) =
      ([c0, c1, c2, c3, c4, c5, c6, c7].flatMap entries) := by
  simp [entries]

theorem flat_entries_nil {l : List (OTree α)} (hn : ∀ x ∈ l, x.isNode = false)
    (hf : l.filter isSingleton = []) : l.flatMap entries = [] := by
  induction l with
  | nil => rfl
  | cons x xs ih =>
    rw [List.filter_cons] at hf
    by_cases hx : x.isSingleton = true
    · simp [hx] at hf
    · have hx' : x = empty :=
        eq_empty_of_flags (hn x (by simp)) (by simpa using hx)
      subst hx'
      simp only [Bool.false_eq_true, isSingleton, if_neg] at hf
      simp only [List.flatMap_cons, entries, List.nil_append]
      exact ih (fun y hy => hn y (by simp [hy])) (by simpa [isSingleton] using hf)

theorem flat_entries_one {l : List (OTree α)} {s : OTree α}
    (hn : ∀ x ∈ l, x.isNode = false) (hf : l.filter isSingleton = [s]) :
    l.flatMap entries = entries s := by
  induction l with
  | nil => simp at hf
  | cons x xs ih =>
    rw [List.filter_cons] at hf
    by_cases hx : x.isSingleton = true
    · rw [if_pos hx] at hf
      obtain ⟨rfl, hrest⟩ : x = s ∧ xs.filter isSingleton = [] := by
        constructor
        · exact (List.cons_eq_cons.mp hf).1
        · exact (List.cons_eq_cons.mp hf).2
      have : xs.flatMap entries = [] :=
        flat_entries_nil (fun y hy => hn y (by simp [hy])) hrest
      simp [this]
    · have hx' : x = empty :=
        eq_empty_of_flags (hn x (by simp)) (by simpa using hx)
      subst hx'
      simp only [isSingleton, Bool.false_eq_true, if_neg] at hf
      simp only [List.flatMap_cons, entries, List.nil_append]
      exact ih (fun y hy => hn y (by simp [hy])) (by simpa [isSingleton] using hf)

/-- `smartnode` does not change the stored entries. -/
theorem smartnode_entries (c0 c1 c2 c3 c4 c5 c6 c7 : OTree α) :
    entries (smartnode c0 c1 c2 c3 c4 c5 c6 c7) =
      entries (node c0 c1 c2 c3 c4 c5 c6 c7) := by
  unfold smartnode
  dsimp only
  split
  · rfl
  · rename_i hno
    have hno' : ([c0, c1, c2, c3, c4, c5, c6, c7].any isNode) = false := by
      simpa using hno
    have hn : ∀ x ∈ [c0, c1, c2, c3, c4, c5, c6, c7], x.isNode = false := by
      intro x hx
      simpa using List.any_eq_false.mp hno' x hx
    split
    · rename_i hf
      rw [entries_node_flat, flat_entries_nil hn hf]
      rfl
    · rename_i s hf
      rw [entries_node_flat, flat_entries_one hn hf]
    · rfl

end OTree

namespace OTree

variable {α : Type}

theorem chl_mkNode {f : ℕ → OTree α} {i : ℕ} (hi : i < 8) :
    chl (mkNode f) i = f i := by
  interval_cases i <;> rfl

theorem mkNode_eq_node (t : OTree α) (ht : t.isNode = true) : mkNode (chl t) = t := by
  cases t <;> simp_all [isNode] <;> rfl

theorem entries_mkNode (f : ℕ → OTree α) :
    entries (mkNode f) = entries (f 0) ++ entries (f 1) ++ entries (f 2) ++ entries (f 3) ++
      entries (f 4) ++ entries (f 5) ++ entries (f 6) ++ entries (f 7) := rfl

theorem mem_entries_node {c0 c1 c2 c3 c4 c5 c6 c7 : OTree α} {x : Point × α} :
    x ∈ entries (node c0 c1 c2 c3 c4 c5 c6 c7) ↔
      x ∈ entries c0 ∨ x ∈ entries c1 ∨ x ∈ entries c2 ∨ x ∈ entries c3 ∨
      x ∈ entries c4 ∨ x ∈ entries c5 ∨ x ∈ entries c6 ∨ x ∈ entries c7 := by
  simp [entries, List.mem_append, or_assoc]

theorem validB_node_iff {b : Box} {c0 c1 c2 c3 c4 c5 c6 c7 : OTree α} :
    validB b (node c0 c1 c2 c3 c4 c5 c6 c7) = true ↔
      nondegL [c0, c1, c2, c3, c4, c5, c6, c7] = true ∧
      validB (subbox b 0) c0 = true ∧ validB (subbox b 1) c1 = true ∧
      validB (subbox b 2) c2 = true ∧ validB (subbox b 3) c3 = true ∧
      validB (subbox b 4) c4 = true ∧ validB (subbox b 5) c5 = true ∧
      validB (subbox b 6) c6 = true ∧ validB (subbox b 7) c7 = true := by
  simp [validB, nondegL, Bool.and_eq_true, and_assoc]

theorem countP_le_of_forall2 {β : Type} {p : β → Bool} {l1 l2 : List β}
    (h : List.Forall₂ (fun a b => p a = true → p b = true) l1 l2) :
    l1.countP p ≤ l2.countP p := by
  induction h with
  | nil => simp
  | cons hab htl ih =>
    rename_i a b l1' l2'
    rw [List.countP_cons, List.countP_cons]
    by_cases hpa : p a = true
    · simp [hpa, hab hpa]; omega
    · simp only [Bool.not_eq_true] at hpa
      simp [hpa]; omega

theorem any_of_forall2 {β : Type} {p : β → Bool} {l1 l2 : List β}
    (h : List.Forall₂ (fun a b => p a = true → p b = true) l1 l2)
    (ha : l1.any p = true) : l2.any p = true := by
  induction h with
  | nil => simpa using ha
  | cons hab htl ih =>
    rename_i a b l1' l2'
    simp only [List.any_cons, Bool.or_eq_true] at ha ⊢
    rcases ha with ha | ha
    · exact Or.inl (hab ha)
    · exact Or.inr (ih ha)

/-- Non-degeneracy transfers along a pointwise simulation of the eight
children: whoever is non-empty (a node) stays non-empty (a node). -/
theorem nondegL_of_pointwise {a0 a1 a2 a3 a4 a5 a6 a7 b0 b1 b2 b3 b4 b5 b6 b7 : OTree α}
    (hf : List.Forall₂ (fun a b => (a.isEmpty = false → b.isEmpty = false) ∧
            (a.isNode = true → b.isNode = true))
          [a0, a1, a2, a3, a4, a5, a6, a7] [b0, b1, b2, b3, b4, b5, b6, b7])
    (hd : nondegL [a0, a1, a2, a3, a4, a5, a6, a7] = true) :
    nondegL [b0, b1, b2, b3, b4, b5, b6, b7] = true := by
  unfold nondegL at hd ⊢
  simp only [Bool.or_eq_true, decide_eq_true_eq] at hd ⊢
  rcases hd with hd | hd
  · left
    refine le_trans hd (countP_le_of_forall2 ?_)
    refine hf.imp ?_
    intro a b h hx
    simp only [Bool.not_eq_true'] at hx ⊢
    exact h.1 hx
  · right
    refine any_of_forall2 ?_ hd
    exact hf.imp fun a b h => h.2

/-- `smartnode` of eight valid octants is valid for the surrounding box. -/
theorem smartnode_valid {b : Box} {c0 c1 c2 c3 c4 c5 c6 c7 : OTree α}
    (hwf : wfBox b = true)
    (h0 : validB (subbox b 0) c0 = true) (h1 : validB (subbox b 1) c1 = true)
    (h2 : validB (subbox b 2) c2 = true) (h3 : validB (subbox b 3) c3 = true)
    (h4 : validB (subbox b 4) c4 = true) (h5 : validB (subbox b 5) c5 = true)
    (h6 : validB (subbox b 6) c6 = true) (h7 : validB (subbox b 7) c7 = true) :
    validB b (smartnode c0 c1 c2 c3 c4 c5 c6 c7) = true := by
  unfold smartnode
  dsimp only
  by_cases hany : ([c0, c1, c2, c3, c4, c5, c6, c7].any isNode) = true
  · rw [if_pos hany, validB_node_iff]
    exact ⟨by simp [nondegL, hany], h0, h1, h2, h3, h4, h5, h6, h7⟩
  · rw [if_neg hany]
    rcases hmatch : [c0, c1, c2, c3, c4, c5, c6, c7].filter isSingleton
      with _ | ⟨s, _ | ⟨s2, rest⟩⟩
    · simp [validB]
    · dsimp only
      have hsmem := List.mem_filter.mp (hmatch ▸ List.mem_singleton_self s)
      have hvs : ∃ n, n < 8 ∧ validB (subbox b n) s = true := by
        have hs1 := hsmem.1
        simp only [List.mem_cons, List.not_mem_nil, or_false] at hs1
        rcases hs1 with rfl | rfl | rfl | rfl | rfl | rfl | rfl | rfl
        · exact ⟨0, by omega, h0⟩
        · exact ⟨1, by omega, h1⟩
        · exact ⟨2, by omega, h2⟩
        · exact ⟨3, by omega, h3⟩
        · exact ⟨4, by omega, h4⟩
        · exact ⟨5, by omega, h5⟩
        · exact ⟨6, by omega, h6⟩
        · exact ⟨7, by omega, h7⟩
      obtain ⟨n, hn, hvn⟩ := hvs
      obtain ⟨p, d, hpd⟩ : ∃ p d, s = singleton p d := by
        have hs2 := hsmem.2
        cases s with
        | empty => simp [isSingleton] at hs2
        | singleton p d => exact ⟨p, d, rfl⟩
        | node d0 d1 d2 d3 d4 d5 d6 d7 => simp [isSingleton] at hs2
      subst hpd
      simp only [validB] at hvn ⊢
      exact point_in_box_of_subbox hn hwf hvn
    · rw [show (match (s :: s2 :: rest : List (OTree α)) with
            | [] => (empty : OTree α)
            | [s] => s
            | _ => node c0 c1 c2 c3 c4 c5 c6 c7) = node c0 c1 c2 c3 c4 c5 c6 c7 from rfl,
          validB_node_iff]
      refine ⟨?_, h0, h1, h2, h3, h4, h5, h6, h7⟩
      have hlen : 2 ≤ ([c0, c1, c2, c3, c4, c5, c6, c7].filter isSingleton).length := by
        rw [hmatch]
        simp
      unfold nondegL
      simp only [Bool.or_eq_true, decide_eq_true_eq]
      left
      calc 2 ≤ ([c0, c1, c2, c3, c4, c5, c6, c7].filter isSingleton).length := hlen
        _ = [c0, c1, c2, c3, c4, c5, c6, c7].countP isSingleton :=
          (List.countP_eq_length_filter _ _).symm
        _ ≤ [c0, c1, c2, c3, c4, c5, c6, c7].countP (fun t => !t.isEmpty) := by
          refine List.countP_mono_left ?_
          intro x _ hx
          rcases x with _ | _ | _ <;> simp_all [isSingleton, isEmpty]

end OTree

namespace OTree

variable {α : Type}

/-- The stored entries as a multiset. -/
def entriesM (t : OTree α) : Multiset (Point × α) := (entries t : Multiset (Point × α))

theorem entriesM_empty : entriesM (empty : OTree α) = 0 := rfl

theorem entriesM_singleton (p : Point) (d : α) :
    entriesM (singleton p d) = {(p, d)} := rfl

theorem entriesM_node (c0 c1 c2 c3 c4 c5 c6 c7 : OTree α) :
    entriesM (node c0 c1 c2 c3 c4 c5 c6 c7) =
      entriesM c0 + entriesM c1 + entriesM c2 + entriesM c3 +
      entriesM c4 + entriesM c5 + entriesM c6 + entriesM c7 := by
  simp [entriesM, entries, Multiset.coe_add]

theorem entriesM_smartnode (c0 c1 c2 c3 c4 c5 c6 c7 : OTree α) :
    entriesM (smartnode c0 c1 c2 c3 c4 c5 c6 c7) =
      entriesM (node c0 c1 c2 c3 c4 c5 c6 c7) := by
  simp [entriesM, smartnode_entries]

theorem mem_entriesM {t : OTree α} {x : Point × α} :
    x ∈ entriesM t ↔ x ∈ entries t := by
  simp [entriesM]

/-- The entries of the tree with its `n`-th child replaced, as a multiset:
replacing child `n` by `u` exchanges the child's entries for those of `u`. -/
theorem entriesM_update_node {t : OTree α} (ht : t.isNode = true) {n : ℕ} (hn : n < 8)
    (u : OTree α) :
    entriesM (mkNode (Function.update (chl t) n u)) + entriesM (chl t n) =
      entriesM t + entriesM u := by
  cases t with
  | empty => simp [isNode] at ht
  | singleton p d => simp [isNode] at ht
  | node c0 c1 c2 c3 c4 c5 c6 c7 =>
    interval_cases n <;>
    · simp only [mkNode, Function.update_apply, chl]
      norm_num
      rw [entriesM_node, entriesM_node]
      abel

end OTree

namespace OTree

variable {α : Type} [DecidableEq α]

theorem insert_zero {b : Box} {t : OTree α} {p : Point} {d : α} :
    insert 0 b t p d = .noFuel := rfl

theorem insert_succ_empty {fuel : ℕ} {b : Box} {p : Point} {d : α} :
    insert (fuel + 1) b (empty : OTree α) p d = .ok (singleton p d) := rfl

theorem insert_succ_singleton {fuel : ℕ} {b : Box} {q : Point} {dq : α} {p : Point} {d : α} :
    insert (fuel + 1) b (singleton q dq) p d =
      if q = p then .keyError
      else
        (insert fuel b (node empty empty empty empty empty empty empty empty) q dq).bind
          fun t1 => insert fuel b t1 p d := rfl

theorem insert_succ_node {fuel : ℕ} {b : Box} {c0 c1 c2 c3 c4 c5 c6 c7 : OTree α}
    {p : Point} {d : α} :
    insert (fuel + 1) b (node c0 c1 c2 c3 c4 c5 c6 c7) p d =
      (insert fuel (narrow b p).2 (chl (node c0 c1 c2 c3 c4 c5 c6 c7) (narrow b p).1) p d).bind
        fun u => .ok (mkNode (Function.update (chl (node c0 c1 c2 c3 c4 c5 c6 c7)) (narrow b p).1 u)) := rfl

theorem insert_node_isNode {fuel : ℕ} {b : Box} {t : OTree α} {p : Point} {d : α}
    {u : OTree α} (ht : t.isNode = true) (h : insert fuel b t p d = .ok u) :
    u.isNode = true := by
  cases t with
  | empty => simp [isNode] at ht
  | singleton q dq => simp [isNode] at ht
  | node c0 c1 c2 c3 c4 c5 c6 c7 =>
    cases fuel with
    | zero => simp [insert_zero] at h
    | succ fuel =>
      rw [insert_succ_node, Res.bind_eq_ok] at h
      obtain ⟨v, hv, heq⟩ := h
      cases heq
      rfl

theorem insert_singleton_isNode {fuel : ℕ} {b : Box} {q : Point} {dq : α} {p : Point}
    {d : α} {u : OTree α} (h : insert fuel b (singleton q dq) p d = .ok u) :
    u.isNode = true := by
  cases fuel with
  | zero => simp [insert_zero] at h
  | succ fuel =>
    rw [insert_succ_singleton] at h
    split at h
    · simp at h
    · rw [Res.bind_eq_ok] at h
      obtain ⟨t1, h1, h2⟩ := h
      exact insert_node_isNode (insert_node_isNode (by rfl) h1) h2

theorem insert_not_isEmpty {fuel : ℕ} {b : Box} {t : OTree α} {p : Point} {d : α}
    {u : OTree α} (h : insert fuel b t p d = .ok u) : u.isEmpty = false := by
  cases t with
  | empty =>
    cases fuel with
    | zero => simp [insert_zero] at h
    | succ fuel => rw [insert_succ_empty] at h; cases h; rfl
  | singleton q dq =>
    have := insert_singleton_isNode h
    cases u <;> simp_all [isNode, isEmpty]
  | node c0 c1 c2 c3 c4 c5 c6 c7 =>
    have := insert_node_isNode (by rfl) h
    cases u <;> simp_all [isNode, isEmpty]

/-- `insert` adds exactly the new pair to the stored entries. -/
theorem insert_entriesM {fuel : ℕ} {b : Box} {t : OTree α} {p : Point} {d : α}
    {u : OTree α} (h : insert fuel b t p d = .ok u) :
    entriesM u = entriesM t + {(p, d)} := by
  induction fuel generalizing b t p d u with
  | zero => simp [insert_zero] at h
  | succ fuel ih =>
    cases t with
    | empty =>
      rw [insert_succ_empty] at h
      cases h
      simp [entriesM_singleton, entriesM_empty]
    | singleton q dq =>
      rw [insert_succ_singleton] at h
      split at h
      · simp at h
      · rw [Res.bind_eq_ok] at h
        obtain ⟨t1, h1, h2⟩ := h
        have e1 := ih h1
        have e2 := ih h2
        rw [e2, e1]
        simp [entriesM_node, entriesM_empty, entriesM_singleton]
    | node c0 c1 c2 c3 c4 c5 c6 c7 =>
      rw [insert_succ_node, Res.bind_eq_ok] at h
      obtain ⟨v, hv, heq⟩ := h
      cases heq
      have ev := ih hv
      have key := entriesM_update_node (t := node c0 c1 c2 c3 c4 c5 c6 c7) rfl
        (narrow_fst_lt b p) v
      have : entriesM (mkNode (Function.update (chl (node c0 c1 c2 c3 c4 c5 c6 c7))
          (narrow b p).1 v)) + entriesM (chl (node c0 c1 c2 c3 c4 c5 c6 c7) (narrow b p).1) =
          entriesM (node c0 c1 c2 c3 c4 c5 c6 c7) +
            (entriesM (chl (node c0 c1 c2 c3 c4 c5 c6 c7) (narrow b p).1) + {(p, d)}) := by
        rw [key, ev]
      rw [add_comm (entriesM (chl _ _)) _, ← add_assoc] at this
      exact add_right_cancel this

end OTree

namespace OTree

variable {α : Type} [DecidableEq α]

theorem update_zero {b : Box} {t : OTree α} {p : Point} {d : α} {r : Bool} :
    update 0 b t p d r = .noFuel := rfl

theorem update_succ_empty {fuel : ℕ} {b : Box} {p : Point} {d : α} {r : Bool} :
    update (fuel + 1) b (empty : OTree α) p d r = .ok (singleton p d) := rfl

theorem update_succ_singleton {fuel : ℕ} {b : Box} {q : Point} {dq : α} {p : Point}
    {d : α} {r : Bool} :
    update (fuel + 1) b (singleton q dq) p d r =
      if q = p then (if r then .ok (singleton p d) else .ok (singleton q dq))
      else
        (insert fuel b (node empty empty empty empty empty empty empty empty) q dq).bind
          fun t1 => insert fuel b t1 p d := rfl

theorem update_succ_node {fuel : ℕ} {b : Box} {c0 c1 c2 c3 c4 c5 c6 c7 : OTree α}
    {p : Point} {d : α} {r : Bool} :
    update (fuel + 1) b (node c0 c1 c2 c3 c4 c5 c6 c7) p d r =
      (update fuel (narrow b p).2 (chl (node c0 c1 c2 c3 c4 c5 c6 c7) (narrow b p).1) p d r).bind
        fun u => .ok (mkNode (Function.update (chl (node c0 c1 c2 c3 c4 c5 c6 c7)) (narrow b p).1 u)) := rfl

theorem entriesM_chl_le {t : OTree α} {n : ℕ} (hn : n < 8) :
    entriesM (chl t n) ≤ entriesM t := by
  cases t with
  | empty => interval_cases n <;> simp [chl]
  | singleton p d =>
    interval_cases n <;>
    · simp only [chl, entriesM_empty]
      exact Multiset.zero_le _
  | node c0 c1 c2 c3 c4 c5 c6 c7 =>
    rw [entriesM_node]
    rw [Multiset.le_iff_count]
    intro a
    interval_cases n <;>
    · simp only [chl, Multiset.count_add]
      omega

theorem update_node_isNode {fuel : ℕ} {b : Box} {t : OTree α} {p : Point} {d : α}
    {r : Bool} {u : OTree α} (ht : t.isNode = true) (h : update fuel b t p d r = .ok u) :
    u.isNode = true := by
  cases t with
  | empty => simp [isNode] at ht
  | singleton q dq => simp [isNode] at ht
  | node c0 c1 c2 c3 c4 c5 c6 c7 =>
    cases fuel with
    | zero => simp [update_zero] at h
    | succ fuel =>
      rw [update_succ_node, Res.bind_eq_ok] at h
      obtain ⟨v, hv, heq⟩ := h
      cases heq
      rfl

theorem update_not_isEmpty {fuel : ℕ} {b : Box} {t : OTree α} {p : Point} {d : α}
    {r : Bool} {u : OTree α} (h : update fuel b t p d r = .ok u) : u.isEmpty = false := by
  cases t with
  | empty =>
    cases fuel with
    | zero => simp [update_zero] at h
    | succ fuel => rw [update_succ_empty] at h; cases h; rfl
  | singleton q dq =>
    cases fuel with
    | zero => simp [update_zero] at h
    | succ fuel =>
      rw [update_succ_singleton] at h
      split at h
      · split at h <;> (cases h; rfl)
      · rw [Res.bind_eq_ok] at h
        obtain ⟨t1, h1, h2⟩ := h
        have := insert_node_isNode (insert_node_isNode (by rfl) h1) h2
        cases u <;> simp_all [isNode, isEmpty]
  | node c0 c1 c2 c3 c4 c5 c6 c7 =>
    have := update_node_isNode (by rfl) h
    cases u <;> simp_all [isNode, isEmpty]

/-- Whatever `update` stores came from the tree or is the new pair. -/
theorem update_mem_entries {fuel : ℕ} {b : Box} {t : OTree α} {p : Point} {d : α}
    {r : Bool} {u : OTree α} {y : Point × α} (h : update fuel b t p d r = .ok u)
    (hy : y ∈ entries u) : y ∈ entries t ∨ y = (p, d) := by
  induction fuel generalizing b t p d r u with
  | zero => simp [update_zero] at h
  | succ fuel ih =>
    cases t with
    | empty =>
      rw [update_succ_empty] at h
      cases h
      simp only [entries, List.mem_singleton] at hy
      exact Or.inr hy
    | singleton q dq =>
      rw [update_succ_singleton] at h
      split at h
      · rename_i hqp
        split at h <;> cases h
        · simp only [entries, List.mem_singleton] at hy
          exact Or.inr hy
        · simp only [entries, List.mem_singleton] at hy
          exact Or.inl (by simpa [entries] using hy)
      · rw [Res.bind_eq_ok] at h
        obtain ⟨t1, h1, h2⟩ := h
        have e1 := insert_entriesM h1
        have e2 := insert_entriesM h2
        have : entriesM u = {(q, dq)} + {(p, d)} := by
          rw [e2, e1]
          simp [entriesM_node, entriesM_empty, entriesM_singleton]
        have hym : y ∈ entriesM u := mem_entriesM.mpr hy
        rw [this] at hym
        rcases Multiset.mem_add.mp hym with hy1 | hy1
        · exact Or.inl (by simpa [entries] using Multiset.mem_singleton.mp hy1)
        · exact Or.inr (Multiset.mem_singleton.mp hy1)
    | node c0 c1 c2 c3 c4 c5 c6 c7 =>
      rw [update_succ_node, Res.bind_eq_ok] at h
      obtain ⟨v, hv, heq⟩ := h
      cases heq
      have key := entriesM_update_node (t := node c0 c1 c2 c3 c4 c5 c6 c7) rfl
        (narrow_fst_lt b p) v
      have hym : y ∈ entriesM (mkNode (Function.update (chl (node c0 c1 c2 c3 c4 c5 c6 c7))
          (narrow b p).1 v)) := mem_entriesM.mpr hy
      have hy2 : y ∈ entriesM (node c0 c1 c2 c3 c4 c5 c6 c7) + entriesM v := by
        rw [← key]
        exact Multiset.mem_add.mpr (Or.inl hym)
      rcases Multiset.mem_add.mp hy2 with hy3 | hy3
      · exact Or.inl (mem_entriesM.mp hy3)
      · rcases ih hv (mem_entriesM.mp hy3) with hy4 | hy4
        · exact Or.inl (mem_entriesM.mp (Multiset.mem_of_le
            (entriesM_chl_le (narrow_fst_lt b p)) (mem_entriesM.mpr hy4)))
        · exact Or.inr hy4

end OTree

namespace OTree

variable {α : Type} [DecidableEq α]

theorem count_mkNode_update {t : OTree α} (ht : t.isNode = true) {n : ℕ} (hn : n < 8)
    (v : OTree α) (y : Point × α) :
    Multiset.count y (entriesM (mkNode (Function.update (chl t) n v))) +
      Multiset.count y (entriesM (chl t n)) =
    Multiset.count y (entriesM t) + Multiset.count y (entriesM v) := by
  have := congrArg (Multiset.count y) (entriesM_update_node ht hn v)
  simpa [Multiset.count_add] using this

/-- Any entry of the replacing child appears in the rebuilt node. -/
theorem mem_mkNode_update_of_mem_new {t : OTree α} (ht : t.isNode = true) {n : ℕ}
    (hn : n < 8) {v : OTree α} {y : Point × α} (hyv : y ∈ entriesM v) :
    y ∈ entriesM (mkNode (Function.update (chl t) n v)) := by
  have hcount := count_mkNode_update ht hn v y
  have hle : Multiset.count y (entriesM (chl t n)) ≤ Multiset.count y (entriesM t) :=
    Multiset.le_iff_count.mp (entriesM_chl_le hn) y
  have h1 : 1 ≤ Multiset.count y (entriesM v) := Multiset.one_le_count_iff_mem.mpr hyv
  rw [← Multiset.one_le_count_iff_mem]
  omega

/-- An entry of the node survives the replacement of child `n` provided
it survives inside the replaced child whenever it lived there. -/
theorem mem_mkNode_update_of_mem_old {t : OTree α} (ht : t.isNode = true) {n : ℕ}
    (hn : n < 8) {v : OTree α} {y : Point × α} (hyt : y ∈ entriesM t)
    (hpres : y ∈ entriesM (chl t n) → y ∈ entriesM v) :
    y ∈ entriesM (mkNode (Function.update (chl t) n v)) := by
  have hcount := count_mkNode_update ht hn v y
  have hle : Multiset.count y (entriesM (chl t n)) ≤ Multiset.count y (entriesM t) :=
    Multiset.le_iff_count.mp (entriesM_chl_le hn) y
  have h1 : 1 ≤ Multiset.count y (entriesM t) := Multiset.one_le_count_iff_mem.mpr hyt
  rw [← Multiset.one_le_count_iff_mem]
  by_cases hc : y ∈ entriesM (chl t n)
  · have h2 : 1 ≤ Multiset.count y (entriesM v) := Multiset.one_le_count_iff_mem.mpr (hpres hc)
    omega
  · have h0 : Multiset.count y (entriesM (chl t n)) = 0 :=
      Multiset.count_eq_zero.mpr hc
    omega

/-- Stored entries with other coordinates survive an `update`. -/
theorem update_mem_preserved {fuel : ℕ} {b : Box} {t : OTree α} {p : Point} {d : α}
    {r : Bool} {u : OTree α} {y : Point × α} (h : update fuel b t p d r = .ok u)
    (hy : y ∈ entries t) (hne : y.1 ≠ p) : y ∈ entries u := by
  induction fuel generalizing b t p d r u with
  | zero => simp [update_zero] at h
  | succ fuel ih =>
    cases t with
    | empty => simp [entries] at hy
    | singleton q dq =>
      rw [update_succ_singleton] at h
      simp only [entries, List.mem_singleton] at hy
      subst hy
      split at h
      · rename_i hqp
        exact absurd hqp hne
      · rw [Res.bind_eq_ok] at h
        obtain ⟨t1, h1, h2⟩ := h
        have e1 := insert_entriesM h1
        have e2 := insert_entriesM h2
        have : entriesM u = {(q, dq)} + {(p, d)} := by
          rw [e2, e1]
          simp [entriesM_node, entriesM_empty, entriesM_singleton]
        refine mem_entriesM.mp ?_
        rw [this]
        exact Multiset.mem_add.mpr (Or.inl (Multiset.mem_singleton.mpr rfl))
    | node c0 c1 c2 c3 c4 c5 c6 c7 =>
      rw [update_succ_node, Res.bind_eq_ok] at h
      obtain ⟨v, hv, heq⟩ := h
      cases heq
      refine mem_entriesM.mp (mem_mkNode_update_of_mem_old (by rfl) (narrow_fst_lt b p)
        (mem_entriesM.mpr hy) ?_)
      intro hc
      exact mem_entriesM.mpr (ih hv (mem_entriesM.mp hc) hne)

/-- After an `update`, the point `p` is stored (with some payload). -/
theorem update_key_present {fuel : ℕ} {b : Box} {t : OTree α} {p : Point} {d : α}
    {r : Bool} {u : OTree α} (h : update fuel b t p d r = .ok u) :
    ∃ e, (p, e) ∈ entries u := by
  induction fuel generalizing b t p d r u with
  | zero => simp [update_zero] at h
  | succ fuel ih =>
    cases t with
    | empty =>
      rw [update_succ_empty] at h
      cases h
      exact ⟨d, by simp [entries]⟩
    | singleton q dq =>
      rw [update_succ_singleton] at h
      split at h
      · rename_i hqp
        split at h <;> cases h
        · exact ⟨d, by simp [entries]⟩
        · exact ⟨dq, by simp [entries, hqp]⟩
      · rw [Res.bind_eq_ok] at h
        obtain ⟨t1, h1, h2⟩ := h
        have e1 := insert_entriesM h1
        have e2 := insert_entriesM h2
        refine ⟨d, mem_entriesM.mp ?_⟩
        rw [e2, e1]
        exact Multiset.mem_add.mpr (Or.inr (Multiset.mem_singleton.mpr rfl))
    | node c0 c1 c2 c3 c4 c5 c6 c7 =>
      rw [update_succ_node, Res.bind_eq_ok] at h
      obtain ⟨v, hv, heq⟩ := h
      cases heq
      obtain ⟨e, he⟩ := ih hv
      exact ⟨e, mem_entriesM.mp (mem_mkNode_update_of_mem_new (by rfl) (narrow_fst_lt b p)
        (mem_entriesM.mpr he))⟩

/-- The coordinates stored after an `update` are the old ones plus `p`. -/
theorem update_keys_mem {fuel : ℕ} {b : Box} {t : OTree α} {p : Point} {d : α}
    {r : Bool} {u : OTree α} (h : update fuel b t p d r = .ok u) (x : Point) :
    x ∈ keys u ↔ x ∈ keys t ∨ x = p := by
  constructor
  · intro hx
    obtain ⟨⟨x', e⟩, hmem, hfst⟩ := List.mem_map.mp hx
    cases hfst
    rcases update_mem_entries h hmem with h1 | h1
    · exact Or.inl (List.mem_map.mpr ⟨(x', e), h1, rfl⟩)
    · exact Or.inr (congrArg Prod.fst h1)
  · intro hx
    rcases hx with hx | hx
    · obtain ⟨⟨x', e⟩, hmem, hfst⟩ := List.mem_map.mp hx
      cases hfst
      by_cases hxp : x' = p
      · subst hxp
        obtain ⟨e', he'⟩ := update_key_present h
        exact List.mem_map.mpr ⟨(x', e'), he', rfl⟩
      · exact List.mem_map.mpr ⟨(x', e), update_mem_preserved h hmem hxp, rfl⟩
    · subst hx
      obtain ⟨e', he'⟩ := update_key_present h
      exact List.mem_map.mpr ⟨(x, e'), he', rfl⟩

/-- When `p` is not already stored, `update` adds exactly the new pair. -/
theorem update_entriesM_new {fuel : ℕ} {b : Box} {t : OTree α} {p : Point} {d : α}
    {r : Bool} {u : OTree α} (h : update fuel b t p d r = .ok u) (hnp : p ∉ keys t) :
    entriesM u = entriesM t + {(p, d)} := by
  induction fuel generalizing b t p d r u with
  | zero => simp [update_zero] at h
  | succ fuel ih =>
    cases t with
    | empty =>
      rw [update_succ_empty] at h
      cases h
      simp [entriesM_singleton, entriesM_empty]
    | singleton q dq =>
      rw [update_succ_singleton] at h
      split at h
      · rename_i hqp
        exact absurd (by simp [keys, entries, hqp]) hnp
      · rw [Res.bind_eq_ok] at h
        obtain ⟨t1, h1, h2⟩ := h
        have e1 := insert_entriesM h1
        have e2 := insert_entriesM h2
        rw [e2, e1]
        simp [entriesM_node, entriesM_empty, entriesM_singleton]
    | node c0 c1 c2 c3 c4 c5 c6 c7 =>
      rw [update_succ_node, Res.bind_eq_ok] at h
      obtain ⟨v, hv, heq⟩ := h
      cases heq
      have hnpc : p ∉ keys (chl (node c0 c1 c2 c3 c4 c5 c6 c7) (narrow b p).1) := by
        intro hc
        refine hnp ?_
        obtain ⟨⟨x', e⟩, hmem, hfst⟩ := List.mem_map.mp hc
        refine List.mem_map.mpr ⟨(x', e), ?_, hfst⟩
        exact mem_entriesM.mp (Multiset.mem_of_le (entriesM_chl_le (narrow_fst_lt b p))
          (mem_entriesM.mpr hmem))
      have ev := ih hv hnpc
      have key := entriesM_update_node (t := node c0 c1 c2 c3 c4 c5 c6 c7) rfl
        (narrow_fst_lt b p) v
      rw [ev] at key
      have goal1 : entriesM (mkNode (Function.update (chl (node c0 c1 c2 c3 c4 c5 c6 c7))
          (narrow b p).1 v)) + entriesM (chl (node c0 c1 c2 c3 c4 c5 c6 c7) (narrow b p).1) =
          (entriesM (node c0 c1 c2 c3 c4 c5 c6 c7) + {(p, d)}) +
          entriesM (chl (node c0 c1 c2 c3 c4 c5 c6 c7) (narrow b p).1) := by
        rw [key]
        abel
      exact add_right_cancel goal1

end OTree

namespace OTree

variable {α : Type} [DecidableEq α]

theorem chl_empty_node {i : ℕ} :
    chl (node (empty : OTree α) empty empty empty empty empty empty empty) i = empty := by
  rcases i with _ | _ | _ | _ | _ | _ | _ | _ | i <;> rfl

theorem forall2_of_fn {R : OTree α → OTree α → Prop} {f g : ℕ → OTree α}
    (h : ∀ i, i < 8 → R (f i) (g i)) :
    List.Forall₂ R [f 0, f 1, f 2, f 3, f 4, f 5, f 6, f 7]
      [g 0, g 1, g 2, g 3, g 4, g 5, g 6, g 7] :=
  .cons (h 0 (by omega)) (.cons (h 1 (by omega)) (.cons (h 2 (by omega))
    (.cons (h 3 (by omega)) (.cons (h 4 (by omega)) (.cons (h 5 (by omega))
      (.cons (h 6 (by omega)) (.cons (h 7 (by omega)) .nil)))))))

theorem validB_mkNode_iff {b : Box} {f : ℕ → OTree α} :
    validB b (mkNode f) = true ↔
      nondegL [f 0, f 1, f 2, f 3, f 4, f 5, f 6, f 7] = true ∧
      ∀ i, i < 8 → validB (subbox b i) (f i) = true := by
  rw [show mkNode f = node (f 0) (f 1) (f 2) (f 3) (f 4) (f 5) (f 6) (f 7) from rfl,
    validB_node_iff]
  constructor
  · rintro ⟨hnd, h0, h1, h2, h3, h4, h5, h6, h7⟩
    refine ⟨hnd, ?_⟩
    intro i hi
    interval_cases i <;> assumption
  · rintro ⟨hnd, h⟩
    exact ⟨hnd, h 0 (by omega), h 1 (by omega), h 2 (by omega), h 3 (by omega),
      h 4 (by omega), h 5 (by omega), h 6 (by omega), h 7 (by omega)⟩

theorem nondegL_of_node_child {f : ℕ → OTree α} {n : ℕ} (hn : n < 8)
    (h : (f n).isNode = true) :
    nondegL [f 0, f 1, f 2, f 3, f 4, f 5, f 6, f 7] = true := by
  unfold nondegL
  simp only [Bool.or_eq_true, decide_eq_true_eq]
  right
  rw [List.any_eq_true]
  refine ⟨f n, ?_, h⟩
  interval_cases n <;> simp

theorem nondegL_of_two_nonempty {f : ℕ → OTree α} {i j : ℕ} (hi : i < 8) (hj : j < 8)
    (hij : i ≠ j) (h1 : (f i).isEmpty = false) (h2 : (f j).isEmpty = false) :
    nondegL [f 0, f 1, f 2, f 3, f 4, f 5, f 6, f 7] = true := by
  unfold nondegL
  simp only [Bool.or_eq_true, decide_eq_true_eq]
  left
  interval_cases i <;> interval_cases j <;>
    simp_all [List.countP_cons] <;> omega

theorem insert_succ_mkNode {fuel : ℕ} {b : Box} {f : ℕ → OTree α} {p : Point} {d : α} :
    insert (fuel + 1) b (mkNode f) p d =
      (insert fuel (narrow b p).2 (chl (mkNode f) (narrow b p).1) p d).bind
        fun u => .ok (mkNode (Function.update (chl (mkNode f)) (narrow b p).1 u)) := rfl

/-- `insert` preserves the structural validity invariant; in particular
insertion into a `Node` never produces a degenerate node even though it
does not go through `smartnode`. -/
theorem insert_valid : ∀ (fuel : ℕ) (b : Box) (t : OTree α) (p : Point) (d : α)
    (u : OTree α), wfBox b = true → validB b t = true → point_in_box p b = true →
    insert fuel b t p d = .ok u → validB b u = true := by
  intro fuel
  induction fuel using Nat.strong_induction_on with
  | _ fuel ih =>
    intro b t p d u hwf hv hp h
    cases fuel with
    | zero => simp [insert_zero] at h
    | succ fuel =>
    cases t with
    | empty =>
      rw [insert_succ_empty] at h
      cases h
      simpa [validB] using hp
    | singleton q dq =>
      rw [insert_succ_singleton] at h
      split at h
      · simp at h
      rename_i hqp
      rw [Res.bind_eq_ok] at h
      obtain ⟨t1, h1, h2⟩ := h
      cases fuel with
      | zero => simp [insert_zero] at h1
      | succ fuel =>
      rw [insert_succ_node, Res.bind_eq_ok] at h1
      obtain ⟨v, hv1, ht1⟩ := h1
      rw [chl_empty_node] at hv1
      cases fuel with
      | zero => simp [insert_zero] at hv1
      | succ fuel =>
      rw [insert_succ_empty] at hv1
      cases hv1
      cases ht1
      rw [insert_succ_mkNode, Res.bind_eq_ok] at h2
      obtain ⟨w, hw1, hu⟩ := h2
      cases hu
      have hq : point_in_box q b = true := by simpa [validB] using hv
      have hnp8 := narrow_fst_lt b p
      have hnq8 := narrow_fst_lt b q
      have hchl : chl (mkNode (Function.update
          (chl (node (empty : OTree α) empty empty empty empty empty empty empty))
          (narrow b q).1 (singleton q dq))) (narrow b p).1 =
          if (narrow b p).1 = (narrow b q).1 then singleton q dq else empty := by
        rw [chl_mkNode hnp8, Function.update_apply]
        split <;> simp [chl_empty_node]
      by_cases hnn : (narrow b p).1 = (narrow b q).1
      · rw [hchl, if_pos hnn] at hw1
        have hbq : (narrow b p).2 = (narrow b q).2 := by
          rw [narrow_snd_eq, narrow_snd_eq, hnn]
        have hwv : validB (narrow b p).2 w = true := by
          refine ih (fuel + 1) (by omega) (narrow b p).2 (singleton q dq) p d w ?_ ?_ ?_ hw1
          · rw [narrow_snd_eq]
            exact wfBox_subbox hnp8 hwf
          · simp only [validB]
            rw [hbq]
            exact point_in_narrow hq
          · exact point_in_narrow hp
        rw [validB_mkNode_iff]
        constructor
        · refine nondegL_of_node_child hnp8 ?_
          rw [Function.update_same]
          exact insert_singleton_isNode hw1
        · intro i hi
          rw [Function.update_apply]
          split
          · rename_i hieq
            subst hieq
            rwa [narrow_snd_eq] at hwv
          · rw [chl_mkNode hi, Function.update_apply]
            rename_i hine
            rw [if_neg (by rw [← hnn]; exact hine), chl_empty_node]
            simp [validB]
      · rw [hchl, if_neg hnn] at hw1
        rw [insert_succ_empty] at hw1
        cases hw1
        rw [validB_mkNode_iff]
        constructor
        · refine nondegL_of_two_nonempty hnp8 hnq8 hnn ?_ ?_
          · rw [Function.update_same]
            rfl
          · rw [Function.update_noteq (fun hc => hnn hc.symm), chl_mkNode hnq8,
              Function.update_same]
            rfl
        · intro i hi
          rw [Function.update_apply]
          split
          · rename_i hieq
            subst hieq
            simp only [validB]
            rw [← narrow_snd_eq]
            exact point_in_narrow hp
          · rw [chl_mkNode hi, Function.update_apply]
            split
            · rename_i hieq
              subst hieq
              simp only [validB]
              rw [← narrow_snd_eq]
              exact point_in_narrow hq
            · rw [chl_empty_node]
              rfl
    | node c0 c1 c2 c3 c4 c5 c6 c7 =>
      rw [insert_succ_node, Res.bind_eq_ok] at h
      obtain ⟨v, hv1, hu⟩ := h
      cases hu
      have hn8 := narrow_fst_lt b p
      rw [validB_node_iff] at hv
      obtain ⟨hnd, h0, h1, h2, h3, h4, h5, h6, h7⟩ := hv
      have hchild : ∀ i, i < 8 →
          validB (subbox b i) (chl (node c0 c1 c2 c3 c4 c5 c6 c7) i) = true := by
        intro i hi
        interval_cases i <;> simpa [chl]
      have hvv : validB (subbox b (narrow b p).1) v = true := by
        refine ih fuel (by omega) _ _ p d v (wfBox_subbox hn8 hwf) (hchild _ hn8) ?_ ?_
        · rw [← narrow_snd_eq]
          exact point_in_narrow hp
        · rwa [← narrow_snd_eq]
      rw [validB_mkNode_iff]
      constructor
      · refine nondegL_of_pointwise ?_ hnd
        refine forall2_of_fn (f := chl (node c0 c1 c2 c3 c4 c5 c6 c7))
          (g := Function.update (chl (node c0 c1 c2 c3 c4 c5 c6 c7)) (narrow b p).1 v)
          (R := fun a c => (a.isEmpty = false → c.isEmpty = false) ∧
            (a.isNode = true → c.isNode = true)) ?_
        intro i hi
        rw [Function.update_apply]
        split
        · rename_i hieq
          subst hieq
          constructor
          · intro _
            exact insert_not_isEmpty hv1
          · intro hni
            exact insert_node_isNode hni hv1
        · exact ⟨id, id⟩
      · intro i hi
        rw [Function.update_apply]
        split
        · rename_i hieq
          subst hieq
          exact hvv
        · exact hchild i hi

end OTree

namespace OTree

variable {α : Type} [DecidableEq α]

/-- `update` preserves the structural validity invariant. -/
theorem update_valid {fuel : ℕ} {b : Box} {t : OTree α} {p : Point} {d : α} {r : Bool}
    {u : OTree α} (hwf : wfBox b = true) (hv : validB b t = true)
    (hp : point_in_box p b = true) (h : update fuel b t p d r = .ok u) :
    validB b u = true := by
  induction fuel generalizing b t u with
  | zero => simp [update_zero] at h
  | succ fuel ih =>
    cases t with
    | empty =>
      rw [update_succ_empty] at h
      cases h
      simpa [validB] using hp
    | singleton q dq =>
      rw [update_succ_singleton] at h
      split at h
      · rename_i hqp
        split at h <;> cases h
        · simpa [validB] using hp
        · exact hv
      · rename_i hqp
        have h' : insert (fuel + 1) b (singleton q dq) p d = .ok u := by
          rw [insert_succ_singleton, if_neg hqp]
          exact h
        exact insert_valid (fuel + 1) b (singleton q dq) p d u hwf hv hp h'
    | node c0 c1 c2 c3 c4 c5 c6 c7 =>
      rw [update_succ_node, Res.bind_eq_ok] at h
      obtain ⟨v, hv1, hu⟩ := h
      cases hu
      have hn8 := narrow_fst_lt b p
      rw [validB_node_iff] at hv
      obtain ⟨hnd, h0, h1, h2, h3, h4, h5, h6, h7⟩ := hv
      have hchild : ∀ i, i < 8 →
          validB (subbox b i) (chl (node c0 c1 c2 c3 c4 c5 c6 c7) i) = true := by
        intro i hi
        interval_cases i <;> simpa [chl]
      have hvv : validB (subbox b (narrow b p).1) v = true := by
        refine ih (wfBox_subbox hn8 hwf) (hchild _ hn8) ?_ ?_
        · rw [← narrow_snd_eq]
          exact point_in_narrow hp
        · rwa [← narrow_snd_eq]
      rw [validB_mkNode_iff]
      constructor
      · refine nondegL_of_pointwise ?_ hnd
        refine forall2_of_fn (f := chl (node c0 c1 c2 c3 c4 c5 c6 c7))
          (g := Function.update (chl (node c0 c1 c2 c3 c4 c5 c6 c7)) (narrow b p).1 v) ?_
        intro i hi
        rw [Function.update_apply]
        split
        · rename_i hieq
          subst hieq
          exact ⟨fun _ => update_not_isEmpty hv1, fun hni => update_node_isNode hni hv1⟩
        · exact ⟨id, id⟩
      · intro i hi
        rw [Function.update_apply]
        split
        · rename_i hieq
          subst hieq
          exact hvv
        · exact hchild i hi

theorem keys_chl_subset {t : OTree α} {n : ℕ} (hn : n < 8) {x : Point}
    (hx : x ∈ keys (chl t n)) : x ∈ keys t := by
  obtain ⟨⟨x', e⟩, hmem, hfst⟩ := List.mem_map.mp hx
  cases hfst
  exact List.mem_map.mpr ⟨(x', e),
    mem_entriesM.mp (Multiset.mem_of_le (entriesM_chl_le hn) (mem_entriesM.mpr hmem)), rfl⟩

theorem remove_node_eq {b : Box} {c0 c1 c2 c3 c4 c5 c6 c7 : OTree α} {p : Point} :
    remove b (node c0 c1 c2 c3 c4 c5 c6 c7) p =
      (remove (narrow b p).2 (chl (node c0 c1 c2 c3 c4 c5 c6 c7) (narrow b p).1) p).map
        (fun u => smartnodeF
          (Function.update (chl (node c0 c1 c2 c3 c4 c5 c6 c7)) (narrow b p).1 u)) := by
  have h8 := narrow_fst_lt b p
  have hcases : (narrow b p).1 = 0 ∨ (narrow b p).1 = 1 ∨ (narrow b p).1 = 2 ∨
      (narrow b p).1 = 3 ∨ (narrow b p).1 = 4 ∨ (narrow b p).1 = 5 ∨
      (narrow b p).1 = 6 ∨ (narrow b p).1 = 7 := by omega
  rcases hcases with hn | hn | hn | hn | hn | hn | hn | hn <;>
  · rw [remove]
    simp only [hn]
    first
    | rfl
    | (congr 1
       funext u
       simp only [smartnodeF, Function.update_apply, chl]
       norm_num)

theorem smartnodeF_valid {b : Box} {f : ℕ → OTree α} (hwf : wfBox b = true)
    (h : ∀ i, i < 8 → validB (subbox b i) (f i) = true) :
    validB b (smartnodeF f) = true := by
  simp only [smartnodeF]
  exact smartnode_valid hwf (h 0 (by omega)) (h 1 (by omega)) (h 2 (by omega))
    (h 3 (by omega)) (h 4 (by omega)) (h 5 (by omega)) (h 6 (by omega)) (h 7 (by omega))

/-- Removing an absent key raises `KeyError` (returns `none`). -/
theorem remove_none_of_not_mem {b : Box} {t : OTree α} {p : Point}
    (hnp : p ∉ keys t) : remove b t p = none := by
  induction t generalizing b with
  | empty => rfl
  | singleton q dq =>
    have hqp : ¬(q = p) := fun hc => hnp (by simp [keys, entries, hc])
    simp [remove, hqp]
  | node c0 c1 c2 c3 c4 c5 c6 c7 ih0 ih1 ih2 ih3 ih4 ih5 ih6 ih7 =>
    rw [remove_node_eq]
    have h8 := narrow_fst_lt b p
    have hnpc : p ∉ keys (chl (node c0 c1 c2 c3 c4 c5 c6 c7) (narrow b p).1) :=
      fun hc => hnp (keys_chl_subset h8 hc)
    have hcases : (narrow b p).1 = 0 ∨ (narrow b p).1 = 1 ∨ (narrow b p).1 = 2 ∨
        (narrow b p).1 = 3 ∨ (narrow b p).1 = 4 ∨ (narrow b p).1 = 5 ∨
        (narrow b p).1 = 6 ∨ (narrow b p).1 = 7 := by omega
    rcases hcases with hn | hn | hn | hn | hn | hn | hn | hn <;> rw [hn] at hnpc ⊢ <;>
      simp only [chl] at hnpc ⊢
    · rw [ih0 hnpc]; rfl
    · rw [ih1 hnpc]; rfl
    · rw [ih2 hnpc]; rfl
    · rw [ih3 hnpc]; rfl
    · rw [ih4 hnpc]; rfl
    · rw [ih5 hnpc]; rfl
    · rw [ih6 hnpc]; rfl
    · rw [ih7 hnpc]; rfl

/-- `remove` preserves the structural validity invariant. -/
theorem remove_valid {b : Box} {t : OTree α} {p : Point} {u : OTree α}
    (hwf : wfBox b = true) (hv : validB b t = true) (h : remove b t p = some u) :
    validB b u = true := by
  induction t generalizing b u with
  | empty => simp [remove] at h
  | singleton q dq =>
    simp only [remove] at h
    split at h
    · cases h; rfl
    · simp at h
  | node c0 c1 c2 c3 c4 c5 c6 c7 ih0 ih1 ih2 ih3 ih4 ih5 ih6 ih7 =>
    rw [remove_node_eq] at h
    have h8 := narrow_fst_lt b p
    rw [validB_node_iff] at hv
    obtain ⟨hnd, h0, h1, h2, h3, h4, h5, h6, h7⟩ := hv
    obtain ⟨w, hw, hu⟩ := Option.map_eq_some'.mp h
    cases hu
    refine smartnodeF_valid hwf ?_
    intro i hi
    rw [Function.update_apply]
    split
    · rename_i hieq
      subst hieq
      have hwsub : wfBox (subbox b (narrow b p).1) = true := wfBox_subbox h8 hwf
      have hvc : validB (subbox b (narrow b p).1) (chl (node c0 c1 c2 c3 c4 c5 c6 c7)
          (narrow b p).1) = true := by
        have hcases : (narrow b p).1 = 0 ∨ (narrow b p).1 = 1 ∨ (narrow b p).1 = 2 ∨
            (narrow b p).1 = 3 ∨ (narrow b p).1 = 4 ∨ (narrow b p).1 = 5 ∨
            (narrow b p).1 = 6 ∨ (narrow b p).1 = 7 := by omega
        rcases hcases with hn | hn | hn | hn | hn | hn | hn | hn <;> rw [hn] <;>
          simpa [chl]
      have hvw := hw
      rw [narrow_snd_eq] at hvw
      have hcases : (narrow b p).1 = 0 ∨ (narrow b p).1 = 1 ∨ (narrow b p).1 = 2 ∨
          (narrow b p).1 = 3 ∨ (narrow b p).1 = 4 ∨ (narrow b p).1 = 5 ∨
          (narrow b p).1 = 6 ∨ (narrow b p).1 = 7 := by omega
      rcases hcases with hn | hn | hn | hn | hn | hn | hn | hn <;>
        rw [hn] at hvc hvw hwsub ⊢ <;> simp only [chl] at hvc hvw ⊢
      · exact ih0 hwsub hvc hvw
      · exact ih1 hwsub hvc hvw
      · exact ih2 hwsub hvc hvw
      · exact ih3 hwsub hvc hvw
      · exact ih4 hwsub hvc hvw
      · exact ih5 hwsub hvc hvw
      · exact ih6 hwsub hvc hvw
      · exact ih7 hwsub hvc hvw
    · rename_i hine
      interval_cases i <;> simpa [chl]

end OTree

namespace OTree

variable {α : Type} [DecidableEq α]

theorem remove_mkNode_eq {b : Box} {f : ℕ → OTree α} {p : Point} :
    remove b (mkNode f) p =
      (remove (narrow b p).2 (chl (mkNode f) (narrow b p).1) p).map
        (fun u => smartnodeF (Function.update (chl (mkNode f)) (narrow b p).1 u)) :=
  remove_node_eq

theorem smartnodeF_single {f : ℕ → OTree α} {n : ℕ} (hn : n < 8) {q : Point} {dq : α}
    (hfn : f n = singleton q dq) (hother : ∀ i, i < 8 → i ≠ n → f i = empty) :
    smartnodeF f = singleton q dq := by
  have e : ∀ i, i < 8 → f i = if i = n then singleton q dq else empty := by
    intro i hi
    split
    · rename_i hieq; rw [hieq, hfn]
    · rename_i hine; exact hother i hi hine
  interval_cases n <;>
  · simp only [smartnodeF]
    rw [e 0 (by omega), e 1 (by omega), e 2 (by omega), e 3 (by omega),
      e 4 (by omega), e 5 (by omega), e 6 (by omega), e 7 (by omega)]
    rfl

theorem smartnode_eq_node_of_nondeg {c0 c1 c2 c3 c4 c5 c6 c7 : OTree α}
    (h : nondegL [c0, c1, c2, c3, c4, c5, c6, c7] = true) :
    smartnode c0 c1 c2 c3 c4 c5 c6 c7 = node c0 c1 c2 c3 c4 c5 c6 c7 := by
  unfold smartnode
  dsimp only
  by_cases hany : ([c0, c1, c2, c3, c4, c5, c6, c7].any isNode) = true
  · rw [if_pos hany]
  · rw [if_neg hany]
    unfold nondegL at h
    simp only [Bool.or_eq_true, decide_eq_true_eq] at h
    rcases h with h | h
    · have hno : ∀ x ∈ [c0, c1, c2, c3, c4, c5, c6, c7], x.isNode = false := by
        intro x hx
        have hany' : ([c0, c1, c2, c3, c4, c5, c6, c7].any isNode) = false := by
          simpa using hany
        simpa using List.any_eq_false.mp hany' x hx
      have hcong : [c0, c1, c2, c3, c4, c5, c6, c7].countP (fun t => !t.isEmpty) =
          [c0, c1, c2, c3, c4, c5, c6, c7].countP isSingleton := by
        refine List.countP_congr ?_
        intro x hx
        have := hno x hx
        rcases x with _ | _ | _ <;> simp_all [isEmpty, isSingleton, isNode]
      rw [hcong] at h
      rw [List.countP_eq_length_filter] at h
      rcases hmatch : [c0, c1, c2, c3, c4, c5, c6, c7].filter isSingleton
        with _ | ⟨s, _ | ⟨s2, rest⟩⟩
      · rw [hmatch] at h; simp at h
      · rw [hmatch] at h; simp at h
      · rfl
    · exact absurd h (by simp [hany])

/-- Removing `p` right after inserting it into a singleton restores the
singleton (the collapse propagates back up the freshly-built chain). -/
theorem insert_remove_singleton : ∀ (fuel : ℕ) (b : Box) (q : Point) (dq : α) (p : Point)
    (d : α) (u : OTree α), q ≠ p → insert fuel b (singleton q dq) p d = .ok u →
    remove b u p = some (singleton q dq) := by
  intro fuel
  induction fuel using Nat.strong_induction_on with
  | _ fuel ih =>
    intro b q dq p d u hqp h
    cases fuel with
    | zero => simp [insert_zero] at h
    | succ fuel =>
    rw [insert_succ_singleton, if_neg hqp, Res.bind_eq_ok] at h
    obtain ⟨t1, h1, h2⟩ := h
    cases fuel with
    | zero => simp [insert_zero] at h1
    | succ fuel =>
    rw [insert_succ_node, Res.bind_eq_ok] at h1
    obtain ⟨v, hv1, ht1⟩ := h1
    rw [chl_empty_node] at hv1
    cases fuel with
    | zero => simp [insert_zero] at hv1
    | succ fuel =>
    rw [insert_succ_empty] at hv1
    cases hv1
    cases ht1
    rw [insert_succ_mkNode, Res.bind_eq_ok] at h2
    obtain ⟨w, hw1, hu⟩ := h2
    cases hu
    have hnp8 := narrow_fst_lt b p
    have hnq8 := narrow_fst_lt b q
    have hchl : chl (mkNode (Function.update
        (chl (node (empty : OTree α) empty empty empty empty empty empty empty))
        (narrow b q).1 (singleton q dq))) (narrow b p).1 =
        if (narrow b p).1 = (narrow b q).1 then singleton q dq else empty := by
      rw [chl_mkNode hnp8, Function.update_apply]
      split <;> simp [chl_empty_node]
    rw [remove_mkNode_eq, chl_mkNode hnp8, Function.update_same]
    by_cases hnn : (narrow b p).1 = (narrow b q).1
    · rw [hchl, if_pos hnn] at hw1
      have hrec := ih (fuel + 1) (by omega) (narrow b p).2 q dq p d w hqp hw1
      rw [hrec]
      simp only [Option.map_some']
      congr 1
      refine smartnodeF_single hnp8 (by rw [Function.update_same]) ?_
      intro i hi hine
      rw [Function.update_noteq hine, chl_mkNode hi, Function.update_noteq hine,
        chl_mkNode hi, Function.update_noteq (fun hc => hine (hc.trans hnn.symm))]
      exact chl_empty_node
    · rw [hchl, if_neg hnn] at hw1
      rw [insert_succ_empty] at hw1
      cases hw1
      have hrm : remove (narrow b p).2 (singleton p d) p = some empty := by
        simp [remove]
      rw [hrm]
      simp only [Option.map_some']
      congr 1
      have hqn : (narrow b q).1 ≠ (narrow b p).1 := fun hc => hnn hc.symm
      refine smartnodeF_single hnq8 ?_ ?_
      · rw [Function.update_noteq hqn, chl_mkNode hnq8, Function.update_noteq hqn,
          chl_mkNode hnq8, Function.update_same]
      · intro i hi hine
        by_cases hip : i = (narrow b p).1
        · rw [hip, Function.update_same]
        · rw [Function.update_noteq hip, chl_mkNode hi, Function.update_noteq hip,
            chl_mkNode hi, Function.update_noteq hine]
          exact chl_empty_node

end OTree

namespace OTree

variable {α : Type} [DecidableEq α]

/-- C4: on a valid tree, a successful `insert` of a fresh in-bounds point
followed by `remove` of the same point restores the original tree, up to
structural equality. -/
theorem c4_insert_remove {fuel : ℕ} {b : Box} {t : OTree α} {p : Point} {d : α}
    {u : OTree α} (hwf : wfBox b = true) (hv : validB b t = true)
    (hp : point_in_box p b = true) (hnp : p ∉ keys t)
    (h : insert fuel b t p d = .ok u) : remove b u p = some t := by
  induction fuel generalizing b t u with
  | zero => simp [insert_zero] at h
  | succ fuel ih =>
    cases t with
    | empty =>
      rw [insert_succ_empty] at h
      cases h
      simp [remove]
    | singleton q dq =>
      have hqp : q ≠ p := fun hc => hnp (by simp [keys, entries, hc])
      exact insert_remove_singleton (fuel + 1) b q dq p d u hqp h
    | node c0 c1 c2 c3 c4 c5 c6 c7 =>
      rw [insert_succ_node, Res.bind_eq_ok] at h
      obtain ⟨v, hv1, hu⟩ := h
      cases hu
      have h8 := narrow_fst_lt b p
      rw [validB_node_iff] at hv
      obtain ⟨hnd, h0, h1, h2, h3, h4, h5, h6, h7⟩ := hv
      have hchild : ∀ i, i < 8 →
          validB (subbox b i) (chl (node c0 c1 c2 c3 c4 c5 c6 c7) i) = true := by
        intro i hi
        interval_cases i <;> simpa [chl]
      rw [remove_mkNode_eq, chl_mkNode h8, Function.update_same]
      have hrm : remove (narrow b p).2 v p =
          some (chl (node c0 c1 c2 c3 c4 c5 c6 c7) (narrow b p).1) := by
        refine ih ?_ ?_ ?_ ?_ hv1
        · rw [narrow_snd_eq]
          exact wfBox_subbox h8 hwf
        · rw [narrow_snd_eq]
          exact hchild _ h8
        · exact point_in_narrow hp
        · exact fun hc => hnp (keys_chl_subset h8 hc)
      rw [hrm]
      simp only [Option.map_some']
      congr 1
      have hg : ∀ i, i < 8 → Function.update
          (chl (mkNode (Function.update (chl (node c0 c1 c2 c3 c4 c5 c6 c7))
            (narrow b p).1 v))) (narrow b p).1
          (chl (node c0 c1 c2 c3 c4 c5 c6 c7) (narrow b p).1) i =
          chl (node c0 c1 c2 c3 c4 c5 c6 c7) i := by
        intro i hi
        by_cases hip : i = (narrow b p).1
        · rw [hip, Function.update_same]
        · rw [Function.update_noteq hip, chl_mkNode hi, Function.update_noteq hip]
      simp only [smartnodeF]
      rw [hg 0 (by omega), hg 1 (by omega), hg 2 (by omega), hg 3 (by omega),
        hg 4 (by omega), hg 5 (by omega), hg 6 (by omega), hg 7 (by omega)]
      exact smartnode_eq_node_of_nondeg hnd

end OTree

/-- Witness for C4: a concrete successful insert-then-remove run that
restores the original singleton tree. -/
theorem c4_insert_remove_witness :
    OTree.remove (((0:ℚ), 8), ((0:ℚ), 8), ((0:ℚ), 8))
      (OTree.node (OTree.singleton ((1:ℚ), 1, 1) (0:ℕ)) .empty .empty .empty .empty .empty
        .empty (OTree.singleton ((5:ℚ), 5, 5) 1)) ((5:ℚ), 5, 5) =
      some (OTree.singleton ((1:ℚ), 1, 1) 0) := by
  have h : OTree.insert 10 (((0:ℚ), 8), ((0:ℚ), 8), ((0:ℚ), 8))
      (OTree.singleton ((1:ℚ), 1, 1) (0:ℕ)) ((5:ℚ), 5, 5) 1 =
      .ok (OTree.node (OTree.singleton ((1:ℚ), 1, 1) 0) .empty .empty .empty .empty .empty
        .empty (OTree.singleton ((5:ℚ), 5, 5) 1)) := by with_unfolding_all decide
  exact OTree.c4_insert_remove (by with_unfolding_all decide)
    (by with_unfolding_all decide) (by with_unfolding_all decide)
    (by with_unfolding_all decide) h

/-- Trees reachable from `Empty` through the facade: any sequence of
successful in-bounds `insert`, `update` and `remove` operations (the
facade checks bounds before delegating; success means the tree operation
returned a new root). -/
inductive Reach {α : Type} [DecidableEq α] (b : Box) : OTree α → Prop where
  | base : wfBox b = true → Reach b .empty
  | ins {t t' : OTree α} {fuel : ℕ} {p : Point} {d : α} : Reach b t →
      point_in_box p b = true → OTree.insert fuel b t p d = .ok t' → Reach b t'
  | upd {t t' : OTree α} {fuel : ℕ} {p : Point} {d : α} {r : Bool} : Reach b t →
      point_in_box p b = true → OTree.update fuel b t p d r = .ok t' → Reach b t'
  | rem {t t' : OTree α} {p : Point} : Reach b t →
      point_in_box p b = true → OTree.remove b t p = some t' → Reach b t'

theorem Reach.wf {α : Type} [DecidableEq α] {b : Box} {t : OTree α} (h : Reach b t) :
    wfBox b = true := by
  induction h with
  | base hwf => exact hwf
  | ins _ _ _ ih => exact ih
  | upd _ _ _ ih => exact ih
  | rem _ _ _ ih => exact ih

/-- Every reachable tree satisfies the structural validity invariant. -/
theorem Reach.valid {α : Type} [DecidableEq α] {b : Box} {t : OTree α} (h : Reach b t) :
    OTree.validB b t = true := by
  induction h with
  | base hwf => rfl
  | ins hr hp hop ih => exact OTree.insert_valid _ _ _ _ _ _ hr.wf ih hp hop
  | upd hr hp hop ih => exact OTree.update_valid hr.wf ih hp hop
  | rem hr hp hop ih => exact OTree.remove_valid hr.wf ih hop

theorem nondegAll_of_validB {α : Type} {b : Box} {t : OTree α}
    (h : OTree.validB b t = true) : OTree.nondegAll t = true := by
  induction t generalizing b with
  | empty => rfl
  | singleton p d => rfl
  | node c0 c1 c2 c3 c4 c5 c6 c7 ih0 ih1 ih2 ih3 ih4 ih5 ih6 ih7 =>
    rw [OTree.validB_node_iff] at h
    obtain ⟨hnd, h0, h1, h2, h3, h4, h5, h6, h7⟩ := h
    simp only [OTree.nondegAll, Bool.and_eq_true]
    exact ⟨⟨⟨⟨⟨⟨⟨⟨hnd, ih0 h0⟩, ih1 h1⟩, ih2 h2⟩, ih3 h3⟩, ih4 h4⟩, ih5 h5⟩, ih6 h6⟩,
      ih7 h7⟩

/-- C5: non-degeneracy is an invariant of every tree reachable from
`Empty` by successful facade operations; moreover a further `insert` into
such a tree (which rebuilds the node without `smartnode`) again yields a
tree all of whose nodes are non-degenerate. -/
theorem c5_nondegeneracy {α : Type} [DecidableEq α] {b : Box} {t : OTree α}
    (h : Reach b t) :
    OTree.nondegAll t = true ∧
    ∀ (fuel : ℕ) (p : Point) (d : α) (t' : OTree α), point_in_box p b = true →
      OTree.insert fuel b t p d = .ok t' → OTree.nondegAll t' = true := by
  refine ⟨nondegAll_of_validB h.valid, ?_⟩
  intro fuel p d t' hp hins
  exact nondegAll_of_validB (OTree.insert_valid _ _ _ _ _ _ h.wf h.valid hp hins)

/-- Witness for C5: a concrete two-insert reachable tree, checked
non-degenerate, and a third insert also checked non-degenerate. -/
theorem c5_nondegeneracy_witness :
    OTree.nondegAll (OTree.node (OTree.singleton ((1:ℚ), 1, 1) (0:ℕ)) .empty .empty .empty
      .empty .empty .empty (OTree.singleton ((5:ℚ), 5, 5) 1)) = true ∧
    OTree.nondegAll (OTree.node (OTree.singleton ((1:ℚ), 1, 1) (0:ℕ))
      (OTree.singleton ((1:ℚ), 1, 5) 2) .empty .empty .empty .empty .empty
      (OTree.singleton ((5:ℚ), 5, 5) 1)) = true := by
  have h1 : OTree.insert 10 (((0:ℚ), 8), ((0:ℚ), 8), ((0:ℚ), 8))
      (OTree.empty : OTree ℕ) ((1:ℚ), 1, 1) 0 =
      .ok (OTree.singleton ((1:ℚ), 1, 1) 0) := by with_unfolding_all decide
  have h2 : OTree.insert 10 (((0:ℚ), 8), ((0:ℚ), 8), ((0:ℚ), 8))
      (OTree.singleton ((1:ℚ), 1, 1) (0:ℕ)) ((5:ℚ), 5, 5) 1 =
      .ok (OTree.node (OTree.singleton ((1:ℚ), 1, 1) 0) .empty .empty .empty .empty .empty
        .empty (OTree.singleton ((5:ℚ), 5, 5) 1)) := by with_unfolding_all decide
  have hreach : Reach (((0:ℚ), 8), ((0:ℚ), 8), ((0:ℚ), 8))
      (OTree.node (OTree.singleton ((1:ℚ), 1, 1) (0:ℕ)) .empty .empty .empty .empty .empty
        .empty (OTree.singleton ((5:ℚ), 5, 5) 1)) :=
    Reach.ins (Reach.ins (Reach.base (by with_unfolding_all decide))
      (by with_unfolding_all decide) h1) (by with_unfolding_all decide) h2
  have h3 : OTree.insert 10 (((0:ℚ), 8), ((0:ℚ), 8), ((0:ℚ), 8))
      (OTree.node (OTree.singleton ((1:ℚ), 1, 1) (0:ℕ)) .empty .empty .empty .empty .empty
        .empty (OTree.singleton ((5:ℚ), 5, 5) 1)) ((1:ℚ), 1, 5) 2 =
      .ok (OTree.node (OTree.singleton ((1:ℚ), 1, 1) 0)
        (OTree.singleton ((1:ℚ), 1, 5) 2) .empty .empty .empty .empty .empty
        (OTree.singleton ((5:ℚ), 5, 5) 1)) := by with_unfolding_all decide
  exact ⟨(c5_nondegeneracy hreach).1,
    (c5_nondegeneracy hreach).2 10 ((1:ℚ), 1, 5) 2 _ (by with_unfolding_all decide) h3⟩

namespace OTree

variable {α : Type} [DecidableEq α]

/-- All keys of a valid tree lie inside its bounding box. -/
theorem keys_in_box {b : Box} {t : OTree α} {x : Point} (hwf : wfBox b = true)
    (hv : validB b t = true) (hx : x ∈ keys t) : point_in_box x b = true := by
  induction t generalizing b with
  | empty => simp [keys, entries] at hx
  | singleton q dq =>
    simp only [keys, entries, List.map_cons, List.map_nil, List.mem_singleton] at hx
    subst hx
    simpa [validB] using hv
  | node c0 c1 c2 c3 c4 c5 c6 c7 ih0 ih1 ih2 ih3 ih4 ih5 ih6 ih7 =>
    rw [validB_node_iff] at hv
    obtain ⟨hnd, h0, h1, h2, h3, h4, h5, h6, h7⟩ := hv
    obtain ⟨⟨x', e⟩, hmem, hfst⟩ := List.mem_map.mp hx
    cases hfst
    rcases mem_entries_node.mp hmem with hm | hm | hm | hm | hm | hm | hm | hm
    · exact point_in_box_of_subbox (by omega) hwf
        (ih0 (wfBox_subbox (by omega) hwf) h0 (List.mem_map.mpr ⟨_, hm, rfl⟩))
    · exact point_in_box_of_subbox (by omega) hwf
        (ih1 (wfBox_subbox (by omega) hwf) h1 (List.mem_map.mpr ⟨_, hm, rfl⟩))
    · exact point_in_box_of_subbox (by omega) hwf
        (ih2 (wfBox_subbox (by omega) hwf) h2 (List.mem_map.mpr ⟨_, hm, rfl⟩))
    · exact point_in_box_of_subbox (by omega) hwf
        (ih3 (wfBox_subbox (by omega) hwf) h3 (List.mem_map.mpr ⟨_, hm, rfl⟩))
    · exact point_in_box_of_subbox (by omega) hwf
        (ih4 (wfBox_subbox (by omega) hwf) h4 (List.mem_map.mpr ⟨_, hm, rfl⟩))
    · exact point_in_box_of_subbox (by omega) hwf
        (ih5 (wfBox_subbox (by omega) hwf) h5 (List.mem_map.mpr ⟨_, hm, rfl⟩))
    · exact point_in_box_of_subbox (by omega) hwf
        (ih6 (wfBox_subbox (by omega) hwf) h6 (List.mem_map.mpr ⟨_, hm, rfl⟩))
    · exact point_in_box_of_subbox (by omega) hwf
        (ih7 (wfBox_subbox (by omega) hwf) h7 (List.mem_map.mpr ⟨_, hm, rfl⟩))

/-- On a valid node, a stored key descends into the `narrow` octant. -/
theorem mem_keys_chl_narrow {b : Box} {c0 c1 c2 c3 c4 c5 c6 c7 : OTree α} {p : Point}
    (hwf : wfBox b = true) (hv : validB b (node c0 c1 c2 c3 c4 c5 c6 c7) = true)
    (hm : p ∈ keys (node c0 c1 c2 c3 c4 c5 c6 c7)) :
    p ∈ keys (chl (node c0 c1 c2 c3 c4 c5 c6 c7) (narrow b p).1) := by
  rw [validB_node_iff] at hv
  obtain ⟨hnd, h0, h1, h2, h3, h4, h5, h6, h7⟩ := hv
  obtain ⟨⟨x', e⟩, hmem, hfst⟩ := List.mem_map.mp hm
  cases hfst
  rcases mem_entries_node.mp hmem with hx | hx | hx | hx | hx | hx | hx | hx
  · rw [narrow_eq_of_subbox (by omega) (keys_in_box (wfBox_subbox (by omega) hwf) h0
      (List.mem_map.mpr ⟨_, hx, rfl⟩))]
    exact List.mem_map.mpr ⟨_, hx, rfl⟩
  · rw [narrow_eq_of_subbox (by omega) (keys_in_box (wfBox_subbox (by omega) hwf) h1
      (List.mem_map.mpr ⟨_, hx, rfl⟩))]
    exact List.mem_map.mpr ⟨_, hx, rfl⟩
  · rw [narrow_eq_of_subbox (by omega) (keys_in_box (wfBox_subbox (by omega) hwf) h2
      (List.mem_map.mpr ⟨_, hx, rfl⟩))]
    exact List.mem_map.mpr ⟨_, hx, rfl⟩
  · rw [narrow_eq_of_subbox (by omega) (keys_in_box (wfBox_subbox (by omega) hwf) h3
      (List.mem_map.mpr ⟨_, hx, rfl⟩))]
    exact List.mem_map.mpr ⟨_, hx, rfl⟩
  · rw [narrow_eq_of_subbox (by omega) (keys_in_box (wfBox_subbox (by omega) hwf) h4
      (List.mem_map.mpr ⟨_, hx, rfl⟩))]
    exact List.mem_map.mpr ⟨_, hx, rfl⟩
  · rw [narrow_eq_of_subbox (by omega) (keys_in_box (wfBox_subbox (by omega) hwf) h5
      (List.mem_map.mpr ⟨_, hx, rfl⟩))]
    exact List.mem_map.mpr ⟨_, hx, rfl⟩
  · rw [narrow_eq_of_subbox (by omega) (keys_in_box (wfBox_subbox (by omega) hwf) h6
      (List.mem_map.mpr ⟨_, hx, rfl⟩))]
    exact List.mem_map.mpr ⟨_, hx, rfl⟩
  · rw [narrow_eq_of_subbox (by omega) (keys_in_box (wfBox_subbox (by omega) hwf) h7
      (List.mem_map.mpr ⟨_, hx, rfl⟩))]
    exact List.mem_map.mpr ⟨_, hx, rfl⟩

/-- Inserting an already-stored coordinate never succeeds: the search is
guided by `narrow` to the stored singleton, which raises `KeyError`. -/
theorem insert_not_ok_of_mem {fuel : ℕ} {b : Box} {t : OTree α} {p : Point} {d : α}
    (hwf : wfBox b = true) (hv : validB b t = true) (hm : p ∈ keys t) :
    ∀ u, insert fuel b t p d ≠ .ok u := by
  induction fuel generalizing b t with
  | zero => intro u h; simp [insert_zero] at h
  | succ fuel ih =>
    intro u h
    cases t with
    | empty => simp [keys, entries] at hm
    | singleton q dq =>
      have hqp : q = p := by
        have := hm
        simp only [keys, entries, List.map_cons, List.map_nil, List.mem_singleton] at this
        exact this.symm
      rw [insert_succ_singleton, if_pos hqp] at h
      simp at h
    | node c0 c1 c2 c3 c4 c5 c6 c7 =>
      rw [insert_succ_node, Res.bind_eq_ok] at h
      obtain ⟨v, hv1, _⟩ := h
      have h8 := narrow_fst_lt b p
      have hmc := mem_keys_chl_narrow hwf hv hm
      have hvc : validB (subbox b (narrow b p).1)
          (chl (node c0 c1 c2 c3 c4 c5 c6 c7) (narrow b p).1) = true := by
        rw [validB_node_iff] at hv
        obtain ⟨hnd, h0, h1, h2, h3, h4, h5, h6, h7⟩ := hv
        have hcases : (narrow b p).1 = 0 ∨ (narrow b p).1 = 1 ∨ (narrow b p).1 = 2 ∨
            (narrow b p).1 = 3 ∨ (narrow b p).1 = 4 ∨ (narrow b p).1 = 5 ∨
            (narrow b p).1 = 6 ∨ (narrow b p).1 = 7 := by omega
        rcases hcases with hn | hn | hn | hn | hn | hn | hn | hn <;> rw [hn] <;>
          simpa [chl]
      rw [← narrow_snd_eq] at hvc
      exact ih (by rw [narrow_snd_eq]; exact wfBox_subbox h8 hwf) hvc hmc v hv1

end OTree

/-- The facade's error kinds.  In the Python code all three are raised as
`KeyError` with distinct messages (`check_bounds`, `Singleton.insert`,
`Singleton.remove`/`Empty.remove`); the spec names them OutOfBounds,
DuplicateKey and MissingKey. -/
inductive OctErr : Type where
  | outOfBounds : OctErr
  | duplicateKey : OctErr
  | missingKey : OctErr
deriving DecidableEq

/-- The mutable facade `Octree`: a bounding box and a root tree. -/
structure Octree (α : Type) : Type where
  bounds : Box
  tree : OTree α
deriving DecidableEq

namespace Octree

variable {α : Type} [DecidableEq α]

/-- `Octree.insert`: check bounds, delegate to the tree algebra, and
assign the new root only when the operation returns; on an exception the
facade is left as it was.  The result pairs the raised error (if any)
with the facade state after the call; `none` is fuel exhaustion. -/
def insertF (fuel : ℕ) (o : Octree α) (p : Point) (d : α) :
    Option (Option OctErr × Octree α) :=
  if point_in_box p o.bounds then
    match OTree.insert fuel o.bounds o.tree p d with
    | .ok t' => some (none, ⟨o.bounds, t'⟩)
    | .keyError => some (some .duplicateKey, o)
    | .noFuel => none
  else some (some .outOfBounds, o)

/-- `Octree.update` on the facade, same conventions as `insertF`. -/
def updateF (fuel : ℕ) (o : Octree α) (p : Point) (d : α) :
    Option (Option OctErr × Octree α) :=
  if point_in_box p o.bounds then
    match OTree.update fuel o.bounds o.tree p d true with
    | .ok t' => some (none, ⟨o.bounds, t'⟩)
    | .keyError => some (some .duplicateKey, o)
    | .noFuel => none
  else some (some .outOfBounds, o)

/-- `Octree.remove` on the facade (no fuel needed: `remove` is
structurally recursive). -/
def removeF (o : Octree α) (p : Point) : Option OctErr × Octree α :=
  if point_in_box p o.bounds then
    match OTree.remove o.bounds o.tree p with
    | some t' => (none, ⟨o.bounds, t'⟩)
    | none => (some .missingKey, o)
  else (some .outOfBounds, o)

end Octree

/-- C7: the facade's `insert` raises OutOfBounds for a point outside its
bounding box and DuplicateKey for an already-stored coordinate; `remove`
raises OutOfBounds outside the box and MissingKey for an absent
coordinate; and in every such error case the facade (bounds and root
tree) is returned unchanged, because the new root is assigned only after
the tree operation returns successfully. -/
theorem c7_facade_errors {α : Type} [DecidableEq α] (fuel : ℕ) (o : Octree α) (p : Point)
    (d : α) (hwf : wfBox o.bounds = true) (hv : OTree.validB o.bounds o.tree = true) :
    (point_in_box p o.bounds = false →
      Octree.insertF fuel o p d = some (some .outOfBounds, o)) ∧
    (point_in_box p o.bounds = true → p ∈ OTree.keys o.tree →
      ∀ r, Octree.insertF fuel o p d = some r → r = (some .duplicateKey, o)) ∧
    (point_in_box p o.bounds = false →
      Octree.removeF o p = (some .outOfBounds, o)) ∧
    (point_in_box p o.bounds = true → p ∉ OTree.keys o.tree →
      Octree.removeF o p = (some .missingKey, o)) := by
  refine ⟨?_, ?_, ?_, ?_⟩
  · intro hout
    simp [Octree.insertF, hout]
  · intro hin hm r hr
    rw [Octree.insertF, if_pos hin] at hr
    rcases hop : OTree.insert fuel o.bounds o.tree p d with t' | _ | _
    · exact absurd hop (OTree.insert_not_ok_of_mem hwf hv hm t')
    · rw [hop] at hr
      cases hr
      rfl
    · rw [hop] at hr
      cases hr
  · intro hout
    simp [Octree.removeF, hout]
  · intro hin hm
    rw [Octree.removeF, if_pos hin, OTree.remove_none_of_not_mem hm]

/-- Witness for C7 on a concrete facade holding one point. -/
theorem c7_facade_errors_witness :
    (Octree.insertF 10 (Octree.mk (((0:ℚ), 8), ((0:ℚ), 8), ((0:ℚ), 8))
        (OTree.singleton ((1:ℚ), 1, 1) (0:ℕ))) ((9:ℚ), 1, 1) 7 =
      some (some .outOfBounds, Octree.mk (((0:ℚ), 8), ((0:ℚ), 8), ((0:ℚ), 8))
        (OTree.singleton ((1:ℚ), 1, 1) 0))) ∧
    (∀ r, Octree.insertF 10 (Octree.mk (((0:ℚ), 8), ((0:ℚ), 8), ((0:ℚ), 8))
        (OTree.singleton ((1:ℚ), 1, 1) (0:ℕ))) ((1:ℚ), 1, 1) 7 = some r →
      r = (some .duplicateKey, Octree.mk (((0:ℚ), 8), ((0:ℚ), 8), ((0:ℚ), 8))
        (OTree.singleton ((1:ℚ), 1, 1) 0))) ∧
    (Octree.removeF (Octree.mk (((0:ℚ), 8), ((0:ℚ), 8), ((0:ℚ), 8))
        (OTree.singleton ((1:ℚ), 1, 1) (0:ℕ))) ((2:ℚ), 2, 2) =
      (some .missingKey, Octree.mk (((0:ℚ), 8), ((0:ℚ), 8), ((0:ℚ), 8))
        (OTree.singleton ((1:ℚ), 1, 1) 0))) := by
  refine ⟨?_, ?_, ?_⟩
  · exact (c7_facade_errors 10 _ ((9:ℚ), 1, 1) 7 (by with_unfolding_all decide)
      (by with_unfolding_all decide)).1 (by with_unfolding_all decide)
  · exact (c7_facade_errors 10 _ ((1:ℚ), 1, 1) 7 (by with_unfolding_all decide)
      (by with_unfolding_all decide)).2.1 (by with_unfolding_all decide)
      (by with_unfolding_all decide)
  · exact (c7_facade_errors 10 _ ((2:ℚ), 2, 2) 7 (by with_unfolding_all decide)
      (by with_unfolding_all decide)).2.2.2 (by with_unfolding_all decide)
      (by with_unfolding_all decide)

namespace OTree

variable {α : Type} [DecidableEq α]

theorem union_zero {b : Box} {t1 t2 : OTree α} {s : Bool} :
    union 0 b t1 t2 s = .noFuel := rfl

theorem union_succ_empty {fuel : ℕ} {b : Box} {t2 : OTree α} {s : Bool} :
    union (fuel + 1) b empty t2 s = .ok t2 := rfl

theorem union_succ_singleton {fuel : ℕ} {b : Box} {p : Point} {d : α} {t2 : OTree α}
    {s : Bool} : union (fuel + 1) b (singleton p d) t2 s = update fuel b t2 p d s := rfl

theorem union_succ_node_empty {fuel : ℕ} {b : Box} {a0 a1 a2 a3 a4 a5 a6 a7 : OTree α}
    {s : Bool} : union (fuel + 1) b (node a0 a1 a2 a3 a4 a5 a6 a7) empty s =
      .ok (node a0 a1 a2 a3 a4 a5 a6 a7) := rfl

theorem union_succ_node_singleton {fuel : ℕ} {b : Box} {a0 a1 a2 a3 a4 a5 a6 a7 : OTree α}
    {q : Point} {e : α} {s : Bool} :
    union (fuel + 1) b (node a0 a1 a2 a3 a4 a5 a6 a7) (singleton q e) s =
      update fuel b (node a0 a1 a2 a3 a4 a5 a6 a7) q e (!s) := rfl

theorem union_succ_node_node {fuel : ℕ} {b : Box} {a0 a1 a2 a3 a4 a5 a6 a7 : OTree α}
    {b0 b1 b2 b3 b4 b5 b6 b7 : OTree α} {s : Bool} :
    union (fuel + 1) b (node a0 a1 a2 a3 a4 a5 a6 a7) (node b0 b1 b2 b3 b4 b5 b6 b7) s =
      if s then
        union fuel b (node b0 b1 b2 b3 b4 b5 b6 b7) (node a0 a1 a2 a3 a4 a5 a6 a7) false
      else
        (union fuel (subbox b 0) a0 b0 false).bind fun u0 =>
        (union fuel (subbox b 1) a1 b1 false).bind fun u1 =>
        (union fuel (subbox b 2) a2 b2 false).bind fun u2 =>
        (union fuel (subbox b 3) a3 b3 false).bind fun u3 =>
        (union fuel (subbox b 4) a4 b4 false).bind fun u4 =>
        (union fuel (subbox b 5) a5 b5 false).bind fun u5 =>
        (union fuel (subbox b 6) a6 b6 false).bind fun u6 =>
        (union fuel (subbox b 7) a7 b7 false).bind fun u7 =>
        .ok (node u0 u1 u2 u3 u4 u5 u6 u7) := rfl

theorem mem_entries_iff_child {c0 c1 c2 c3 c4 c5 c6 c7 : OTree α} {y : Point × α} :
    y ∈ entries (node c0 c1 c2 c3 c4 c5 c6 c7) ↔
      ∃ i, i < 8 ∧ y ∈ entries (chl (node c0 c1 c2 c3 c4 c5 c6 c7) i) := by
  constructor
  · intro hy
    rcases mem_entries_node.mp hy with h | h | h | h | h | h | h | h
    · exact ⟨0, by omega, h⟩
    · exact ⟨1, by omega, h⟩
    · exact ⟨2, by omega, h⟩
    · exact ⟨3, by omega, h⟩
    · exact ⟨4, by omega, h⟩
    · exact ⟨5, by omega, h⟩
    · exact ⟨6, by omega, h⟩
    · exact ⟨7, by omega, h⟩
  · rintro ⟨i, hi, hy⟩
    refine mem_entries_node.mpr ?_
    interval_cases i <;> simp only [chl] at hy <;> tauto

theorem mem_keys_iff {t : OTree α} {x : Point} :
    x ∈ keys t ↔ ∃ e, (x, e) ∈ entries t := by
  constructor
  · intro hx
    obtain ⟨⟨x', e⟩, hmem, hfst⟩ := List.mem_map.mp hx
    cases hfst
    exact ⟨e, hmem⟩
  · rintro ⟨e, he⟩
    exact List.mem_map.mpr ⟨(x, e), he, rfl⟩

theorem mem_keys_node {c0 c1 c2 c3 c4 c5 c6 c7 : OTree α} {x : Point} :
    x ∈ keys (node c0 c1 c2 c3 c4 c5 c6 c7) ↔
      ∃ i, i < 8 ∧ x ∈ keys (chl (node c0 c1 c2 c3 c4 c5 c6 c7) i) := by
  rw [mem_keys_iff]
  constructor
  · rintro ⟨e, he⟩
    obtain ⟨i, hi, hy⟩ := mem_entries_iff_child.mp he
    exact ⟨i, hi, mem_keys_iff.mpr ⟨e, hy⟩⟩
  · rintro ⟨i, hi, hx⟩
    obtain ⟨e, he⟩ := mem_keys_iff.mp hx
    exact ⟨e, mem_entries_iff_child.mpr ⟨i, hi, he⟩⟩

/-- `union` stores exactly the coordinates of the two sides. -/
theorem union_keys_mem {fuel : ℕ} {b : Box} {t1 t2 : OTree α} {s : Bool} {u : OTree α}
    (h : union fuel b t1 t2 s = .ok u) (x : Point) :
    x ∈ keys u ↔ x ∈ keys t1 ∨ x ∈ keys t2 := by
  induction fuel generalizing b t1 t2 s u with
  | zero => simp [union_zero] at h
  | succ fuel ih =>
    cases t1 with
    | empty =>
      rw [union_succ_empty] at h
      cases h
      simp [keys, entries]
    | singleton p d =>
      rw [union_succ_singleton] at h
      rw [update_keys_mem h x]
      simp only [keys, entries, List.map_cons, List.map_nil, List.mem_singleton]
      tauto
    | node a0 a1 a2 a3 a4 a5 a6 a7 =>
      cases t2 with
      | empty =>
        rw [union_succ_node_empty] at h
        cases h
        simp [keys, entries]
      | singleton q e =>
        rw [union_succ_node_singleton] at h
        rw [update_keys_mem h x]
        simp only [keys, entries, List.map_cons, List.map_nil, List.mem_singleton]
        try tauto
      | node b0 b1 b2 b3 b4 b5 b6 b7 =>
        rw [union_succ_node_node] at h
        split at h
        · rw [ih h]
          tauto
        · rw [Res.bind_eq_ok] at h
          obtain ⟨u0, hu0, h⟩ := h
          rw [Res.bind_eq_ok] at h
          obtain ⟨u1, hu1, h⟩ := h
          rw [Res.bind_eq_ok] at h
          obtain ⟨u2, hu2, h⟩ := h
          rw [Res.bind_eq_ok] at h
          obtain ⟨u3, hu3, h⟩ := h
          rw [Res.bind_eq_ok] at h
          obtain ⟨u4, hu4, h⟩ := h
          rw [Res.bind_eq_ok] at h
          obtain ⟨u5, hu5, h⟩ := h
          rw [Res.bind_eq_ok] at h
          obtain ⟨u6, hu6, h⟩ := h
          rw [Res.bind_eq_ok] at h
          obtain ⟨u7, hu7, h⟩ := h
          cases h
          have hall : ∀ i, i < 8 →
              union fuel (subbox b i) (chl (node a0 a1 a2 a3 a4 a5 a6 a7) i)
                (chl (node b0 b1 b2 b3 b4 b5 b6 b7) i) false =
              .ok (chl (node u0 u1 u2 u3 u4 u5 u6 u7) i) := by
            intro i hi
            interval_cases i <;> simpa [chl]
          constructor
          · intro hx
            obtain ⟨i, hi, hxi⟩ := mem_keys_node.mp hx
            rcases (ih (hall i hi)).mp hxi with hl | hr
            · exact Or.inl (mem_keys_node.mpr ⟨i, hi, hl⟩)
            · exact Or.inr (mem_keys_node.mpr ⟨i, hi, hr⟩)
          · intro hx
            rcases hx with hx | hx
            · obtain ⟨i, hi, hxi⟩ := mem_keys_node.mp hx
              exact mem_keys_node.mpr ⟨i, hi, (ih (hall i hi)).mpr (Or.inl hxi)⟩
            · obtain ⟨i, hi, hxi⟩ := mem_keys_node.mp hx
              exact mem_keys_node.mpr ⟨i, hi, (ih (hall i hi)).mpr (Or.inr hxi)⟩

end OTree

namespace OTree

variable {α : Type} [DecidableEq α]

/-- Whatever `union` stores came from one of its two sides. -/
theorem union_mem_entries {fuel : ℕ} {b : Box} {t1 t2 : OTree α} {s : Bool} {u : OTree α}
    (h : union fuel b t1 t2 s = .ok u) {y : Point × α} (hy : y ∈ entries u) :
    y ∈ entries t1 ∨ y ∈ entries t2 := by
  induction fuel generalizing b t1 t2 s u with
  | zero => simp [union_zero] at h
  | succ fuel ih =>
    cases t1 with
    | empty =>
      rw [union_succ_empty] at h
      cases h
      exact Or.inr hy
    | singleton p d =>
      rw [union_succ_singleton] at h
      rcases update_mem_entries h hy with h1 | h1
      · exact Or.inr h1
      · exact Or.inl (by simp [entries, h1])
    | node a0 a1 a2 a3 a4 a5 a6 a7 =>
      cases t2 with
      | empty =>
        rw [union_succ_node_empty] at h
        cases h
        exact Or.inl hy
      | singleton q e =>
        rw [union_succ_node_singleton] at h
        rcases update_mem_entries h hy with h1 | h1
        · exact Or.inl h1
        · exact Or.inr (by simp [entries, h1])
      | node b0 b1 b2 b3 b4 b5 b6 b7 =>
        rw [union_succ_node_node] at h
        split at h
        · exact (ih h hy).symm
        · rw [Res.bind_eq_ok] at h
          obtain ⟨u0, hu0, h⟩ := h
          rw [Res.bind_eq_ok] at h
          obtain ⟨u1, hu1, h⟩ := h
          rw [Res.bind_eq_ok] at h
          obtain ⟨u2, hu2, h⟩ := h
          rw [Res.bind_eq_ok] at h
          obtain ⟨u3, hu3, h⟩ := h
          rw [Res.bind_eq_ok] at h
          obtain ⟨u4, hu4, h⟩ := h
          rw [Res.bind_eq_ok] at h
          obtain ⟨u5, hu5, h⟩ := h
          rw [Res.bind_eq_ok] at h
          obtain ⟨u6, hu6, h⟩ := h
          rw [Res.bind_eq_ok] at h
          obtain ⟨u7, hu7, h⟩ := h
          cases h
          have hall : ∀ i, i < 8 →
              union fuel (subbox b i) (chl (node a0 a1 a2 a3 a4 a5 a6 a7) i)
                (chl (node b0 b1 b2 b3 b4 b5 b6 b7) i) false =
              .ok (chl (node u0 u1 u2 u3 u4 u5 u6 u7) i) := by
            intro i hi
            interval_cases i <;> simpa [chl]
          obtain ⟨i, hi, hyi⟩ := mem_entries_iff_child.mp hy
          rcases ih (hall i hi) hyi with hl | hr
          · exact Or.inl (mem_entries_iff_child.mpr ⟨i, hi, hl⟩)
          · exact Or.inr (mem_entries_iff_child.mpr ⟨i, hi, hr⟩)

/-- An entry of one side whose coordinate is absent from the other side
survives the union with its payload. -/
theorem union_mem_pres {fuel : ℕ} {b : Box} {t1 t2 : OTree α} {s : Bool} {u : OTree α}
    (h : union fuel b t1 t2 s = .ok u) :
    (∀ y : Point × α, y ∈ entries t1 → y.1 ∉ keys t2 → y ∈ entries u) ∧
    (∀ y : Point × α, y ∈ entries t2 → y.1 ∉ keys t1 → y ∈ entries u) := by
  induction fuel generalizing b t1 t2 s u with
  | zero => simp [union_zero] at h
  | succ fuel ih =>
    cases t1 with
    | empty =>
      rw [union_succ_empty] at h
      cases h
      exact ⟨fun y hy _ => by simp [entries] at hy, fun y hy _ => hy⟩
    | singleton p d =>
      rw [union_succ_singleton] at h
      constructor
      · intro y hy hk
        simp only [entries, List.mem_singleton] at hy
        subst hy
        have := update_entriesM_new h hk
        refine mem_entriesM.mp ?_
        rw [this]
        exact Multiset.mem_add.mpr (Or.inr (Multiset.mem_singleton.mpr rfl))
      · intro y hy hk
        refine update_mem_preserved h hy ?_
        intro hc
        exact hk (by simp [keys, entries, hc])
    | node a0 a1 a2 a3 a4 a5 a6 a7 =>
      cases t2 with
      | empty =>
        rw [union_succ_node_empty] at h
        cases h
        exact ⟨fun y hy _ => hy, fun y hy _ => by simp [entries] at hy⟩
      | singleton q e =>
        rw [union_succ_node_singleton] at h
        constructor
        · intro y hy hk
          refine update_mem_preserved h hy ?_
          intro hc
          exact hk (by simp [keys, entries, hc])
        · intro y hy hk
          simp only [entries, List.mem_singleton] at hy
          subst hy
          have := update_entriesM_new h hk
          refine mem_entriesM.mp ?_
          rw [this]
          exact Multiset.mem_add.mpr (Or.inr (Multiset.mem_singleton.mpr rfl))
      | node b0 b1 b2 b3 b4 b5 b6 b7 =>
        rw [union_succ_node_node] at h
        split at h
        · exact ⟨(ih h).2, (ih h).1⟩
        · rw [Res.bind_eq_ok] at h
          obtain ⟨u0, hu0, h⟩ := h
          rw [Res.bind_eq_ok] at h
          obtain ⟨u1, hu1, h⟩ := h
          rw [Res.bind_eq_ok] at h
          obtain ⟨u2, hu2, h⟩ := h
          rw [Res.bind_eq_ok] at h
          obtain ⟨u3, hu3, h⟩ := h
          rw [Res.bind_eq_ok] at h
          obtain ⟨u4, hu4, h⟩ := h
          rw [Res.bind_eq_ok] at h
          obtain ⟨u5, hu5, h⟩ := h
          rw [Res.bind_eq_ok] at h
          obtain ⟨u6, hu6, h⟩ := h
          rw [Res.bind_eq_ok] at h
          obtain ⟨u7, hu7, h⟩ := h
          cases h
          have hall : ∀ i, i < 8 →
              union fuel (subbox b i) (chl (node a0 a1 a2 a3 a4 a5 a6 a7) i)
                (chl (node b0 b1 b2 b3 b4 b5 b6 b7) i) false =
              .ok (chl (node u0 u1 u2 u3 u4 u5 u6 u7) i) := by
            intro i hi
            interval_cases i <;> simpa [chl]
          constructor
          · intro y hy hk
            obtain ⟨i, hi, hyi⟩ := mem_entries_iff_child.mp hy
            have hki : y.1 ∉ keys (chl (node b0 b1 b2 b3 b4 b5 b6 b7) i) :=
              fun hc => hk (mem_keys_node.mpr ⟨i, hi, hc⟩)
            exact mem_entries_iff_child.mpr ⟨i, hi, (ih (hall i hi)).1 y hyi hki⟩
          · intro y hy hk
            obtain ⟨i, hi, hyi⟩ := mem_entries_iff_child.mp hy
            have hki : y.1 ∉ keys (chl (node a0 a1 a2 a3 a4 a5 a6 a7) i) :=
              fun hc => hk (mem_keys_node.mpr ⟨i, hi, hc⟩)
            exact mem_entries_iff_child.mpr ⟨i, hi, (ih (hall i hi)).2 y hyi hki⟩

end OTree

/-- `Octree.simple_union`: requires identical bounds (else the code
raises `ValueError`, here folded into `none` together with fuel
exhaustion); returns a new facade over the unchanged bounds with the
union of the two trees. -/
def Octree.simple_unionF {α : Type} [DecidableEq α] (fuel : ℕ) (o1 o2 : Octree α) :
    Option (Octree α) :=
  if o1.bounds = o2.bounds then
    match OTree.union fuel o1.bounds o1.tree o2.tree false with
    | .ok t => some ⟨o1.bounds, t⟩
    | .keyError => none
    | .noFuel => none
  else none

/-- C6: a successful `simple_union` of two facades with identical bounds
stores exactly the union of the two coordinate sets; a coordinate present
in only one tree keeps its payload, and a coordinate present in both
keeps the payload of one of the two sides. -/
theorem c6_simple_union {α : Type} [DecidableEq α] {fuel : ℕ} {o1 o2 u : Octree α}
    (h : Octree.simple_unionF fuel o1 o2 = some u) :
    u.bounds = o1.bounds ∧
    (∀ x, x ∈ OTree.keys u.tree ↔ x ∈ OTree.keys o1.tree ∨ x ∈ OTree.keys o2.tree) ∧
    (∀ y : Point × α, y ∈ OTree.entries u.tree →
      y ∈ OTree.entries o1.tree ∨ y ∈ OTree.entries o2.tree) ∧
    (∀ y : Point × α, y ∈ OTree.entries o1.tree → y.1 ∉ OTree.keys o2.tree →
      y ∈ OTree.entries u.tree) ∧
    (∀ y : Point × α, y ∈ OTree.entries o2.tree → y.1 ∉ OTree.keys o1.tree →
      y ∈ OTree.entries u.tree) := by
  rw [Octree.simple_unionF] at h
  split at h
  · rcases hop : OTree.union fuel o1.bounds o1.tree o2.tree false with t | _ | _ <;>
      rw [hop] at h
    · cases h
      exact ⟨rfl, fun x => OTree.union_keys_mem hop x,
        fun y hy => OTree.union_mem_entries hop hy,
        fun y hy hk => (OTree.union_mem_pres hop).1 y hy hk,
        fun y hy hk => (OTree.union_mem_pres hop).2 y hy hk⟩
    · cases h
    · cases h
  · cases h

/-- Witness for C6 on two concrete one-point facades over the same
bounds. -/
theorem c6_simple_union_witness :
    (Octree.mk (((0:ℚ), 8), ((0:ℚ), 8), ((0:ℚ), 8))
        (OTree.node (OTree.singleton ((1:ℚ), 1, 1) (0:ℕ)) .empty .empty .empty .empty
          .empty .empty (OTree.singleton ((5:ℚ), 5, 5) 1))).bounds =
      (((0:ℚ), 8), ((0:ℚ), 8), ((0:ℚ), 8)) ∧
    (((1:ℚ), 1, 1) ∈ OTree.keys (OTree.node (OTree.singleton ((1:ℚ), 1, 1) (0:ℕ)) .empty
        .empty .empty .empty .empty .empty (OTree.singleton ((5:ℚ), 5, 5) 1)) ↔
      ((1:ℚ), 1, 1) ∈ OTree.keys (OTree.singleton ((1:ℚ), 1, 1) (0:ℕ)) ∨
      ((1:ℚ), 1, 1) ∈ OTree.keys (OTree.singleton ((5:ℚ), 5, 5) (1:ℕ))) := by
  have h : Octree.simple_unionF 10
      (Octree.mk (((0:ℚ), 8), ((0:ℚ), 8), ((0:ℚ), 8))
        (OTree.singleton ((1:ℚ), 1, 1) (0:ℕ)))
      (Octree.mk (((0:ℚ), 8), ((0:ℚ), 8), ((0:ℚ), 8))
        (OTree.singleton ((5:ℚ), 5, 5) (1:ℕ))) =
      some (Octree.mk (((0:ℚ), 8), ((0:ℚ), 8), ((0:ℚ), 8))
        (OTree.node (OTree.singleton ((1:ℚ), 1, 1) 0) .empty .empty .empty .empty .empty
          .empty (OTree.singleton ((5:ℚ), 5, 5) 1))) := by with_unfolding_all decide
  exact ⟨(c6_simple_union h).1, (c6_simple_union h).2.1 ((1:ℚ), 1, 1)⟩

namespace OTree

variable {α : Type} [DecidableEq α]

theorem rebound_zero {o n : Box} {t : OTree α} : rebound 0 o n t = .noFuel := rfl

theorem rebound_succ_empty {fuel : ℕ} {o n : Box} :
    rebound (fuel + 1) o n (empty : OTree α) = .ok empty := rfl

theorem rebound_succ_singleton {fuel : ℕ} {o n : Box} {p : Point} {d : α} :
    rebound (fuel + 1) o n (singleton p d) =
      .ok (if point_in_box p n then singleton p d else empty) := rfl

theorem rebound_succ_node {fuel : ℕ} {o n : Box} {c0 c1 c2 c3 c4 c5 c6 c7 : OTree α} :
    rebound (fuel + 1) o n (node c0 c1 c2 c3 c4 c5 c6 c7) =
      if box_contains o n then
        (rebound fuel o (subbox n 0) (node c0 c1 c2 c3 c4 c5 c6 c7)).bind fun r0 =>
        (rebound fuel o (subbox n 1) (node c0 c1 c2 c3 c4 c5 c6 c7)).bind fun r1 =>
        (rebound fuel o (subbox n 2) (node c0 c1 c2 c3 c4 c5 c6 c7)).bind fun r2 =>
        (rebound fuel o (subbox n 3) (node c0 c1 c2 c3 c4 c5 c6 c7)).bind fun r3 =>
        (rebound fuel o (subbox n 4) (node c0 c1 c2 c3 c4 c5 c6 c7)).bind fun r4 =>
        (rebound fuel o (subbox n 5) (node c0 c1 c2 c3 c4 c5 c6 c7)).bind fun r5 =>
        (rebound fuel o (subbox n 6) (node c0 c1 c2 c3 c4 c5 c6 c7)).bind fun r6 =>
        (rebound fuel o (subbox n 7) (node c0 c1 c2 c3 c4 c5 c6 c7)).bind fun r7 =>
        .ok (node r0 r1 r2 r3 r4 r5 r6 r7)
      else if boxes_disjoint o n then .ok empty
      else
        (rebound fuel (subbox o 0) n c0).bind fun s0 =>
        (rebound fuel (subbox o 1) n c1).bind fun s1 =>
        (rebound fuel (subbox o 2) n c2).bind fun s2 =>
        (rebound fuel (subbox o 3) n c3).bind fun s3 =>
        (rebound fuel (subbox o 4) n c4).bind fun s4 =>
        (rebound fuel (subbox o 5) n c5).bind fun s5 =>
        (rebound fuel (subbox o 6) n c6).bind fun s6 =>
        (rebound fuel (subbox o 7) n c7).bind fun s7 =>
        (union fuel n s0 s1 false).bind fun v1 =>
        (union fuel n v1 s2 false).bind fun v2 =>
        (union fuel n v2 s3 false).bind fun v3 =>
        (union fuel n v3 s4 false).bind fun v4 =>
        (union fuel n v4 s5 false).bind fun v5 =>
        (union fuel n v5 s6 false).bind fun v6 =>
        (union fuel n v6 s7 false).bind fun v7 =>
        .ok v7 := rfl

theorem entries_eq_nil_of_isEmpty {t : OTree α} (h : t.isEmpty = true) : entries t = [] := by
  cases t <;> simp_all [isEmpty, entries]

/-- A valid non-empty tree stores at least one entry. -/
theorem one_le_length_entries {b : Box} {t : OTree α} (hv : validB b t = true)
    (he : t.isEmpty = false) : 1 ≤ (entries t).length := by
  induction t generalizing b with
  | empty => simp [isEmpty] at he
  | singleton p d => simp [entries]
  | node c0 c1 c2 c3 c4 c5 c6 c7 ih0 ih1 ih2 ih3 ih4 ih5 ih6 ih7 =>
    rw [validB_node_iff] at hv
    obtain ⟨hnd, h0, h1, h2, h3, h4, h5, h6, h7⟩ := hv
    unfold nondegL at hnd
    simp only [Bool.or_eq_true, decide_eq_true_eq] at hnd
    have hex : ∃ x ∈ [c0, c1, c2, c3, c4, c5, c6, c7], x.isEmpty = false := by
      rcases hnd with hcnt | hany
      · have : 0 < [c0, c1, c2, c3, c4, c5, c6, c7].countP (fun t => !t.isEmpty) := by
          omega
        obtain ⟨x, hx, hpx⟩ := List.countP_pos.mp this
        exact ⟨x, hx, by simpa using hpx⟩
      · obtain ⟨x, hx, hpx⟩ := List.any_eq_true.mp hany
        refine ⟨x, hx, ?_⟩
        cases x <;> simp_all [isNode, isEmpty]
    obtain ⟨x, hx, hpx⟩ := hex
    simp only [entries, List.length_append]
    simp only [List.mem_cons, List.not_mem_nil, or_false] at hx
    rcases hx with rfl | rfl | rfl | rfl | rfl | rfl | rfl | rfl
    · have := ih0 h0 hpx; omega
    · have := ih1 h1 hpx; omega
    · have := ih2 h2 hpx; omega
    · have := ih3 h3 hpx; omega
    · have := ih4 h4 hpx; omega
    · have := ih5 h5 hpx; omega
    · have := ih6 h6 hpx; omega
    · have := ih7 h7 hpx; omega

/-- A valid node stores at least two entries. -/
theorem two_le_length_entries_node {b : Box} {t : OTree α} (hv : validB b t = true)
    (ht : t.isNode = true) : 2 ≤ (entries t).length := by
  induction t generalizing b with
  | empty => simp [isNode] at ht
  | singleton p d => simp [isNode] at ht
  | node c0 c1 c2 c3 c4 c5 c6 c7 ih0 ih1 ih2 ih3 ih4 ih5 ih6 ih7 =>
    rw [validB_node_iff] at hv
    obtain ⟨hnd, h0, h1, h2, h3, h4, h5, h6, h7⟩ := hv
    unfold nondegL at hnd
    simp only [Bool.or_eq_true, decide_eq_true_eq] at hnd
    simp only [entries, List.length_append]
    rcases hnd with hcnt | hany
    · have g0 : (if (!c0.isEmpty) = true then 1 else 0) ≤ (entries c0).length := by
        split
        · exact one_le_length_entries h0 (by simp_all)
        · omega
      have g1 : (if (!c1.isEmpty) = true then 1 else 0) ≤ (entries c1).length := by
        split
        · exact one_le_length_entries h1 (by simp_all)
        · omega
      have g2 : (if (!c2.isEmpty) = true then 1 else 0) ≤ (entries c2).length := by
        split
        · exact one_le_length_entries h2 (by simp_all)
        · omega
      have g3 : (if (!c3.isEmpty) = true then 1 else 0) ≤ (entries c3).length := by
        split
        · exact one_le_length_entries h3 (by simp_all)
        · omega
      have g4 : (if (!c4.isEmpty) = true then 1 else 0) ≤ (entries c4).length := by
        split
        · exact one_le_length_entries h4 (by simp_all)
        · omega
      have g5 : (if (!c5.isEmpty) = true then 1 else 0) ≤ (entries c5).length := by
        split
        · exact one_le_length_entries h5 (by simp_all)
        · omega
      have g6 : (if (!c6.isEmpty) = true then 1 else 0) ≤ (entries c6).length := by
        split
        · exact one_le_length_entries h6 (by simp_all)
        · omega
      have g7 : (if (!c7.isEmpty) = true then 1 else 0) ≤ (entries c7).length := by
        split
        · exact one_le_length_entries h7 (by simp_all)
        · omega
      rw [List.countP_cons, List.countP_cons, List.countP_cons, List.countP_cons,
        List.countP_cons, List.countP_cons, List.countP_cons, List.countP_cons] at hcnt
      simp only [List.countP_nil] at hcnt
      omega
    · obtain ⟨x, hx, hpx⟩ := List.any_eq_true.mp hany
      simp only [List.mem_cons, List.not_mem_nil, or_false] at hx
      rcases hx with rfl | rfl | rfl | rfl | rfl | rfl | rfl | rfl
      · have := ih0 h0 hpx; omega
      · have := ih1 h1 hpx; omega
      · have := ih2 h2 hpx; omega
      · have := ih3 h3 hpx; omega
      · have := ih4 h4 hpx; omega
      · have := ih5 h5 hpx; omega
      · have := ih6 h6 hpx; omega
      · have := ih7 h7 hpx; omega

/-- Any node holding at least two entries is non-degenerate. -/
theorem nondegL_of_card {c0 c1 c2 c3 c4 c5 c6 c7 : OTree α}
    (h : 2 ≤ (entries (node c0 c1 c2 c3 c4 c5 c6 c7)).length) :
    nondegL [c0, c1, c2, c3, c4, c5, c6, c7] = true := by
  unfold nondegL
  simp only [Bool.or_eq_true, decide_eq_true_eq]
  by_cases hany : ([c0, c1, c2, c3, c4, c5, c6, c7].any isNode) = true
  · exact Or.inr hany
  · left
    have hno : ∀ x ∈ [c0, c1, c2, c3, c4, c5, c6, c7], x.isNode = false := by
      intro x hx
      have hany' : ([c0, c1, c2, c3, c4, c5, c6, c7].any isNode) = false := by
        simpa using hany
      simpa using List.any_eq_false.mp hany' x hx
    have key : ∀ x ∈ [c0, c1, c2, c3, c4, c5, c6, c7],
        (entries x).length ≤ (if (!x.isEmpty) = true then 1 else 0) := by
      intro x hx
      have := hno x hx
      cases x <;> simp_all [entries, isEmpty, isNode]
    simp only [entries, List.length_append] at h
    have k0 := key c0 (by simp)
    have k1 := key c1 (by simp)
    have k2 := key c2 (by simp)
    have k3 := key c3 (by simp)
    have k4 := key c4 (by simp)
    have k5 := key c5 (by simp)
    have k6 := key c6 (by simp)
    have k7 := key c7 (by simp)
    rw [List.countP_cons, List.countP_cons, List.countP_cons, List.countP_cons,
      List.countP_cons, List.countP_cons, List.countP_cons, List.countP_cons]
    simp only [List.countP_nil]
    omega

/-- A valid tree with at least two entries is a node. -/
theorem isNode_of_two_entries {b : Box} {t : OTree α} (hv : validB b t = true)
    (h : 2 ≤ (entries t).length) : t.isNode = true := by
  cases t with
  | empty => simp [entries] at h
  | singleton p d => simp [entries] at h
  | node c0 c1 c2 c3 c4 c5 c6 c7 => rfl

/-- A point lies in at most one octant of a box. -/
theorem subbox_mem_unique {b : Box} {x : Point} {i j : ℕ} (hi : i < 8) (hj : j < 8)
    (hne : i ≠ j) (h1 : point_in_box x (subbox b i) = true)
    (h2 : point_in_box x (subbox b j) = true) : False :=
  hne ((narrow_eq_of_subbox hi h1).symm.trans (narrow_eq_of_subbox hj h2))

end OTree

namespace OTree

variable {α : Type} [DecidableEq α]

theorem union_isNode {fuel : ℕ} {b : Box} {t1 t2 : OTree α} {s : Bool} {u : OTree α}
    (h : union fuel b t1 t2 s = .ok u) (ht : t1.isNode = true ∨ t2.isNode = true) :
    u.isNode = true := by
  induction fuel generalizing b t1 t2 s u with
  | zero => simp [union_zero] at h
  | succ fuel ih =>
    cases t1 with
    | empty =>
      rw [union_succ_empty] at h
      cases h
      rcases ht with ht | ht
      · simp [isNode] at ht
      · exact ht
    | singleton p d =>
      rw [union_succ_singleton] at h
      rcases ht with ht | ht
      · simp [isNode] at ht
      · exact update_node_isNode ht h
    | node a0 a1 a2 a3 a4 a5 a6 a7 =>
      cases t2 with
      | empty =>
        rw [union_succ_node_empty] at h
        cases h
        rfl
      | singleton q e =>
        rw [union_succ_node_singleton] at h
        exact update_node_isNode (by rfl) h
      | node b0 b1 b2 b3 b4 b5 b6 b7 =>
        rw [union_succ_node_node] at h
        split at h
        · exact ih h (Or.inl rfl)
        · rw [Res.bind_eq_ok] at h
          obtain ⟨u0, hu0, h⟩ := h
          rw [Res.bind_eq_ok] at h
          obtain ⟨u1, hu1, h⟩ := h
          rw [Res.bind_eq_ok] at h
          obtain ⟨u2, hu2, h⟩ := h
          rw [Res.bind_eq_ok] at h
          obtain ⟨u3, hu3, h⟩ := h
          rw [Res.bind_eq_ok] at h
          obtain ⟨u4, hu4, h⟩ := h
          rw [Res.bind_eq_ok] at h
          obtain ⟨u5, hu5, h⟩ := h
          rw [Res.bind_eq_ok] at h
          obtain ⟨u6, hu6, h⟩ := h
          rw [Res.bind_eq_ok] at h
          obtain ⟨u7, hu7, h⟩ := h
          cases h
          rfl

theorem keys_ne_nil_of_mem {t : OTree α} {x : Point} (h : x ∈ keys t) :
    t.isEmpty = false := by
  cases t with
  | empty => simp [keys, entries] at h
  | singleton p d => rfl
  | node c0 c1 c2 c3 c4 c5 c6 c7 => rfl

/-- `union` of two valid trees over the same bounds is valid. -/
theorem union_valid {fuel : ℕ} {b : Box} {t1 t2 : OTree α} {s : Bool} {u : OTree α}
    (hwf : wfBox b = true) (hv1 : validB b t1 = true) (hv2 : validB b t2 = true)
    (h : union fuel b t1 t2 s = .ok u) : validB b u = true := by
  induction fuel generalizing b t1 t2 s u with
  | zero => simp [union_zero] at h
  | succ fuel ih =>
    cases t1 with
    | empty =>
      rw [union_succ_empty] at h
      cases h
      exact hv2
    | singleton p d =>
      rw [union_succ_singleton] at h
      exact update_valid hwf hv2 (by simpa [validB] using hv1) h
    | node a0 a1 a2 a3 a4 a5 a6 a7 =>
      cases t2 with
      | empty =>
        rw [union_succ_node_empty] at h
        cases h
        exact hv1
      | singleton q e =>
        rw [union_succ_node_singleton] at h
        exact update_valid hwf hv1 (by simpa [validB] using hv2) h
      | node b0 b1 b2 b3 b4 b5 b6 b7 =>
        rw [union_succ_node_node] at h
        split at h
        · exact ih hwf hv2 hv1 h
        · rw [Res.bind_eq_ok] at h
          obtain ⟨u0, hu0, h⟩ := h
          rw [Res.bind_eq_ok] at h
          obtain ⟨u1, hu1, h⟩ := h
          rw [Res.bind_eq_ok] at h
          obtain ⟨u2, hu2, h⟩ := h
          rw [Res.bind_eq_ok] at h
          obtain ⟨u3, hu3, h⟩ := h
          rw [Res.bind_eq_ok] at h
          obtain ⟨u4, hu4, h⟩ := h
          rw [Res.bind_eq_ok] at h
          obtain ⟨u5, hu5, h⟩ := h
          rw [Res.bind_eq_ok] at h
          obtain ⟨u6, hu6, h⟩ := h
          rw [Res.bind_eq_ok] at h
          obtain ⟨u7, hu7, h⟩ := h
          cases h
          have hall : ∀ i, i < 8 →
              union fuel (subbox b i) (chl (node a0 a1 a2 a3 a4 a5 a6 a7) i)
                (chl (node b0 b1 b2 b3 b4 b5 b6 b7) i) false =
              .ok (chl (node u0 u1 u2 u3 u4 u5 u6 u7) i) := by
            intro i hi
            interval_cases i <;> simpa [chl]
          rw [validB_node_iff] at hv1 hv2
          obtain ⟨hnd1, g0, g1, g2, g3, g4, g5, g6, g7⟩ := hv1
          obtain ⟨hnd2, k0, k1, k2, k3, k4, k5, k6, k7⟩ := hv2
          have hchild1 : ∀ i, i < 8 →
              validB (subbox b i) (chl (node a0 a1 a2 a3 a4 a5 a6 a7) i) = true := by
            intro i hi
            interval_cases i <;> simpa [chl]
          have hchild2 : ∀ i, i < 8 →
              validB (subbox b i) (chl (node b0 b1 b2 b3 b4 b5 b6 b7) i) = true := by
            intro i hi
            interval_cases i <;> simpa [chl]
          have hvu : ∀ i, i < 8 →
              validB (subbox b i) (chl (node u0 u1 u2 u3 u4 u5 u6 u7) i) = true := by
            intro i hi
            exact ih (wfBox_subbox hi hwf) (hchild1 i hi) (hchild2 i hi) (hall i hi)
          have hgoal : validB b (mkNode (chl (node u0 u1 u2 u3 u4 u5 u6 u7))) = true := by
            rw [validB_mkNode_iff]
            constructor
            · have hsim : ∀ i, i < 8 →
                  ((chl (node a0 a1 a2 a3 a4 a5 a6 a7) i).isEmpty = false →
                    (chl (node u0 u1 u2 u3 u4 u5 u6 u7) i).isEmpty = false) ∧
                  ((chl (node a0 a1 a2 a3 a4 a5 a6 a7) i).isNode = true →
                    (chl (node u0 u1 u2 u3 u4 u5 u6 u7) i).isNode = true) := by
                intro i hi
                constructor
                · intro hne
                  obtain ⟨x, hx⟩ : ∃ x, x ∈ keys (chl (node a0 a1 a2 a3 a4 a5 a6 a7) i) := by
                    have hlen := one_le_length_entries (hchild1 i hi) hne
                    rcases hent : entries (chl (node a0 a1 a2 a3 a4 a5 a6 a7) i)
                      with _ | ⟨y, l⟩
                    · rw [hent] at hlen; simp at hlen
                    · exact ⟨y.1, List.mem_map.mpr ⟨y, by rw [hent]; simp, rfl⟩⟩
                  have hxu : x ∈ keys (chl (node u0 u1 u2 u3 u4 u5 u6 u7) i) :=
                    (union_keys_mem (hall i hi) x).mpr (Or.inl hx)
                  exact keys_ne_nil_of_mem hxu
                · intro hni
                  exact union_isNode (hall i hi) (Or.inl hni)
              refine nondegL_of_pointwise ?_ hnd1
              exact forall2_of_fn (f := chl (node a0 a1 a2 a3 a4 a5 a6 a7))
                (g := chl (node u0 u1 u2 u3 u4 u5 u6 u7))
                (R := fun a c => (a.isEmpty = false → c.isEmpty = false) ∧
                  (a.isNode = true → c.isNode = true)) hsim
            · intro i hi
              exact hvu i hi
          simpa [mkNode, chl] using hgoal

/-- `union` of trees with disjoint key sets is additive on entries. -/
theorem union_entriesM_disjoint {fuel : ℕ} {b : Box} {t1 t2 : OTree α} {s : Bool}
    {u : OTree α} (h : union fuel b t1 t2 s = .ok u)
    (hd : ∀ x, x ∈ keys t1 → x ∉ keys t2) :
    entriesM u = entriesM t1 + entriesM t2 := by
  induction fuel generalizing b t1 t2 s u with
  | zero => simp [union_zero] at h
  | succ fuel ih =>
    cases t1 with
    | empty =>
      rw [union_succ_empty] at h
      cases h
      simp [entriesM_empty]
    | singleton p d =>
      rw [union_succ_singleton] at h
      have hp : p ∉ keys t2 := hd p (by simp [keys, entries])
      rw [update_entriesM_new h hp, entriesM_singleton]
      abel
    | node a0 a1 a2 a3 a4 a5 a6 a7 =>
      cases t2 with
      | empty =>
        rw [union_succ_node_empty] at h
        cases h
        simp [entriesM_empty]
      | singleton q e =>
        rw [union_succ_node_singleton] at h
        have hq : q ∉ keys (node a0 a1 a2 a3 a4 a5 a6 a7) := by
          intro hc
          exact hd q hc (by simp [keys, entries])
        rw [update_entriesM_new h hq, entriesM_singleton]
      | node b0 b1 b2 b3 b4 b5 b6 b7 =>
        rw [union_succ_node_node] at h
        split at h
        · rw [ih h (fun x hx2 hx1 => hd x hx1 hx2)]
          abel
        · rw [Res.bind_eq_ok] at h
          obtain ⟨u0, hu0, h⟩ := h
          rw [Res.bind_eq_ok] at h
          obtain ⟨u1, hu1, h⟩ := h
          rw [Res.bind_eq_ok] at h
          obtain ⟨u2, hu2, h⟩ := h
          rw [Res.bind_eq_ok] at h
          obtain ⟨u3, hu3, h⟩ := h
          rw [Res.bind_eq_ok] at h
          obtain ⟨u4, hu4, h⟩ := h
          rw [Res.bind_eq_ok] at h
          obtain ⟨u5, hu5, h⟩ := h
          rw [Res.bind_eq_ok] at h
          obtain ⟨u6, hu6, h⟩ := h
          rw [Res.bind_eq_ok] at h
          obtain ⟨u7, hu7, h⟩ := h
          cases h
          have hd' : ∀ i, i < 8 → ∀ x, x ∈ keys (chl (node a0 a1 a2 a3 a4 a5 a6 a7) i) →
              x ∉ keys (chl (node b0 b1 b2 b3 b4 b5 b6 b7) i) := by
            intro i hi x hxa hxb
            exact hd x (mem_keys_node.mpr ⟨i, hi, hxa⟩) (mem_keys_node.mpr ⟨i, hi, hxb⟩)
          have e0 := ih hu0 (by simpa [chl] using hd' 0 (by omega))
          have e1 := ih hu1 (by simpa [chl] using hd' 1 (by omega))
          have e2 := ih hu2 (by simpa [chl] using hd' 2 (by omega))
          have e3 := ih hu3 (by simpa [chl] using hd' 3 (by omega))
          have e4 := ih hu4 (by simpa [chl] using hd' 4 (by omega))
          have e5 := ih hu5 (by simpa [chl] using hd' 5 (by omega))
          have e6 := ih hu6 (by simpa [chl] using hd' 6 (by omega))
          have e7 := ih hu7 (by simpa [chl] using hd' 7 (by omega))
          rw [entriesM_node, entriesM_node, entriesM_node, e0, e1, e2, e3, e4, e5, e6, e7]
          abel

end OTree

namespace OTree

variable {α : Type} [DecidableEq α]

/-- The eight octants partition the members of a box: filtering a
multiset of entries by membership in each octant and summing equals
filtering by membership in the box. -/
theorem filter_subboxes_partition {n : Box} (hwf : wfBox n = true)
    (M : Multiset (Point × α)) :
    Multiset.filter (fun y => point_in_box y.1 (subbox n 0) = true) M +
    Multiset.filter (fun y => point_in_box y.1 (subbox n 1) = true) M +
    Multiset.filter (fun y => point_in_box y.1 (subbox n 2) = true) M +
    Multiset.filter (fun y => point_in_box y.1 (subbox n 3) = true) M +
    Multiset.filter (fun y => point_in_box y.1 (subbox n 4) = true) M +
    Multiset.filter (fun y => point_in_box y.1 (subbox n 5) = true) M +
    Multiset.filter (fun y => point_in_box y.1 (subbox n 6) = true) M +
    Multiset.filter (fun y => point_in_box y.1 (subbox n 7) = true) M =
    Multiset.filter (fun y => point_in_box y.1 n = true) M := by
  ext y
  simp only [Multiset.count_add, Multiset.count_filter]
  by_cases hy : point_in_box y.1 n = true
  · have hmem := point_in_narrow hy
    rw [narrow_snd_eq] at hmem
    have h8 := narrow_fst_lt n y.1
    have hel : ∀ i, i < 8 →
        (point_in_box y.1 (subbox n i) = true ↔ i = (narrow n y.1).1) := by
      intro i hi
      constructor
      · intro hin
        exact (narrow_eq_of_subbox hi hin).symm
      · intro hieq
        rw [hieq]
        exact hmem
    rw [if_pos hy]
    simp only [hel 0 (by omega), hel 1 (by omega), hel 2 (by omega), hel 3 (by omega),
      hel 4 (by omega), hel 5 (by omega), hel 6 (by omega), hel 7 (by omega)]
    have hcases : (narrow n y.1).1 = 0 ∨ (narrow n y.1).1 = 1 ∨ (narrow n y.1).1 = 2 ∨
        (narrow n y.1).1 = 3 ∨ (narrow n y.1).1 = 4 ∨ (narrow n y.1).1 = 5 ∨
        (narrow n y.1).1 = 6 ∨ (narrow n y.1).1 = 7 := by omega
    rcases hcases with hn | hn | hn | hn | hn | hn | hn | hn <;> rw [hn] <;> simp
  · rw [if_neg hy]
    have hall : ∀ i, i < 8 → ¬(point_in_box y.1 (subbox n i) = true) := by
      intro i hi hin
      exact hy (point_in_box_of_subbox hi hwf hin)
    rw [if_neg (hall 0 (by omega)), if_neg (hall 1 (by omega)), if_neg (hall 2 (by omega)),
      if_neg (hall 3 (by omega)), if_neg (hall 4 (by omega)), if_neg (hall 5 (by omega)),
      if_neg (hall 6 (by omega)), if_neg (hall 7 (by omega))]
    try simp

/-- One step of the `rebound` union fold: uniting two valid partial
results with disjoint key locations accumulates the filtered entries. -/
theorem union_step {fuel : ℕ} {n : Box} {v w z : OTree α}
    {M N : Multiset (Point × α)} {Q R : Point → Prop}
    (hwn : wfBox n = true) (hvv : validB n v = true) (hvs : validB n w = true)
    (hcv : entriesM v = Multiset.filter (fun y => point_in_box y.1 n = true) M)
    (hcs : entriesM w = Multiset.filter (fun y => point_in_box y.1 n = true) N)
    (hlv : ∀ x, x ∈ keys v → Q x) (hls : ∀ x, x ∈ keys w → R x)
    (hdisj : ∀ x, Q x → R x → False)
    (hu : union fuel n v w false = .ok z) :
    validB n z = true ∧
    entriesM z = Multiset.filter (fun y => point_in_box y.1 n = true) (M + N) ∧
    (∀ x, x ∈ keys z → Q x ∨ R x) := by
  refine ⟨union_valid hwn hvv hvs hu, ?_, ?_⟩
  · rw [union_entriesM_disjoint hu (fun x hxv hxs => hdisj x (hlv x hxv) (hls x hxs)),
      hcv, hcs, Multiset.filter_add]
  · intro x hx
    exact Or.imp (hlv x) (hls x) ((union_keys_mem hu x).mp hx)

end OTree

namespace OTree

variable {α : Type} [DecidableEq α]

/-- `rebound` produces a tree valid for the new bounds holding exactly
the stored entries whose coordinates lie in the new bounds. -/
theorem rebound_ok {fuel : ℕ} {o n : Box} {t u : OTree α}
    (hwo : wfBox o = true) (hwn : wfBox n = true) (hv : validB o t = true)
    (h : rebound fuel o n t = .ok u) :
    validB n u = true ∧
    entriesM u = Multiset.filter (fun y => point_in_box y.1 n = true) (entriesM t) := by
  induction fuel generalizing o n t u with
  | zero => simp [rebound_zero] at h
  | succ fuel ih =>
    cases t with
    | empty =>
      rw [rebound_succ_empty] at h
      cases h
      exact ⟨rfl, by simp [entriesM_empty]⟩
    | singleton p d =>
      rw [rebound_succ_singleton] at h
      cases h
      split_ifs with hp
      · refine ⟨by simpa [validB] using hp, ?_⟩
        rw [entriesM_singleton, Multiset.filter_singleton, if_pos hp]
      · refine ⟨rfl, ?_⟩
        rw [entriesM_empty, entriesM_singleton, Multiset.filter_singleton, if_neg hp]
        rfl
    | node c0 c1 c2 c3 c4 c5 c6 c7 =>
      rw [rebound_succ_node] at h
      split at h
      · rename_i hcont
        rw [Res.bind_eq_ok] at h
        obtain ⟨r0, hr0, h⟩ := h
        rw [Res.bind_eq_ok] at h
        obtain ⟨r1, hr1, h⟩ := h
        rw [Res.bind_eq_ok] at h
        obtain ⟨r2, hr2, h⟩ := h
        rw [Res.bind_eq_ok] at h
        obtain ⟨r3, hr3, h⟩ := h
        rw [Res.bind_eq_ok] at h
        obtain ⟨r4, hr4, h⟩ := h
        rw [Res.bind_eq_ok] at h
        obtain ⟨r5, hr5, h⟩ := h
        rw [Res.bind_eq_ok] at h
        obtain ⟨r6, hr6, h⟩ := h
        rw [Res.bind_eq_ok] at h
        obtain ⟨r7, hr7, h⟩ := h
        cases h
        have R0 := ih hwo (wfBox_subbox (by omega) hwn) hv hr0
        have R1 := ih hwo (wfBox_subbox (by omega) hwn) hv hr1
        have R2 := ih hwo (wfBox_subbox (by omega) hwn) hv hr2
        have R3 := ih hwo (wfBox_subbox (by omega) hwn) hv hr3
        have R4 := ih hwo (wfBox_subbox (by omega) hwn) hv hr4
        have R5 := ih hwo (wfBox_subbox (by omega) hwn) hv hr5
        have R6 := ih hwo (wfBox_subbox (by omega) hwn) hv hr6
        have R7 := ih hwo (wfBox_subbox (by omega) hwn) hv hr7
        have hcontent : entriesM (node r0 r1 r2 r3 r4 r5 r6 r7) =
            Multiset.filter (fun y => point_in_box y.1 n = true)
              (entriesM (node c0 c1 c2 c3 c4 c5 c6 c7)) := by
          rw [entriesM_node, R0.2, R1.2, R2.2, R3.2, R4.2, R5.2, R6.2, R7.2,
            filter_subboxes_partition hwn]
        have hall : ∀ y ∈ entriesM (node c0 c1 c2 c3 c4 c5 c6 c7),
            point_in_box y.1 n = true := by
          intro y hy
          refine point_in_box_mono hcont (keys_in_box hwo hv ?_)
          exact mem_keys_iff.mpr ⟨y.2, by simpa using mem_entriesM.mp hy⟩
        refine ⟨?_, hcontent⟩
        rw [validB_node_iff]
        constructor
        · refine nondegL_of_card ?_
          have hcard : ((entries (node r0 r1 r2 r3 r4 r5 r6 r7)).length : ℕ) =
              Multiset.card (entriesM (node r0 r1 r2 r3 r4 r5 r6 r7)) := by
            simp [entriesM]
          rw [hcard, hcontent, Multiset.filter_eq_self.mpr hall]
          have := two_le_length_entries_node hv (by rfl)
          simpa [entriesM] using this
        · exact ⟨R0.1, R1.1, R2.1, R3.1, R4.1, R5.1, R6.1, R7.1⟩
      · split at h
        · rename_i hncont hdisj
          cases h
          refine ⟨rfl, ?_⟩
          rw [entriesM_empty]
          refine (Multiset.filter_eq_nil.mpr ?_).symm
          intro y hy hyn
          refine boxes_disjoint_no_common hdisj
            (keys_in_box hwo hv (mem_keys_iff.mpr ⟨y.2, ?_⟩)) hyn
          simpa using mem_entriesM.mp hy
        · rename_i hncont hndisj
          rw [Res.bind_eq_ok] at h
          obtain ⟨s0, hs0, h⟩ := h
          rw [Res.bind_eq_ok] at h
          obtain ⟨s1, hs1, h⟩ := h
          rw [Res.bind_eq_ok] at h
          obtain ⟨s2, hs2, h⟩ := h
          rw [Res.bind_eq_ok] at h
          obtain ⟨s3, hs3, h⟩ := h
          rw [Res.bind_eq_ok] at h
          obtain ⟨s4, hs4, h⟩ := h
          rw [Res.bind_eq_ok] at h
          obtain ⟨s5, hs5, h⟩ := h
          rw [Res.bind_eq_ok] at h
          obtain ⟨s6, hs6, h⟩ := h
          rw [Res.bind_eq_ok] at h
          obtain ⟨s7, hs7, h⟩ := h
          rw [Res.bind_eq_ok] at h
          obtain ⟨w1, hw1, h⟩ := h
          rw [Res.bind_eq_ok] at h
          obtain ⟨w2, hw2, h⟩ := h
          rw [Res.bind_eq_ok] at h
          obtain ⟨w3, hw3, h⟩ := h
          rw [Res.bind_eq_ok] at h
          obtain ⟨w4, hw4, h⟩ := h
          rw [Res.bind_eq_ok] at h
          obtain ⟨w5, hw5, h⟩ := h
          rw [Res.bind_eq_ok] at h
          obtain ⟨w6, hw6, h⟩ := h
          rw [Res.bind_eq_ok] at h
          obtain ⟨w7, hw7, h⟩ := h
          cases h
          have hchild : ∀ i, i < 8 →
              validB (subbox o i) (chl (node c0 c1 c2 c3 c4 c5 c6 c7) i) = true := by
            rw [validB_node_iff] at hv
            obtain ⟨hnd, h0, h1, h2, h3, h4, h5, h6, h7⟩ := hv
            intro i hi
            interval_cases i <;> simpa [chl]
          have S0 := ih (wfBox_subbox (by omega) hwo) hwn
            (by simpa [chl] using hchild 0 (by omega)) hs0
          have S1 := ih (wfBox_subbox (by omega) hwo) hwn
            (by simpa [chl] using hchild 1 (by omega)) hs1
          have S2 := ih (wfBox_subbox (by omega) hwo) hwn
            (by simpa [chl] using hchild 2 (by omega)) hs2
          have S3 := ih (wfBox_subbox (by omega) hwo) hwn
            (by simpa [chl] using hchild 3 (by omega)) hs3
          have S4 := ih (wfBox_subbox (by omega) hwo) hwn
            (by simpa [chl] using hchild 4 (by omega)) hs4
          have S5 := ih (wfBox_subbox (by omega) hwo) hwn
            (by simpa [chl] using hchild 5 (by omega)) hs5
          have S6 := ih (wfBox_subbox (by omega) hwo) hwn
            (by simpa [chl] using hchild 6 (by omega)) hs6
          have S7 := ih (wfBox_subbox (by omega) hwo) hwn
            (by simpa [chl] using hchild 7 (by omega)) hs7
          have hloc : ∀ i, i < 8 → ∀ (v' : OTree α),
              entriesM v' = Multiset.filter (fun y => point_in_box y.1 n = true)
                (entriesM (chl (node c0 c1 c2 c3 c4 c5 c6 c7) i)) →
              ∀ x, x ∈ keys v' → point_in_box x (subbox o i) = true := by
            intro i hi v' hcv x hx
            obtain ⟨e, he⟩ := mem_keys_iff.mp hx
            have hmem : (x, e) ∈ entriesM v' := mem_entriesM.mpr he
            rw [hcv] at hmem
            have := Multiset.mem_filter.mp hmem
            refine keys_in_box (wfBox_subbox hi hwo) (hchild i hi)
              (mem_keys_iff.mpr ⟨e, mem_entriesM.mp this.1⟩)
          have hl0 := hloc 0 (by omega) s0 (by simpa [chl] using S0.2)
          have hl1 := hloc 1 (by omega) s1 (by simpa [chl] using S1.2)
          have hl2 := hloc 2 (by omega) s2 (by simpa [chl] using S2.2)
          have hl3 := hloc 3 (by omega) s3 (by simpa [chl] using S3.2)
          have hl4 := hloc 4 (by omega) s4 (by simpa [chl] using S4.2)
          have hl5 := hloc 5 (by omega) s5 (by simpa [chl] using S5.2)
          have hl6 := hloc 6 (by omega) s6 (by simpa [chl] using S6.2)
          have hl7 := hloc 7 (by omega) s7 (by simpa [chl] using S7.2)
          have W1 := union_step (Q := fun x => point_in_box x (subbox o 0) = true)
            (R := fun x => point_in_box x (subbox o 1) = true)
            hwn S0.1 S1.1 S0.2 S1.2 hl0 hl1
            (fun x q r => subbox_mem_unique (by omega) (by omega) (by omega) q r) hw1
          have W2 := union_step (R := fun x => point_in_box x (subbox o 2) = true)
            hwn W1.1 S2.1 W1.2.1 S2.2 W1.2.2 hl2
            (fun x q r => by
              rcases q with q | q
              · exact subbox_mem_unique (i := 0) (by omega) (by omega) (by omega) q r
              · exact subbox_mem_unique (i := 1) (by omega) (by omega) (by omega) q r) hw2
          have W3 := union_step (R := fun x => point_in_box x (subbox o 3) = true)
            hwn W2.1 S3.1 W2.2.1 S3.2 W2.2.2 hl3
            (fun x q r => by
              rcases q with (q | q) | q
              · exact subbox_mem_unique (i := 0) (by omega) (by omega) (by omega) q r
              · exact subbox_mem_unique (i := 1) (by omega) (by omega) (by omega) q r
              · exact subbox_mem_unique (i := 2) (by omega) (by omega) (by omega) q r) hw3
          have W4 := union_step (R := fun x => point_in_box x (subbox o 4) = true)
            hwn W3.1 S4.1 W3.2.1 S4.2 W3.2.2 hl4
            (fun x q r => by
              rcases q with ((q | q) | q) | q
              · exact subbox_mem_unique (i := 0) (by omega) (by omega) (by omega) q r
              · exact subbox_mem_unique (i := 1) (by omega) (by omega) (by omega) q r
              · exact subbox_mem_unique (i := 2) (by omega) (by omega) (by omega) q r
              · exact subbox_mem_unique (i := 3) (by omega) (by omega) (by omega) q r) hw4
          have W5 := union_step (R := fun x => point_in_box x (subbox o 5) = true)
            hwn W4.1 S5.1 W4.2.1 S5.2 W4.2.2 hl5
            (fun x q r => by
              rcases q with (((q | q) | q) | q) | q
              · exact subbox_mem_unique (i := 0) (by omega) (by omega) (by omega) q r
              · exact subbox_mem_unique (i := 1) (by omega) (by omega) (by omega) q r
              · exact subbox_mem_unique (i := 2) (by omega) (by omega) (by omega) q r
              · exact subbox_mem_unique (i := 3) (by omega) (by omega) (by omega) q r
              · exact subbox_mem_unique (i := 4) (by omega) (by omega) (by omega) q r) hw5
          have W6 := union_step (R := fun x => point_in_box x (subbox o 6) = true)
            hwn W5.1 S6.1 W5.2.1 S6.2 W5.2.2 hl6
            (fun x q r => by
              rcases q with ((((q | q) | q) | q) | q) | q
              · exact subbox_mem_unique (i := 0) (by omega) (by omega) (by omega) q r
              · exact subbox_mem_unique (i := 1) (by omega) (by omega) (by omega) q r
              · exact subbox_mem_unique (i := 2) (by omega) (by omega) (by omega) q r
              · exact subbox_mem_unique (i := 3) (by omega) (by omega) (by omega) q r
              · exact subbox_mem_unique (i := 4) (by omega) (by omega) (by omega) q r
              · exact subbox_mem_unique (i := 5) (by omega) (by omega) (by omega) q r) hw6
          have W7 := union_step (R := fun x => point_in_box x (subbox o 7) = true)
            hwn W6.1 S7.1 W6.2.1 S7.2 W6.2.2 hl7
            (fun x q r => by
              rcases q with (((((q | q) | q) | q) | q) | q) | q
              · exact subbox_mem_unique (i := 0) (by omega) (by omega) (by omega) q r
              · exact subbox_mem_unique (i := 1) (by omega) (by omega) (by omega) q r
              · exact subbox_mem_unique (i := 2) (by omega) (by omega) (by omega) q r
              · exact subbox_mem_unique (i := 3) (by omega) (by omega) (by omega) q r
              · exact subbox_mem_unique (i := 4) (by omega) (by omega) (by omega) q r
              · exact subbox_mem_unique (i := 5) (by omega) (by omega) (by omega) q r
              · exact subbox_mem_unique (i := 6) (by omega) (by omega) (by omega) q r) hw7
          refine ⟨W7.1, ?_⟩
          rw [W7.2.1, entriesM_node]

end OTree

namespace OTree

variable {α : Type}

/-- Modelled from the spec: the `rebound` algorithm as the specification
describes it.  It differs from the code only in the node dispatch: the
spec's first branch fires "if newbounds is contained in oldbounds"
(`box_contains newb oldb`), whereas the code tests
`box_contains(oldbounds, newbounds)`, i.e. all of the old bounds inside
the new. -/
def reboundSpec [DecidableEq α] (fuel : ℕ) (oldb newb : Box) (t : OTree α) : Res α :=
  match fuel with
  | 0 => .noFuel
  | fuel + 1 =>
    match t with
    | empty => .ok empty
    | singleton p d => .ok (if point_in_box p newb then singleton p d else empty)
    | node c0 c1 c2 c3 c4 c5 c6 c7 =>
      let t' := node c0 c1 c2 c3 c4 c5 c6 c7
      if box_contains newb oldb then
        (reboundSpec fuel oldb (subbox newb 0) t').bind fun r0 =>
        (reboundSpec fuel oldb (subbox newb 1) t').bind fun r1 =>
        (reboundSpec fuel oldb (subbox newb 2) t').bind fun r2 =>
        (reboundSpec fuel oldb (subbox newb 3) t').bind fun r3 =>
        (reboundSpec fuel oldb (subbox newb 4) t').bind fun r4 =>
        (reboundSpec fuel oldb (subbox newb 5) t').bind fun r5 =>
        (reboundSpec fuel oldb (subbox newb 6) t').bind fun r6 =>
        (reboundSpec fuel oldb (subbox newb 7) t').bind fun r7 =>
        .ok (node r0 r1 r2 r3 r4 r5 r6 r7)
      else if boxes_disjoint oldb newb then .ok empty
      else
        (reboundSpec fuel (subbox oldb 0) newb c0).bind fun s0 =>
        (reboundSpec fuel (subbox oldb 1) newb c1).bind fun s1 =>
        (reboundSpec fuel (subbox oldb 2) newb c2).bind fun s2 =>
        (reboundSpec fuel (subbox oldb 3) newb c3).bind fun s3 =>
        (reboundSpec fuel (subbox oldb 4) newb c4).bind fun s4 =>
        (reboundSpec fuel (subbox oldb 5) newb c5).bind fun s5 =>
        (reboundSpec fuel (subbox oldb 6) newb c6).bind fun s6 =>
        (reboundSpec fuel (subbox oldb 7) newb c7).bind fun s7 =>
        (union fuel newb s0 s1 false).bind fun v1 =>
        (union fuel newb v1 s2 false).bind fun v2 =>
        (union fuel newb v2 s3 false).bind fun v3 =>
        (union fuel newb v3 s4 false).bind fun v4 =>
        (union fuel newb v4 s5 false).bind fun v5 =>
        (union fuel newb v5 s6 false).bind fun v6 =>
        (union fuel newb v6 s7 false).bind fun v7 =>
        .ok v7

/-- Old bounds for the `rebound` dispatch example. -/
def c3oBox : Box := ((0, 4), (0, 4), (0, 4))

/-- New bounds for the `rebound` dispatch example: contained in the old. -/
def c3nBox : Box := ((0, 2), (0, 2), (0, 2))

/-- A two-point tree valid for `c3oBox`. -/
def c3tTree : OTree ℕ :=
  node (singleton (1, 1, 1) 0) empty empty empty empty empty empty
    (singleton (3, 3, 3) 1)

end OTree

/-- C3: the claimed node dispatch of `rebound` has the containment test
backwards.  Here the new bounds are contained in the old (the claimed
first-branch condition), the boxes are not disjoint, and the code's own
test `box_contains oldbounds newbounds` is false; the code resolves the
tree within the fuel budget while the claimed algorithm, which subdivides
the new bounds and recurses against the whole tree with unchanged old
bounds, exhausts the same budget. -/
theorem c3_rebound_counterexample :
    box_contains OTree.c3oBox OTree.c3nBox = false ∧
    box_contains OTree.c3nBox OTree.c3oBox = true ∧
    boxes_disjoint OTree.c3oBox OTree.c3nBox = false ∧
    wfBox OTree.c3oBox = true ∧ wfBox OTree.c3nBox = true ∧
    OTree.validB OTree.c3oBox OTree.c3tTree = true ∧
    OTree.reboundSpec 6 OTree.c3oBox OTree.c3nBox OTree.c3tTree = Res.noFuel ∧
    OTree.rebound 6 OTree.c3oBox OTree.c3nBox OTree.c3tTree ≠ Res.noFuel := by
  refine ⟨?_, ?_, ?_, ?_, ?_, ?_, ?_, ?_⟩ <;> with_unfolding_all decide

/-- C3 (amended): `rebound(oldbounds, newbounds)` on a tree valid for the
old bounds returns a tree valid for `newbounds` containing exactly the
stored points lying in `newbounds`; on a node it proceeds by: if
*oldbounds is contained in newbounds*, recurse into each newbounds
sub-octant against the whole old tree; if oldbounds and newbounds are
disjoint, return `empty`; otherwise recurse each old child against
newbounds and fold the results with `union`. -/
theorem c3_rebound {α : Type} [DecidableEq α] :
    (∀ (fuel : ℕ) (o n : Box) (t u : OTree α),
      wfBox o = true → wfBox n = true → OTree.validB o t = true →
      OTree.rebound fuel o n t = Res.ok u →
      OTree.validB n u = true ∧
      OTree.entriesM u =
        Multiset.filter (fun y => point_in_box y.1 n = true) (OTree.entriesM t)) ∧
    (∀ (fuel : ℕ) (o n : Box) (c0 c1 c2 c3 c4 c5 c6 c7 : OTree α),
      OTree.rebound (fuel + 1) o n (OTree.node c0 c1 c2 c3 c4 c5 c6 c7) =
        if box_contains o n then
          (OTree.rebound fuel o (subbox n 0) (OTree.node c0 c1 c2 c3 c4 c5 c6 c7)).bind fun r0 =>
          (OTree.rebound fuel o (subbox n 1) (OTree.node c0 c1 c2 c3 c4 c5 c6 c7)).bind fun r1 =>
          (OTree.rebound fuel o (subbox n 2) (OTree.node c0 c1 c2 c3 c4 c5 c6 c7)).bind fun r2 =>
          (OTree.rebound fuel o (subbox n 3) (OTree.node c0 c1 c2 c3 c4 c5 c6 c7)).bind fun r3 =>
          (OTree.rebound fuel o (subbox n 4) (OTree.node c0 c1 c2 c3 c4 c5 c6 c7)).bind fun r4 =>
          (OTree.rebound fuel o (subbox n 5) (OTree.node c0 c1 c2 c3 c4 c5 c6 c7)).bind fun r5 =>
          (OTree.rebound fuel o (subbox n 6) (OTree.node c0 c1 c2 c3 c4 c5 c6 c7)).bind fun r6 =>
          (OTree.rebound fuel o (subbox n 7) (OTree.node c0 c1 c2 c3 c4 c5 c6 c7)).bind fun r7 =>
          .ok (OTree.node r0 r1 r2 r3 r4 r5 r6 r7)
        else if boxes_disjoint o n then .ok .empty
        else
          (OTree.rebound fuel (subbox o 0) n c0).bind fun s0 =>
          (OTree.rebound fuel (subbox o 1) n c1).bind fun s1 =>
          (OTree.rebound fuel (subbox o 2) n c2).bind fun s2 =>
          (OTree.rebound fuel (subbox o 3) n c3).bind fun s3 =>
          (OTree.rebound fuel (subbox o 4) n c4).bind fun s4 =>
          (OTree.rebound fuel (subbox o 5) n c5).bind fun s5 =>
          (OTree.rebound fuel (subbox o 6) n c6).bind fun s6 =>
          (OTree.rebound fuel (subbox o 7) n c7).bind fun s7 =>
          (OTree.union fuel n s0 s1 false).bind fun v1 =>
          (OTree.union fuel n v1 s2 false).bind fun v2 =>
          (OTree.union fuel n v2 s3 false).bind fun v3 =>
          (OTree.union fuel n v3 s4 false).bind fun v4 =>
          (OTree.union fuel n v4 s5 false).bind fun v5 =>
          (OTree.union fuel n v5 s6 false).bind fun v6 =>
          (OTree.union fuel n v6 s7 false).bind fun v7 =>
          .ok v7) :=
  ⟨fun _ _ _ _ _ hwo hwn hv h => OTree.rebound_ok hwo hwn hv h,
   fun _ _ _ _ _ _ _ _ _ _ _ => OTree.rebound_succ_node⟩

theorem c3_rebound_witness :
    OTree.validB OTree.c3nBox (OTree.singleton (1, 1, 1) (0 : ℕ)) = true ∧
    OTree.entriesM (OTree.singleton (1, 1, 1) (0 : ℕ)) =
      Multiset.filter (fun y => point_in_box y.1 OTree.c3nBox = true)
        (OTree.entriesM OTree.c3tTree) :=
  c3_rebound.1 6 OTree.c3oBox OTree.c3nBox OTree.c3tTree
    (OTree.singleton (1, 1, 1) 0)
    (by with_unfolding_all decide) (by with_unfolding_all decide)
    (by with_unfolding_all decide) (by with_unfolding_all decide)

namespace OTree

variable {α : Type} [DecidableEq α]

/-- A `by_score` heap entry.  Python pushes tuples `(score, False, coords,
data)` for points and `(score, True, bounds, node)` for nodes; the second
component is the tag distinguishing the two shapes. -/
inductive Entry (α : Type) where
  | pt (s : Coord) (c : Point) (d : α)
  | bx (s : Coord) (b : Box) (t : OTree α)
deriving DecidableEq

/-- First component of a heap tuple. -/
def Entry.score : Entry α → Coord
  | .pt s _ _ => s
  | .bx s _ _ => s

/-- Second component of a heap tuple (`False` for points, `True` for
nodes). -/
def Entry.isnode : Entry α → Bool
  | .pt _ _ _ => false
  | .bx _ _ _ => true

/-- The lexicographic comparison of heap tuples on their `(score, isnode)`
prefix (`False < True` in Python).  Ties beyond this prefix are broken by
the later tuple components and the heap layout; the results proved below
are independent of that, and the model resolves them first-in-list. -/
def keyLe (e f : Entry α) : Bool :=
  decide (e.score < f.score) ||
    (decide (e.score = f.score) && (!e.isnode || f.isnode))

/-- `heapq.heappop`: extract a minimal entry, returning it and the rest of
the heap. -/
def popMin : List (Entry α) → Option (Entry α × List (Entry α))
  | [] => none
  | e :: es =>
    match popMin es with
    | none => some (e, [])
    | some (m, rest) => if keyLe e m then some (e, es) else some (m, e :: rest)

/-- `Tree.enqueue`: `Empty` pushes nothing; `Singleton` pushes its point
tuple when `pointscore` is not `None`; `Node` pushes its box tuple when
`boxscore` is not `None`. -/
def enqueue (ps : Point → Option Coord) (bs : Box → Option Coord)
    (heap : List (Entry α)) (b : Box) : OTree α → List (Entry α)
  | .empty => heap
  | .singleton c d =>
    match ps c with
    | none => heap
    | some s => heap ++ [.pt s c d]
  | .node c0 c1 c2 c3 c4 c5 c6 c7 =>
    match bs b with
    | none => heap
    | some s => heap ++ [.bx s b (.node c0 c1 c2 c3 c4 c5 c6 c7)]

/-- Structural size of a tree, used as fuel for the search loop. -/
def tsize : OTree α → ℕ
  | .empty => 1
  | .singleton _ _ => 2
  | .node c0 c1 c2 c3 c4 c5 c6 c7 =>
    1 + tsize c0 + tsize c1 + tsize c2 + tsize c3 + tsize c4 + tsize c5 +
      tsize c6 + tsize c7

/-- Fuel consumed by an entry: a point is popped once; a node entry can
spawn at most the size of its tree. -/
def Entry.weight : Entry α → ℕ
  | .pt _ _ _ => 1
  | .bx _ _ t => tsize t

/-- Total fuel requirement of a heap. -/
def heapWeight (h : List (Entry α)) : ℕ :=
  (((h : Multiset (Entry α)).map Entry.weight)).sum

/-- The stored pairs an entry can still yield: a point entry yields its
own pair, a node entry everything stored in its tree. -/
def Entry.contentM : Entry α → Multiset (Point × α)
  | .pt _ c d => {(c, d)}
  | .bx _ _ t => entriesM t

/-- All pairs the heap can still yield. -/
def heapContentM (h : List (Entry α)) : Multiset (Point × α) :=
  (((h : Multiset (Entry α)).map Entry.contentM)).sum

/-- The `while` loop of `Octree.by_score`: pop a minimal entry; a point
entry is yielded, a node entry enqueues its children against their
sub-octant boxes.  Fuel-indexed; `none` means the fuel ran out. -/
def byScoreLoop (ps : Point → Option Coord) (bs : Box → Option Coord) :
    ℕ → List (Entry α) → Option (List (Coord × Point × α))
  | 0, heap =>
    match popMin heap with
    | none => some []
    | some _ => none
  | fuel + 1, heap =>
    match popMin heap with
    | none => some []
    | some (.pt s c d, rest) =>
      (byScoreLoop ps bs fuel rest).map fun out => (s, c, d) :: out
    | some (.bx _ b (.node c0 c1 c2 c3 c4 c5 c6 c7), rest) =>
      byScoreLoop ps bs fuel
        (enqueue ps bs (enqueue ps bs (enqueue ps bs (enqueue ps bs
          (enqueue ps bs (enqueue ps bs (enqueue ps bs (enqueue ps bs rest
            (subbox b 0) c0) (subbox b 1) c1) (subbox b 2) c2) (subbox b 3) c3)
            (subbox b 4) c4) (subbox b 5) c5) (subbox b 6) c6) (subbox b 7) c7)
    | some (.bx _ _ _, rest) => byScoreLoop ps bs fuel rest

end OTree

/-- `Octree.by_score` on the facade: start from an empty heap, enqueue the
root tree against the bounds, and run the loop, with fuel sufficient for
the initial heap. -/
def Octree.byScoreF {α : Type} [DecidableEq α] (o : Octree α)
    (ps : Point → Option Coord) (bs : Box → Option Coord) :
    Option (List (Coord × Point × α)) :=
  let h0 := OTree.enqueue ps bs [] o.bounds o.tree
  OTree.byScoreLoop ps bs (OTree.heapWeight h0) h0

/-- `Octree.by_distance_from_point p`: `by_score` with the Euclidean
scorers.  The model scores with squared distances, which order points and
boxes identically to the code's square-rooted ones. -/
def Octree.byDistanceFromPoint {α : Type} [DecidableEq α] (o : Octree α)
    (p : Point) : Option (List (Coord × Point × α)) :=
  o.byScoreF (fun q => some (euclidean_point_point_sq p q))
    (fun b => some (euclidean_point_box_sq p b))

namespace OTree

variable {α : Type} [DecidableEq α]

theorem keyLe_refl (e : Entry α) : keyLe e e = true := by
  simp [keyLe]

theorem keyLe_total (e f : Entry α) : keyLe e f = true ∨ keyLe f e = true := by
  simp only [keyLe, Bool.or_eq_true, Bool.and_eq_true, decide_eq_true_eq]
  rcases lt_trichotomy e.score f.score with h | h | h
  · exact Or.inl (Or.inl h)
  · cases hb : e.isnode <;> cases hc : f.isnode <;> simp [h, hb, hc]
  · exact Or.inr (Or.inl h)

theorem keyLe_trans {e f g : Entry α} (h1 : keyLe e f = true)
    (h2 : keyLe f g = true) : keyLe e g = true := by
  simp only [keyLe, Bool.or_eq_true, Bool.and_eq_true, decide_eq_true_eq] at h1 h2 ⊢
  rcases h1 with h1 | ⟨h1, h1'⟩ <;> rcases h2 with h2 | ⟨h2, h2'⟩
  · exact Or.inl (h1.trans h2)
  · exact Or.inl (h2 ▸ h1)
  · exact Or.inl (h1 ▸ h2)
  · refine Or.inr ⟨h1.trans h2, ?_⟩
    cases hbe : Entry.isnode e with
    | false => simp
    | true =>
      rw [hbe] at h1'
      simp only [Bool.not_true] at h1'
      rcases h1' with h1' | h1'
      · simp at h1'
      · rw [h1'] at h2'
        simp only [Bool.not_true] at h2'
        rcases h2' with h2' | h2'
        · simp at h2'
        · simp [h2']

theorem keyLe_score {e f : Entry α} (h : keyLe e f = true) : e.score ≤ f.score := by
  simp only [keyLe, Bool.or_eq_true, Bool.and_eq_true, decide_eq_true_eq] at h
  rcases h with h | ⟨h, _⟩
  · exact le_of_lt h
  · exact le_of_eq h

theorem popMin_eq_none {h : List (Entry α)} : popMin h = none ↔ h = [] := by
  cases h with
  | nil => simp [popMin]
  | cons e es =>
    cases hm : popMin es with
    | none => simp [popMin, hm]
    | some pr =>
      obtain ⟨m, rest⟩ := pr
      simp only [popMin, hm]
      split <;> simp

/-- Popping returns a permutation: the heap is the popped entry plus the
rest. -/
theorem popMin_perm {h rest : List (Entry α)} {e : Entry α}
    (hp : popMin h = some (e, rest)) :
    (h : Multiset (Entry α)) = e ::ₘ (rest : Multiset (Entry α)) := by
  induction h generalizing e rest with
  | nil => simp [popMin] at hp
  | cons f fs ih =>
    cases hm : popMin fs with
    | none =>
      have hfs : fs = [] := popMin_eq_none.mp hm
      subst hfs
      simp only [popMin, Option.some.injEq, Prod.mk.injEq] at hp
      obtain ⟨rfl, rfl⟩ := hp
      simp
    | some pr =>
      obtain ⟨m, r⟩ := pr
      simp only [popMin, hm] at hp
      split at hp
      · simp only [Option.some.injEq, Prod.mk.injEq] at hp
        obtain ⟨rfl, rfl⟩ := hp
        simp [Multiset.cons_coe]
      · simp only [Option.some.injEq, Prod.mk.injEq] at hp
        obtain ⟨rfl, rfl⟩ := hp
        have hfs := ih hm
        rw [← Multiset.cons_coe, hfs, Multiset.cons_swap, Multiset.cons_coe]

/-- The popped entry is minimal for the tuple comparison. -/
theorem popMin_min {h rest : List (Entry α)} {e : Entry α}
    (hp : popMin h = some (e, rest)) :
    ∀ x ∈ h, keyLe e x = true := by
  induction h generalizing e rest with
  | nil => simp [popMin] at hp
  | cons f fs ih =>
    cases hm : popMin fs with
    | none =>
      have hfs : fs = [] := popMin_eq_none.mp hm
      subst hfs
      simp only [popMin, Option.some.injEq, Prod.mk.injEq] at hp
      obtain ⟨rfl, rfl⟩ := hp
      intro x hx
      simp only [List.mem_singleton] at hx
      subst hx
      exact keyLe_refl _
    | some pr =>
      obtain ⟨m, r⟩ := pr
      simp only [popMin, hm] at hp
      split at hp
      · rename_i hle
        simp only [Option.some.injEq, Prod.mk.injEq] at hp
        rw [← hp.1]
        intro x hx
        rcases List.mem_cons.mp hx with rfl | hx
        · exact keyLe_refl _
        · exact keyLe_trans hle (ih hm x hx)
      · rename_i hle
        simp only [Option.some.injEq, Prod.mk.injEq] at hp
        rw [← hp.1]
        intro x hx
        rcases List.mem_cons.mp hx with rfl | hx
        · rcases keyLe_total x m with hx' | hx'
          · exact absurd hx' hle
          · exact hx'
        · exact ih hm x hx

theorem tsize_pos (t : OTree α) : 1 ≤ tsize t := by
  cases t <;> simp [tsize] <;> omega

theorem weight_pos (e : Entry α) : 1 ≤ e.weight := by
  cases e with
  | pt s c d => simp [Entry.weight]
  | bx s b t => exact tsize_pos t

theorem heapWeight_cons {e : Entry α} {h : List (Entry α)} :
    heapWeight (e :: h) = e.weight + heapWeight h := by
  simp [heapWeight, Multiset.cons_coe]

theorem heapWeight_of_perm {h rest : List (Entry α)} {e : Entry α}
    (hp : (h : Multiset (Entry α)) = e ::ₘ (rest : Multiset (Entry α))) :
    heapWeight h = e.weight + heapWeight rest := by
  simp [heapWeight, hp]

theorem heapContentM_cons {e : Entry α} {h : List (Entry α)} :
    heapContentM (e :: h) = e.contentM + heapContentM h := by
  simp [heapContentM, Multiset.cons_coe]

theorem heapContentM_of_perm {h rest : List (Entry α)} {e : Entry α}
    (hp : (h : Multiset (Entry α)) = e ::ₘ (rest : Multiset (Entry α))) :
    heapContentM h = e.contentM + heapContentM rest := by
  simp [heapContentM, hp]

theorem heapWeight_enqueue_le {ps : Point → Option Coord}
    {bs : Box → Option Coord} {h : List (Entry α)} {b : Box} {t : OTree α} :
    heapWeight (enqueue ps bs h b t) ≤ heapWeight h + tsize t := by
  cases t with
  | empty => simp [enqueue, tsize]
  | singleton c d =>
    cases hs : ps c <;>
      simp [enqueue, hs, heapWeight, tsize, Entry.weight]
  | node c0 c1 c2 c3 c4 c5 c6 c7 =>
    cases hs : bs b <;>
      simp [enqueue, hs, heapWeight, tsize, Entry.weight] <;> omega

/-- Membership in an enqueue result: either already present, or the
specific new entry pushed for the tree's shape. -/
theorem mem_enqueue {ps : Point → Option Coord} {bs : Box → Option Coord}
    {h : List (Entry α)} {b : Box} {t : OTree α} {x : Entry α}
    (hx : x ∈ enqueue ps bs h b t) :
    x ∈ h ∨
    (∃ c d s, t = .singleton c d ∧ ps c = some s ∧ x = .pt s c d) ∨
    (∃ s, t.isNode = true ∧ bs b = some s ∧ x = .bx s b t) := by
  cases t with
  | empty => exact Or.inl hx
  | singleton c d =>
    cases hs : ps c <;> rw [enqueue, hs] at hx
    · exact Or.inl hx
    · rcases List.mem_append.mp hx with hx | hx
      · exact Or.inl hx
      · simp only [List.mem_singleton] at hx
        exact Or.inr (Or.inl ⟨c, d, _, rfl, hs, hx⟩)
  | node c0 c1 c2 c3 c4 c5 c6 c7 =>
    cases hs : bs b with
    | none =>
      rw [enqueue, hs] at hx
      exact Or.inl hx
    | some s =>
      rw [enqueue, hs] at hx
      rcases List.mem_append.mp hx with hx | hx
      · exact Or.inl hx
      · simp only [List.mem_singleton] at hx
        exact Or.inr (Or.inr ⟨s, rfl, rfl, hx⟩)

end OTree

namespace OTree

variable {α : Type} [DecidableEq α]

/-- The point scorer of `by_distance_from_point`: squared distance to the
query (always defined). -/
def psD (p : Point) : Point → Option Coord :=
  fun q => some (euclidean_point_point_sq p q)

/-- The box scorer of `by_distance_from_point`: squared distance to the
box (always defined). -/
def bsD (p : Point) : Box → Option Coord :=
  fun b => some (euclidean_point_box_sq p b)

theorem heapWeight_enqueue_chain (ps : Point → Option Coord)
    (bs : Box → Option Coord) {h : List (Entry α)} {n : ℕ}
    (hh : heapWeight h ≤ n) (b : Box) (t : OTree α) :
    heapWeight (enqueue ps bs h b t) ≤ n + tsize t :=
  le_trans heapWeight_enqueue_le (Nat.add_le_add_right hh _)

theorem heapContentM_enqueue_chain (p : Point) {h : List (Entry α)}
    {M : Multiset (Point × α)} (hh : heapContentM h = M) (b : Box)
    (t : OTree α) :
    heapContentM (enqueue (psD p) (bsD p) h b t) = M + entriesM t := by
  subst hh
  cases t with
  | empty =>
    simp [enqueue, psD, bsD, entriesM, entries]
  | singleton c d =>
    simp [enqueue, psD, bsD, heapContentM, Entry.contentM, entriesM, entries]
  | node c0 c1 c2 c3 c4 c5 c6 c7 =>
    simp [enqueue, psD, bsD, heapContentM, Entry.contentM]

/-- The heap invariant of the distance search: point entries carry their
exact squared distance; node entries carry the squared distance to a
well-formed box whose tree is a valid node. -/
def entryInvD (p : Point) : Entry α → Prop
  | .pt s c _ => s = euclidean_point_point_sq p c
  | .bx s b t =>
    s = euclidean_point_box_sq p b ∧ wfBox b = true ∧ validB b t = true ∧
      t.isNode = true

/-- Enqueuing a child of a popped node preserves any property that holds
of invariant entries scoring at least the parent box score. -/
theorem enqueue_child_prop {p : Point} {Q : Entry α → Prop}
    {h : List (Entry α)} {bb : Box} {c : OTree α} {i : ℕ} (hi : i < 8)
    (hwb : wfBox bb = true) (hvc : validB (subbox bb i) c = true)
    (hall : ∀ x ∈ h, Q x)
    (hnew : ∀ x : Entry α, entryInvD p x →
      euclidean_point_box_sq p bb ≤ x.score → Q x) :
    ∀ x ∈ enqueue (psD p) (bsD p) h (subbox bb i) c, Q x := by
  intro x hx
  rcases mem_enqueue hx with hx | ⟨c', d', s', hc, hps, rfl⟩ | ⟨s', hn, hbs, rfl⟩
  · exact hall x hx
  · simp only [psD, Option.some.injEq] at hps
    subst hps
    refine hnew _ rfl ?_
    subst hc
    have hin : point_in_box c' (subbox bb i) = true := by
      simpa [validB] using hvc
    exact euclidean_point_box_sq_le
      (point_in_closed_mono (subbox_contained hi hwb) (point_in_box_closed hin))
  · simp only [bsD, Option.some.injEq] at hbs
    subst hbs
    refine hnew _ ⟨rfl, wfBox_subbox hi hwb, hvc, hn⟩ ?_
    exact euclidean_point_box_sq_mono (wfBox_subbox hi hwb)
      (subbox_contained hi hwb)

end OTree

namespace OTree

variable {α : Type} [DecidableEq α]

/-- Best-first run of the distance search: with enough fuel, from any heap
all of whose entries satisfy the distance invariant, the loop terminates
and yields exactly the heap's stored pairs, each score being the exact
squared distance of its point, in non-decreasing score order, and no
yield scoring below any lower bound of the heap. -/
theorem byScoreLoop_run {p : Point} {fuel : ℕ} {h : List (Entry α)}
    (hw : heapWeight h ≤ fuel) (hinv : ∀ e ∈ h, entryInvD p e) :
    ∃ out, byScoreLoop (psD p) (bsD p) fuel h = some out ∧
      ((out.map Prod.snd : List (Point × α)) : Multiset (Point × α)) =
        heapContentM h ∧
      (∀ y ∈ out, y.1 = euclidean_point_point_sq p y.2.1) ∧
      List.Sorted (fun a c => a ≤ c) (out.map fun y => y.1) ∧
      (∀ m : Coord, (∀ e ∈ h, m ≤ e.score) → ∀ y ∈ out, m ≤ y.1) := by
  induction fuel generalizing h with
  | zero =>
    cases hp : popMin h with
    | none =>
      have h0 : h = [] := popMin_eq_none.mp hp
      subst h0
      refine ⟨[], ?_, ?_, ?_, ?_, ?_⟩ <;>
        simp [byScoreLoop, popMin, heapContentM]
    | some pr =>
      obtain ⟨e, rest⟩ := pr
      exfalso
      have hwq := heapWeight_of_perm (popMin_perm hp)
      have hwp := weight_pos e
      omega
  | succ fuel ih =>
    cases hp : popMin h with
    | none =>
      have h0 : h = [] := popMin_eq_none.mp hp
      subst h0
      refine ⟨[], ?_, ?_, ?_, ?_, ?_⟩ <;>
        simp [byScoreLoop, popMin, heapContentM]
    | some pr =>
      obtain ⟨e, rest⟩ := pr
      have hperm := popMin_perm hp
      have hwq := heapWeight_of_perm hperm
      have hcnt := heapContentM_of_perm hperm
      have hmem_e : e ∈ h := by
        have he : e ∈ (h : Multiset (Entry α)) := by
          rw [hperm]; exact Multiset.mem_cons_self _ _
        simpa using he
      have hmem_rest : ∀ x ∈ rest, x ∈ h := by
        intro x hx
        have hxm : x ∈ (h : Multiset (Entry α)) := by
          rw [hperm]; exact Multiset.mem_cons_of_mem (by simpa using hx)
        simpa using hxm
      have hmin := popMin_min hp
      cases e with
      | pt s c d =>
        have hw1 : (Entry.pt s c d : Entry α).weight = 1 := rfl
        have hw' : heapWeight rest ≤ fuel := by omega
        obtain ⟨out, hrun, hout, hfid, hsort, hlb⟩ :=
          ih hw' (fun x hx => hinv x (hmem_rest x hx))
        refine ⟨(s, c, d) :: out, ?_, ?_, ?_, ?_, ?_⟩
        · simp only [byScoreLoop, hp]
          rw [hrun]
          rfl
        · rw [hcnt]
          have hcm : (Entry.pt s c d : Entry α).contentM = {(c, d)} := rfl
          rw [hcm]
          simp only [List.map_cons]
          rw [← Multiset.cons_coe, hout, Multiset.singleton_add]
        · intro y hy
          rcases List.mem_cons.mp hy with rfl | hy
          · exact hinv _ hmem_e
          · exact hfid y hy
        · simp only [List.map_cons]
          refine List.sorted_cons.mpr ⟨?_, hsort⟩
          intro v hv
          obtain ⟨y, hy, rfl⟩ := List.mem_map.mp hv
          exact hlb s (fun x hx => keyLe_score (hmin x (hmem_rest x hx))) y hy
        · intro m hm y hy
          rcases List.mem_cons.mp hy with rfl | hy
          · exact hm _ hmem_e
          · exact hlb m (fun x hx => hm x (hmem_rest x hx)) y hy
      | bx s b t =>
        obtain ⟨hs, hwb, hvb, hn⟩ := hinv _ hmem_e
        cases t with
        | empty => simp [isNode] at hn
        | singleton c d => simp [isNode] at hn
        | node c0 c1 c2 c3 c4 c5 c6 c7 =>
          rw [validB_node_iff] at hvb
          obtain ⟨hnd, hv0, hv1, hv2, hv3, hv4, hv5, hv6, hv7⟩ := hvb
          have hwt : (Entry.bx s b (node c0 c1 c2 c3 c4 c5 c6 c7) : Entry α).weight =
              1 + tsize c0 + tsize c1 + tsize c2 + tsize c3 + tsize c4 +
                tsize c5 + tsize c6 + tsize c7 := rfl
          have hW0 := heapWeight_enqueue_chain (psD p) (bsD p)
            (le_refl (heapWeight rest)) (subbox b 0) c0
          have hW1 := heapWeight_enqueue_chain (psD p) (bsD p) hW0 (subbox b 1) c1
          have hW2 := heapWeight_enqueue_chain (psD p) (bsD p) hW1 (subbox b 2) c2
          have hW3 := heapWeight_enqueue_chain (psD p) (bsD p) hW2 (subbox b 3) c3
          have hW4 := heapWeight_enqueue_chain (psD p) (bsD p) hW3 (subbox b 4) c4
          have hW5 := heapWeight_enqueue_chain (psD p) (bsD p) hW4 (subbox b 5) c5
          have hW6 := heapWeight_enqueue_chain (psD p) (bsD p) hW5 (subbox b 6) c6
          have hW7 := heapWeight_enqueue_chain (psD p) (bsD p) hW6 (subbox b 7) c7
          have hC0 := heapContentM_enqueue_chain p
            (rfl : heapContentM rest = heapContentM rest) (subbox b 0) c0
          have hC1 := heapContentM_enqueue_chain p hC0 (subbox b 1) c1
          have hC2 := heapContentM_enqueue_chain p hC1 (subbox b 2) c2
          have hC3 := heapContentM_enqueue_chain p hC2 (subbox b 3) c3
          have hC4 := heapContentM_enqueue_chain p hC3 (subbox b 4) c4
          have hC5 := heapContentM_enqueue_chain p hC4 (subbox b 5) c5
          have hC6 := heapContentM_enqueue_chain p hC5 (subbox b 6) c6
          have hC7 := heapContentM_enqueue_chain p hC6 (subbox b 7) c7
          have hQrest : ∀ x ∈ rest, entryInvD p x ∧ s ≤ x.score := by
            intro x hx
            exact ⟨hinv x (hmem_rest x hx),
              keyLe_score (hmin x (hmem_rest x hx))⟩
          have hnew : ∀ x : Entry α, entryInvD p x →
              euclidean_point_box_sq p b ≤ x.score →
              entryInvD p x ∧ s ≤ x.score := by
            intro x hx1 hx2
            exact ⟨hx1, hs ▸ hx2⟩
          have hQ0 := enqueue_child_prop (by omega) hwb hv0 hQrest hnew
          have hQ1 := enqueue_child_prop (by omega) hwb hv1 hQ0 hnew
          have hQ2 := enqueue_child_prop (by omega) hwb hv2 hQ1 hnew
          have hQ3 := enqueue_child_prop (by omega) hwb hv3 hQ2 hnew
          have hQ4 := enqueue_child_prop (by omega) hwb hv4 hQ3 hnew
          have hQ5 := enqueue_child_prop (by omega) hwb hv5 hQ4 hnew
          have hQ6 := enqueue_child_prop (by omega) hwb hv6 hQ5 hnew
          have hQ7 := enqueue_child_prop (by omega) hwb hv7 hQ6 hnew
          obtain ⟨out, hrun, hout, hfid, hsort, hlb⟩ :=
            ih (by omega) (fun x hx => (hQ7 x hx).1)
          refine ⟨out, ?_, ?_, ?_, ?_, ?_⟩
          · simp only [byScoreLoop, hp]
            exact hrun
          · rw [hcnt]
            have hcm : (Entry.bx s b (node c0 c1 c2 c3 c4 c5 c6 c7) :
                Entry α).contentM = entriesM (node c0 c1 c2 c3 c4 c5 c6 c7) := rfl
            rw [hcm, entriesM_node, hout, hC7]
            abel
          · exact hfid
          · exact hsort
          · intro m hm y hy
            refine hlb m ?_ y hy
            intro x hx
            exact le_trans (hm _ hmem_e) (hQ7 x hx).2

end OTree

/-- C1: for every octree built by a sequence of successful facade
operations and every query point `p`, `by_distance_from_point p` yields
exactly the stored (coords, payload) pairs, each exactly once, every
yielded score being the exact squared distance from `p` to its
coordinates, and the yielded distances non-decreasing. -/
theorem c1_by_distance {α : Type} [DecidableEq α] {b : Box} {t : OTree α}
    {p : Point} (hr : Reach b t) :
    ∃ out, Octree.byDistanceFromPoint (⟨b, t⟩ : Octree α) p = some out ∧
      ((out.map Prod.snd : List (Point × α)) : Multiset (Point × α)) =
        OTree.entriesM t ∧
      (∀ y ∈ out, y.1 = euclidean_point_point_sq p y.2.1) ∧
      List.Sorted (fun a c => a ≤ c)
        (out.map fun y => Real.sqrt ((y.1 : ℚ) : ℝ)) := by
  classical
  have hdef : Octree.byDistanceFromPoint (⟨b, t⟩ : Octree α) p =
      OTree.byScoreLoop (OTree.psD p) (OTree.bsD p)
        (OTree.heapWeight (OTree.enqueue (OTree.psD p) (OTree.bsD p) [] b t))
        (OTree.enqueue (OTree.psD p) (OTree.bsD p) [] b t) := rfl
  have hinv0 : ∀ e ∈ OTree.enqueue (OTree.psD p) (OTree.bsD p) [] b t,
      OTree.entryInvD p e := by
    intro x hx
    rcases OTree.mem_enqueue hx with hx | ⟨c', d', s', hc, hps, rfl⟩ |
      ⟨s', hn, hbs, rfl⟩
    · simp at hx
    · simp only [OTree.psD, Option.some.injEq] at hps
      subst hps
      exact rfl
    · simp only [OTree.bsD, Option.some.injEq] at hbs
      subst hbs
      exact ⟨rfl, hr.wf, hr.valid, hn⟩
  obtain ⟨out, hrun, hout, hfid, hsort, hlb⟩ :=
    OTree.byScoreLoop_run (le_refl _) hinv0
  have hcm := OTree.heapContentM_enqueue_chain p
    (rfl : OTree.heapContentM ([] : List (OTree.Entry α)) =
      OTree.heapContentM ([] : List (OTree.Entry α))) b t
  have hnil : OTree.heapContentM ([] : List (OTree.Entry α)) = 0 := rfl
  rw [hnil, zero_add] at hcm
  refine ⟨out, hdef ▸ hrun, hout.trans hcm, hfid, ?_⟩
  have hpw := (List.pairwise_map).mp hsort
  exact (List.pairwise_map).mpr (hpw.imp fun hyz =>
    Real.sqrt_le_sqrt (by exact_mod_cast hyz))

/-- Witness for C1: a concrete two-point reachable tree queried from the
origin. -/
theorem c1_by_distance_witness :
    ∃ out, Octree.byDistanceFromPoint
        (⟨(((0:ℚ), 8), ((0:ℚ), 8), ((0:ℚ), 8)),
          OTree.node (OTree.singleton ((1:ℚ), 1, 1) (0:ℕ)) .empty .empty .empty
            .empty .empty .empty (OTree.singleton ((5:ℚ), 5, 5) 1)⟩ :
          Octree ℕ) ((0:ℚ), 0, 0) = some out ∧
      ((out.map Prod.snd : List (Point × ℕ)) : Multiset (Point × ℕ)) =
        OTree.entriesM (OTree.node (OTree.singleton ((1:ℚ), 1, 1) (0:ℕ))
          .empty .empty .empty .empty .empty .empty
          (OTree.singleton ((5:ℚ), 5, 5) 1)) ∧
      (∀ y ∈ out, y.1 = euclidean_point_point_sq ((0:ℚ), 0, 0) y.2.1) ∧
      List.Sorted (fun a c => a ≤ c)
        (out.map fun y => Real.sqrt ((y.1 : ℚ) : ℝ)) := by
  have h1 : OTree.insert 10 (((0:ℚ), 8), ((0:ℚ), 8), ((0:ℚ), 8))
      (OTree.empty : OTree ℕ) ((1:ℚ), 1, 1) 0 =
      .ok (OTree.singleton ((1:ℚ), 1, 1) 0) := by with_unfolding_all decide
  have h2 : OTree.insert 10 (((0:ℚ), 8), ((0:ℚ), 8), ((0:ℚ), 8))
      (OTree.singleton ((1:ℚ), 1, 1) (0:ℕ)) ((5:ℚ), 5, 5) 1 =
      .ok (OTree.node (OTree.singleton ((1:ℚ), 1, 1) 0) .empty .empty .empty
        .empty .empty .empty (OTree.singleton ((5:ℚ), 5, 5) 1)) := by
    with_unfolding_all decide
  have hreach : Reach (((0:ℚ), 8), ((0:ℚ), 8), ((0:ℚ), 8))
      (OTree.node (OTree.singleton ((1:ℚ), 1, 1) (0:ℕ)) .empty .empty .empty
        .empty .empty .empty (OTree.singleton ((5:ℚ), 5, 5) 1)) :=
    Reach.ins (Reach.ins (Reach.base (by with_unfolding_all decide))
      (by with_unfolding_all decide) h1) (by with_unfolding_all decide) h2
  exact c1_by_distance hreach

/-- C8: successive pushes of the same singleton produce identical heap
tuples — score `3`, tag `False`, coords, payload and nothing else — so
entries carry no monotonically increasing sequence number distinguishing
them. -/
theorem c8_heap_counterexample :
    OTree.enqueue (OTree.psD ((0:ℚ), 0, 0)) (OTree.bsD ((0:ℚ), 0, 0))
        (OTree.enqueue (OTree.psD ((0:ℚ), 0, 0)) (OTree.bsD ((0:ℚ), 0, 0)) []
          (((0:ℚ), 8), ((0:ℚ), 8), ((0:ℚ), 8))
          (OTree.singleton ((1:ℚ), 1, 1) (0:ℕ)))
        (((0:ℚ), 8), ((0:ℚ), 8), ((0:ℚ), 8))
        (OTree.singleton ((1:ℚ), 1, 1) 0) =
      [OTree.Entry.pt 3 ((1:ℚ), 1, 1) 0, OTree.Entry.pt 3 ((1:ℚ), 1, 1) 0] := by
  with_unfolding_all decide

/-- C8 (amended): heap entries carry, besides the score, only the tag
distinguishing node-box entries from point entries, the location, and the
payload — no sequence number: what is pushed is independent of the push
history.  Ties on equal score are broken deterministically by the tag
(points before node-boxes); the comparison on the (score, tag) prefix is
total; and on every reachable tree the distance search completes without
ordering payloads. -/
theorem c8_heap_entries {α : Type} [DecidableEq α] :
    (∀ (ps : Point → Option Coord) (bs : Box → Option Coord)
      (h1 h2 : List (OTree.Entry α)) (b : Box) (t : OTree α),
      List.drop h1.length (OTree.enqueue ps bs h1 b t) =
      List.drop h2.length (OTree.enqueue ps bs h2 b t)) ∧
    (∀ e f : OTree.Entry α, OTree.keyLe e f = true ∨ OTree.keyLe f e = true) ∧
    (∀ e f : OTree.Entry α, e.score = f.score → e.isnode = false →
      OTree.keyLe e f = true) ∧
    (∀ e f : OTree.Entry α, e.score = f.score → e.isnode = true →
      f.isnode = false → OTree.keyLe e f = false) ∧
    (∀ (b : Box) (t : OTree α) (p : Point), Reach b t →
      ∃ out, Octree.byDistanceFromPoint (⟨b, t⟩ : Octree α) p = some out) := by
  refine ⟨?_, OTree.keyLe_total, ?_, ?_, ?_⟩
  · intro ps bs h1 h2 b t
    cases t with
    | empty => simp [OTree.enqueue]
    | singleton c d =>
      cases hs : ps c <;> simp [OTree.enqueue, hs, List.drop_left]
    | node c0 c1 c2 c3 c4 c5 c6 c7 =>
      cases hs : bs b <;> simp [OTree.enqueue, hs, List.drop_left]
  · intro e f hsc hn
    simp [OTree.keyLe, hsc, hn]
  · intro e f hsc hne hnf
    simp [OTree.keyLe, hsc, hne, hnf]
  · intro b t p hr
    have hinv0 : ∀ e ∈ OTree.enqueue (OTree.psD p) (OTree.bsD p) [] b t,
        OTree.entryInvD p e := by
      intro x hx
      rcases OTree.mem_enqueue hx with hx | ⟨c', d', s', hc, hps, rfl⟩ |
        ⟨s', hn, hbs, rfl⟩
      · simp at hx
      · simp only [OTree.psD, Option.some.injEq] at hps
        subst hps
        exact rfl
      · simp only [OTree.bsD, Option.some.injEq] at hbs
        subst hbs
        exact ⟨rfl, hr.wf, hr.valid, hn⟩
    obtain ⟨out, hrun, _, _, _, _⟩ := OTree.byScoreLoop_run (le_refl _) hinv0
    exact ⟨out, hrun⟩

/-- Witness for C8: at equal score a point entry precedes a node-box
entry, and the distance search on a concrete reachable octree returns a
result. -/
theorem c8_heap_entries_witness :
    OTree.keyLe (OTree.Entry.pt (3:ℚ) ((1:ℚ), 1, 1) (0:ℕ))
      (OTree.Entry.bx (3:ℚ) (((0:ℚ), 8), ((0:ℚ), 8), ((0:ℚ), 8))
        OTree.empty) = true ∧
    ∃ out, Octree.byDistanceFromPoint
      (⟨(((0:ℚ), 8), ((0:ℚ), 8), ((0:ℚ), 8)), OTree.empty⟩ : Octree ℕ)
      ((0:ℚ), 0, 0) = some out :=
  ⟨c8_heap_entries.2.2.1 _ _ rfl rfl,
   c8_heap_entries.2.2.2.2 _ _ _ (Reach.base (by with_unfolding_all decide))⟩

namespace OTree

/-- The extent of a blob tree, as maintained by the code: a blob stores
`(extent, payload)` as its data; `BlobNode.__init__` computes its
`cached_extent` as the componentwise min/max of the non-`None` children
extents, which equals folding `union_box` over them, and every node is
built from its children, so the cache always equals this recomputation. -/
def extent {β : Type} : OTree (Box × β) → Option Box
  | empty => none
  | singleton _ e => some e.1
  | node c0 c1 c2 c3 c4 c5 c6 c7 =>
    match ([extent c0, extent c1, extent c2, extent c3, extent c4, extent c5,
        extent c6, extent c7].filterMap id) with
    | [] => none
    | e :: es => some (es.foldl union_box e)

/-- `BlobTree.iter_by_extent`: a singleton yields its data triple
(modelled as the stored entry `(coords, (extent, payload))`) when
`point_fn` accepts its extent; a node asks `box_fn` of its cached extent —
`None` recurses into the children, `True` yields everything stored below,
`False` yields nothing.  A node storing nothing has extent `None`, which
the code never reaches; it is modelled as yielding nothing. -/
def iter_by_extent {β : Type} (pf : Box → Bool) (bf : Box → Option Bool) :
    OTree (Box × β) → List (Point × (Box × β))
  | empty => []
  | singleton c e => if pf e.1 then [(c, e)] else []
  | node c0 c1 c2 c3 c4 c5 c6 c7 =>
    match extent (node c0 c1 c2 c3 c4 c5 c6 c7) with
    | none => []
    | some e =>
      match bf e with
      | some false => []
      | some true => entries (node c0 c1 c2 c3 c4 c5 c6 c7)
      | none =>
        iter_by_extent pf bf c0 ++ iter_by_extent pf bf c1 ++
        iter_by_extent pf bf c2 ++ iter_by_extent pf bf c3 ++
        iter_by_extent pf bf c4 ++ iter_by_extent pf bf c5 ++
        iter_by_extent pf bf c6 ++ iter_by_extent pf bf c7

/-- The box scorer shared by `intersect_with_box` and
`intersection_with_box`: `False` if the extent is disjoint from `b`,
`True` if it lies wholly inside `b`, undecided otherwise. -/
def extent_box_fn (b e : Box) : Option Bool :=
  if boxes_disjoint e b then some false
  else if box_contains e b then some true
  else none

/-- `BlobTree.intersect_with_box b`: yield the stored regions whose
extents overlap `b`. -/
def intersect_with_box {β : Type} (t : OTree (Box × β)) (b : Box) :
    List (Point × (Box × β)) :=
  iter_by_extent (fun e => !boxes_disjoint e b) (extent_box_fn b) t

/-- `BlobTree.subset_by_extent`, the tree-returning analogue of
`iter_by_extent` (children are reassembled through `smartnode`). -/
def subset_by_extent {β : Type} (pf : Box → Bool) (bf : Box → Option Bool) :
    OTree (Box × β) → OTree (Box × β)
  | empty => empty
  | singleton c e => if pf e.1 then singleton c e else empty
  | node c0 c1 c2 c3 c4 c5 c6 c7 =>
    match extent (node c0 c1 c2 c3 c4 c5 c6 c7) with
    | none => empty
    | some e =>
      match bf e with
      | some false => empty
      | some true => node c0 c1 c2 c3 c4 c5 c6 c7
      | none =>
        smartnode (subset_by_extent pf bf c0) (subset_by_extent pf bf c1)
          (subset_by_extent pf bf c2) (subset_by_extent pf bf c3)
          (subset_by_extent pf bf c4) (subset_by_extent pf bf c5)
          (subset_by_extent pf bf c6) (subset_by_extent pf bf c7)

/-- `BlobTree.intersection_with_box b`: the subtree of regions whose
extents overlap `b`. -/
def intersection_with_box {β : Type} (t : OTree (Box × β)) (b : Box) :
    OTree (Box × β) :=
  subset_by_extent (fun e => !boxes_disjoint e b) (extent_box_fn b) t

/-- `BlobNode.reroot`: while exactly seven children are empty, descend
into the eighth. -/
def reroot {α : Type} : OTree α → OTree α
  | node c0 c1 c2 c3 c4 c5 c6 c7 =>
    if !c0.isEmpty && c1.isEmpty && c2.isEmpty && c3.isEmpty && c4.isEmpty &&
        c5.isEmpty && c6.isEmpty && c7.isEmpty then reroot c0
    else if c0.isEmpty && !c1.isEmpty && c2.isEmpty && c3.isEmpty &&
        c4.isEmpty && c5.isEmpty && c6.isEmpty && c7.isEmpty then reroot c1
    else if c0.isEmpty && c1.isEmpty && !c2.isEmpty && c3.isEmpty &&
        c4.isEmpty && c5.isEmpty && c6.isEmpty && c7.isEmpty then reroot c2
    else if c0.isEmpty && c1.isEmpty && c2.isEmpty && !c3.isEmpty &&
        c4.isEmpty && c5.isEmpty && c6.isEmpty && c7.isEmpty then reroot c3
    else if c0.isEmpty && c1.isEmpty && c2.isEmpty && c3.isEmpty &&
        !c4.isEmpty && c5.isEmpty && c6.isEmpty && c7.isEmpty then reroot c4
    else if c0.isEmpty && c1.isEmpty && c2.isEmpty && c3.isEmpty &&
        c4.isEmpty && !c5.isEmpty && c6.isEmpty && c7.isEmpty then reroot c5
    else if c0.isEmpty && c1.isEmpty && c2.isEmpty && c3.isEmpty &&
        c4.isEmpty && c5.isEmpty && !c6.isEmpty && c7.isEmpty then reroot c6
    else if c0.isEmpty && c1.isEmpty && c2.isEmpty && c3.isEmpty &&
        c4.isEmpty && c5.isEmpty && c6.isEmpty && !c7.isEmpty then reroot c7
    else node c0 c1 c2 c3 c4 c5 c6 c7
  | t => t

/-- `BlobTree.possible_overlaps`: a singleton pairs itself with the
regions of the other tree overlapping its extent; a node restricts the
other tree to its cached extent, reroots it, and recurses into its
children against the restriction. -/
def possible_overlaps {β γ : Type} :
    OTree (Box × β) → OTree (Box × γ) →
      List ((Point × (Box × β)) × (Point × (Box × γ)))
  | empty, _ => []
  | singleton c e, other =>
    (intersect_with_box other e.1).map fun y => ((c, e), y)
  | node c0 c1 c2 c3 c4 c5 c6 c7, other =>
    match extent (node c0 c1 c2 c3 c4 c5 c6 c7) with
    | none => []
    | some e =>
      let o := reroot (intersection_with_box other e)
      possible_overlaps c0 o ++ possible_overlaps c1 o ++
      possible_overlaps c2 o ++ possible_overlaps c3 o ++
      possible_overlaps c4 o ++ possible_overlaps c5 o ++
      possible_overlaps c6 o ++ possible_overlaps c7 o

end OTree

theorem boxes_disjoint_comm (a b : Box) :
    boxes_disjoint a b = boxes_disjoint b a := by
  rw [Bool.eq_iff_iff]
  simp only [boxes_disjoint, Bool.or_eq_true, decide_eq_true_eq]
  tauto

namespace OTree

/-- Containment in a left fold of box unions. -/
theorem fold_union_contains {es : List Box} :
    ∀ {x e : Box}, (x = e ∨ x ∈ es) →
      box_contains x (es.foldl union_box e) = true := by
  induction es with
  | nil =>
    intro x e h
    rcases h with rfl | h
    · exact box_contains_refl x
    · simp at h
  | cons a es ih =>
    intro x e h
    rw [List.foldl_cons]
    rcases h with rfl | h
    · exact box_contains_trans (box_contains_union_left x a) (ih (Or.inl rfl))
    · rcases List.mem_cons.mp h with rfl | h
      · exact box_contains_trans (box_contains_union_right e x) (ih (Or.inl rfl))
      · exact ih (Or.inr h)

/-- A blob tree with extent `None` stores nothing. -/
theorem entries_eq_nil_of_extent_none {β : Type} {t : OTree (Box × β)}
    (h : extent t = none) : entries t = [] := by
  induction t with
  | empty => rfl
  | singleton c e => simp [extent] at h
  | node c0 c1 c2 c3 c4 c5 c6 c7 ih0 ih1 ih2 ih3 ih4 ih5 ih6 ih7 =>
    rw [extent] at h
    split at h
    · rename_i hfm
      have hall := List.filterMap_eq_nil.mp hfm
      simp only [List.mem_cons, List.mem_singleton, id_eq] at hall
      have h0 := ih0 (hall _ (by norm_num))
      have h1 := ih1 (hall _ (by norm_num))
      have h2 := ih2 (hall _ (by norm_num))
      have h3 := ih3 (hall _ (by norm_num))
      have h4 := ih4 (hall _ (by norm_num))
      have h5 := ih5 (hall _ (by norm_num))
      have h6 := ih6 (hall _ (by norm_num))
      have h7 := ih7 (hall _ (by norm_num))
      simp [entries, h0, h1, h2, h3, h4, h5, h6, h7]
    · exact absurd h (by simp)

/-- Every stored extent is contained in the tree's cached extent. -/
theorem extent_contains {β : Type} {t : OTree (Box × β)} {x : Point × (Box × β)}
    (hx : x ∈ entries t) :
    ∃ E, extent t = some E ∧ box_contains x.2.1 E = true := by
  induction t with
  | empty => simp [entries] at hx
  | singleton c e =>
    simp only [entries, List.mem_singleton] at hx
    subst hx
    exact ⟨e.1, rfl, box_contains_refl _⟩
  | node c0 c1 c2 c3 c4 c5 c6 c7 ih0 ih1 ih2 ih3 ih4 ih5 ih6 ih7 =>
    have hstep : ∃ E', (some E') ∈ [extent c0, extent c1, extent c2, extent c3,
        extent c4, extent c5, extent c6, extent c7] ∧
        box_contains x.2.1 E' = true := by
      rcases mem_entries_node.mp hx with h | h | h | h | h | h | h | h
      · obtain ⟨E', hE, hc⟩ := ih0 h
        exact ⟨E', by simp [hE], hc⟩
      · obtain ⟨E', hE, hc⟩ := ih1 h
        exact ⟨E', by simp [hE], hc⟩
      · obtain ⟨E', hE, hc⟩ := ih2 h
        exact ⟨E', by simp [hE], hc⟩
      · obtain ⟨E', hE, hc⟩ := ih3 h
        exact ⟨E', by simp [hE], hc⟩
      · obtain ⟨E', hE, hc⟩ := ih4 h
        exact ⟨E', by simp [hE], hc⟩
      · obtain ⟨E', hE, hc⟩ := ih5 h
        exact ⟨E', by simp [hE], hc⟩
      · obtain ⟨E', hE, hc⟩ := ih6 h
        exact ⟨E', by simp [hE], hc⟩
      · obtain ⟨E', hE, hc⟩ := ih7 h
        exact ⟨E', by simp [hE], hc⟩
    obtain ⟨E', hmem, hc⟩ := hstep
    have hfm : E' ∈ ([extent c0, extent c1, extent c2, extent c3, extent c4,
        extent c5, extent c6, extent c7].filterMap id) := by
      rw [List.mem_filterMap]
      exact ⟨some E', hmem, rfl⟩
    rw [extent]
    split
    · rename_i hnil
      rw [hnil] at hfm
      simp at hfm
    · rename_i e es heq
      rw [heq] at hfm
      refine ⟨es.foldl union_box e, rfl, ?_⟩
      rcases List.mem_cons.mp hfm with rfl | hfm
      · exact box_contains_trans hc (fold_union_contains (Or.inl rfl))
      · exact box_contains_trans hc (fold_union_contains (Or.inr hfm))

end OTree

namespace OTree

/-- Exact characterization of `intersect_with_box` when every stored
extent is a proper box: it yields precisely the stored regions whose
extents are not disjoint from the query box. -/
theorem iter_spec {β : Type} [DecidableEq β] {b : Box} {t : OTree (Box × β)}
    (hp : ∀ x ∈ entries t, properBox x.2.1 = true) :
    ((intersect_with_box t b : List (Point × (Box × β))) :
        Multiset (Point × (Box × β))) =
      Multiset.filter (fun y => boxes_disjoint y.2.1 b = false) (entriesM t) := by
  induction t with
  | empty => rfl
  | singleton c e =>
    cases hd : boxes_disjoint e.1 b <;>
      simp [intersect_with_box, iter_by_extent, hd, entriesM, entries,
        Multiset.filter_singleton]
  | node c0 c1 c2 c3 c4 c5 c6 c7 ih0 ih1 ih2 ih3 ih4 ih5 ih6 ih7 =>
    cases hE : extent (node c0 c1 c2 c3 c4 c5 c6 c7) with
    | none =>
      have hnil := entries_eq_nil_of_extent_none hE
      simp [intersect_with_box, iter_by_extent, hE, entriesM, hnil]
    | some E =>
      have hsub : ∀ y : Point × (Box × β),
          y ∈ entriesM (node c0 c1 c2 c3 c4 c5 c6 c7) →
          box_contains y.2.1 E = true := by
        intro y hy
        obtain ⟨E', hE', hcy⟩ := extent_contains (mem_entriesM.mp hy)
        rw [hE] at hE'
        cases hE'
        exact hcy
      by_cases hd : boxes_disjoint E b = true
      · have hfn : extent_box_fn b E = some false := by
          simp [extent_box_fn, hd]
        have hrhs : Multiset.filter
            (fun y => boxes_disjoint y.2.1 b = false)
            (entriesM (node c0 c1 c2 c3 c4 c5 c6 c7)) = 0 := by
          refine Multiset.filter_eq_nil.mpr ?_
          intro y hy hyb
          rw [boxes_disjoint_mono (hsub y hy) hd] at hyb
          simp at hyb
        simp [intersect_with_box, iter_by_extent, hE, hfn, hrhs]
      · by_cases hc : box_contains E b = true
        · have hfn : extent_box_fn b E = some true := by
            simp [extent_box_fn, hd, hc]
          have hrhs : Multiset.filter
              (fun y => boxes_disjoint y.2.1 b = false)
              (entriesM (node c0 c1 c2 c3 c4 c5 c6 c7)) =
              entriesM (node c0 c1 c2 c3 c4 c5 c6 c7) := by
            refine Multiset.filter_eq_self.mpr ?_
            intro y hy
            exact not_disjoint_of_contains_proper
              (hp y (mem_entriesM.mp hy))
              (box_contains_trans (hsub y hy) hc)
          rw [hrhs]
          simp [intersect_with_box, iter_by_extent, hE, hfn, entriesM]
        · have hfn : extent_box_fn b E = none := by
            simp [extent_box_fn, hd, hc]
          have hp' : ∀ i, i < 8 → ∀ x ∈ entries
              (chl (node c0 c1 c2 c3 c4 c5 c6 c7) i), properBox x.2.1 = true := by
            intro i hi x hx
            refine hp x (mem_entries_iff_child.mpr ⟨i, hi, hx⟩)
          have e0 := ih0 (fun x hx => hp' 0 (by omega) x hx)
          have e1 := ih1 (fun x hx => hp' 1 (by omega) x hx)
          have e2 := ih2 (fun x hx => hp' 2 (by omega) x hx)
          have e3 := ih3 (fun x hx => hp' 3 (by omega) x hx)
          have e4 := ih4 (fun x hx => hp' 4 (by omega) x hx)
          have e5 := ih5 (fun x hx => hp' 5 (by omega) x hx)
          have e6 := ih6 (fun x hx => hp' 6 (by omega) x hx)
          have e7 := ih7 (fun x hx => hp' 7 (by omega) x hx)
          simp only [intersect_with_box] at e0 e1 e2 e3 e4 e5 e6 e7
          simp only [intersect_with_box, iter_by_extent, hE, hfn]
          rw [entriesM_node]
          simp only [Multiset.filter_add]
          rw [← e0, ← e1, ← e2, ← e3, ← e4, ← e5, ← e6, ← e7]
          simp [Multiset.coe_add]

end OTree
